import Mathlib

/-!
Verification of go-sql-boilerplate: statement generator and composite-value codecs.

A shallow embedding of `generate.go` (`GenerateQueries`) and `structs.go`
(`Value` and `Scan` of `StringSlice`, `IntSlice` and `JsonObject`)
together with the properties the specification states about them.

Modelling conventions.

* A Go `string` is a Lean `String`, i.e. a sequence of Unicode scalar values.
  Go strings are byte sequences; the embedding covers the strings that are
  valid UTF-8, on which the byte-level substring operations of package
  `strings` and the rune-level ones below coincide.
* `panic` is the `Except.error` result; a normal return is `Except.ok`.
* A Go slice that can be `nil` is an `Option (List _)`; `none` is the nil slice.
* The struct type handed over as `Model` is the list of its fields in
  declaration order, each field carrying the key/value pairs of its tag; a
  `Model` that is not a struct value is outside the embedding.
* `unicode.ToUpper`, which `strings.ToUpper` applies to the runes of a text
  that is not pure ASCII, is a table of the Go standard library; it is a
  parameter (`up`) of every definition that reaches it.
* `fmt.Sprintf` with `%s` verbs and string arguments is concatenation.
* Go `int` is 64 bits wide; an `IntSlice` holds integers of that range.
* `json.Unmarshal` (Go standard library) is a parameter of `JsonObject.Scan`.
* `json.Marshal` and `json.Unmarshal` on a `map[string]any` are not code of the
  repository; namespace `json` models them from the documented behaviour of
  package `encoding/json`, over the values `json.Any`. A `map[string]any` is
  the list of its entries in strictly increasing key order. Numbers are Go
  `int` values and integral `float64` values; a text or a value outside the
  modelled fragment yields `json.Error.notModelled`, which is no Go error.
-/

namespace strings

/-- The scan behind `strings.Contains` (`Index(s, substr) >= 0`): is `sub` a
prefix of some suffix of the text. -/
def containsChars (sub : List Char) : List Char → Bool
  | [] => sub.isEmpty
  | c :: s => sub.isPrefixOf (c :: s) || containsChars sub s

/-- Go `strings.Contains(s, substr)`. -/
def Contains (s substr : String) : Bool :=
  containsChars substr.data s.data

/-- The loop of `strings.Replace(s, old, new, -1)` for a non-empty `old`:
scanning left to right, every occurrence of `old` found at the current
position is replaced by `new` and the scan resumes after it. The first
argument bounds the number of steps; the length of the text is enough. -/
def replaceChars (old new : List Char) : Nat → List Char → List Char
  | 0, s => s
  | _ + 1, [] => []
  | fuel + 1, c :: s =>
    if old.isPrefixOf (c :: s) then
      new ++ replaceChars old new fuel ((c :: s).drop old.length)
    else
      c :: replaceChars old new fuel s

/-- Go `strings.ReplaceAll(s, old, new)`. With an empty `old` the
replacement is inserted before the first rune and after every rune. -/
def ReplaceAll (s old new : String) : String :=
  if old.data = [] then
    ⟨new.data ++ (s.data.map (fun c => c :: new.data)).flatten⟩
  else
    ⟨replaceChars old.data new.data s.data.length s.data⟩

/-- Go `strings.ToUpper(s)`: a text of ASCII bytes only has its letters
`a`..`z` mapped to `A`..`Z`; any other text is mapped rune by rune through
`unicode.ToUpper`, here `up`. -/
def ToUpper (up : Char → Char) (s : String) : String :=
  if s.data.all (fun c => decide (c.toNat < 128)) then
    ⟨s.data.map Char.toUpper⟩
  else
    ⟨s.data.map up⟩

/-- Go `strings.Join(elems, sep)`. -/
def Join : List String → String → String
  | [], _ => ""
  | [a], _ => a
  | a :: b :: rest, sep => a ++ sep ++ Join (b :: rest) sep

/-- Go `strings.Trim(s, cutset)`: all leading and all trailing runes that
occur in `cutset` are removed. -/
def Trim (s cutset : String) : String :=
  ⟨((s.data.dropWhile (fun c => cutset.data.contains c)).reverse.dropWhile
      (fun c => cutset.data.contains c)).reverse⟩

/-- The loop of `strings.Split(s, sep)` for a non-empty `sep`: `cur` is the
piece being read; at every occurrence of `sep` the piece is closed and the
scan resumes after the separator. -/
def splitChars (sep : List Char) : Nat → List Char → List Char → List (List Char)
  | 0, cur, s => [cur ++ s]
  | _ + 1, cur, [] => [cur]
  | fuel + 1, cur, c :: s =>
    if sep.isPrefixOf (c :: s) then
      cur :: splitChars sep fuel [] ((c :: s).drop sep.length)
    else
      splitChars sep fuel (cur ++ [c]) s

/-- Go `strings.Split(s, sep)`. With an empty `sep` the text is exploded
into its runes. -/
def Split (s sep : String) : List String :=
  if sep.data = [] then
    s.data.map (fun c => String.mk [c])
  else
    (splitChars sep.data s.data.length [] s.data).map String.mk

end strings

namespace slices

/-- Go `slices.Contains(s, v)`. -/
def Contains (s : List String) (v : String) : Bool :=
  match s with
  | [] => false
  | x :: rest => x == v || Contains rest v

end slices

namespace reflect

/-- A struct field as `reflect` shows it: the `key:"value"` pairs of its tag,
in the order they are written. -/
structure StructField where
  Tag : List (String × String)
deriving DecidableEq, Repr

/-- Go `StructTag.Get(key)`: the value of the first pair with that key, the
empty string when the key is absent. -/
def Get (tag : List (String × String)) (key : String) : String :=
  match tag with
  | [] => ""
  | (k, v) :: rest => if k = key then v else Get rest key

end reflect

/-- The driver name `sqlite`. -/
def DriverSqlite : String := "sqlite"

/-- The driver name `postgres`. -/
def DriverPostgres : String := "postgres"

/-- Options of `GenerateQueries`; `Model` is the field list of the struct
type of the model value. -/
structure GenerateQueriesOptions where
  TableName : String
  Model : List reflect.StructField
  AutoGeneratingCols : List String
  PrimaryKeys : List String
  Driver : String
deriving DecidableEq, Repr

/-- The seven generated statements. -/
structure GeneratedQueries where
  CreateTable : String
  DropTable : String
  Select : String
  Insert : String
  Update : String
  Upsert : String
  Delete : String
deriving DecidableEq, Repr

/-- The local type `col` of `GenerateQueries`. -/
structure col where
  name : String
  sql : String
deriving DecidableEq, Repr

/-- The `switch opts.Driver` block of `GenerateQueries`, applied to the
upper-cased `dbtype` text. -/
def rewriteType (driver : String) (dbtype : String) : String :=
  if driver = DriverSqlite then
    let dbtype :=
      if strings.Contains dbtype "SERIAL" then
        let dbtype := strings.ReplaceAll dbtype "BIGSERIAL" "INTEGER"
        let dbtype := strings.ReplaceAll dbtype "SERIAL" "INTEGER"
        let dbtype := strings.ReplaceAll dbtype "NOT NULL" ""
        let dbtype := dbtype ++ " AUTOINCREMENT"
        strings.ReplaceAll dbtype "  " " "
      else dbtype
    if strings.Contains dbtype "UUID" then
      strings.ReplaceAll dbtype "UUID" "TEXT"
    else dbtype
  else if driver = DriverPostgres then
    if strings.Contains dbtype "AUTOINCREMENT" then
      let dbtype := strings.ReplaceAll dbtype "AUTOINCREMENT" ""
      strings.ReplaceAll dbtype "INT" "SERIAL"
    else dbtype
  else dbtype

/-- One iteration of the field loop: read the tags, rewrite the type, skip
the field or append its column. -/
def fieldStep (up : Char → Char) (driver : String) (cols : List col)
    (field : reflect.StructField) : List col :=
  let name := reflect.Get field.Tag "db"
  let dbtype := rewriteType driver (strings.ToUpper up (reflect.Get field.Tag "dbtype"))
  if name = "" ∨ dbtype = "" ∨ name = "-" ∨ dbtype = "-" then
    cols
  else
    cols ++ [{ name := name, sql := dbtype }]

/-- The field loop `for i := range modelType.NumField()`. -/
def collectCols (up : Char → Char) (driver : String)
    (fields : List reflect.StructField) : List col :=
  fields.foldl (fieldStep up driver) []

/-- The `CREATE TABLE` loop. -/
def createLoop (cols : List col) : List String :=
  cols.foldl (fun colStrings c => colStrings ++ [c.name ++ " " ++ c.sql]) []

/-- The `INSERT` loop, building `inserts` and `vals` side by side. -/
def insertLoop (auto : List String) (cols : List col) : List String × List String :=
  cols.foldl
    (fun acc c =>
      if slices.Contains auto c.name then acc
      else (acc.1 ++ [c.name], acc.2 ++ [":" ++ c.name]))
    ([], [])

/-- The `UPDATE` loop, building `sets` and `wheres`. -/
def updateLoop (pks auto : List String) (cols : List col) : List String × List String :=
  cols.foldl
    (fun acc c =>
      if slices.Contains pks c.name then
        (acc.1, acc.2 ++ [c.name ++ " = :" ++ c.name])
      else if slices.Contains auto c.name then acc
      else (acc.1 ++ [c.name ++ " = :" ++ c.name], acc.2))
    ([], [])

/-- The `UPSERT` loop. -/
def upsertLoop (pks auto : List String) (cols : List col) : List String :=
  cols.foldl
    (fun upserts c =>
      if slices.Contains auto c.name || slices.Contains pks c.name then upserts
      else upserts ++ [c.name ++ " = EXCLUDED." ++ c.name])
    []

/-- Go `GenerateQueries`. A panic is an `Except.error` carrying its
message; the indexing `opts.PrimaryKeys[0]` panics when out of range. -/
def GenerateQueries (up : Char → Char) (opts : GenerateQueriesOptions) :
    Except String GeneratedQueries :=
  if opts.PrimaryKeys.length = 0 then
    .error ("No primary key specified for table: " ++ opts.TableName)
  else
    let cols := collectCols up opts.Driver opts.Model
    let colStrings := createLoop cols
    let createTable :=
      "CREATE TABLE IF NOT EXISTS " ++ opts.TableName ++ " (" ++ strings.Join colStrings ", " ++ ")"
    let dropTable := "DROP TABLE IF EXISTS " ++ opts.TableName
    let select := "SELECT * FROM " ++ opts.TableName
    let iv := insertLoop opts.AutoGeneratingCols cols
    let inserts := iv.1
    let vals := iv.2
    let insert :=
      "INSERT INTO " ++ opts.TableName ++ " (" ++ strings.Join inserts ", " ++ ") VALUES ("
        ++ strings.Join vals ", " ++ ") RETURNING *"
    let sw := updateLoop opts.PrimaryKeys opts.AutoGeneratingCols cols
    let sets := sw.1
    let wheres := sw.2
    let update :=
      "UPDATE " ++ opts.TableName ++ " SET " ++ strings.Join sets ", " ++ " WHERE "
        ++ strings.Join wheres " AND " ++ " RETURNING *"
    let upserts := upsertLoop opts.PrimaryKeys opts.AutoGeneratingCols cols
    match opts.PrimaryKeys[0]? with
    | none => .error "runtime error: index out of range [0] with length 0"
    | some firstPK =>
      let upsert :=
        "INSERT INTO " ++ opts.TableName ++ " (" ++ strings.Join inserts ", " ++ ") VALUES ("
          ++ strings.Join vals ", " ++ ") ON CONFLICT (" ++ firstPK ++ ") DO UPDATE SET "
          ++ strings.Join upserts ", " ++ " RETURNING *"
      let delete := "DELETE FROM " ++ opts.TableName ++ " WHERE " ++ strings.Join wheres " AND "
      .ok
        { CreateTable := createTable
          DropTable := dropTable
          Select := select
          Insert := insert
          Update := update
          Upsert := upsert
          Delete := delete }

/-- The struct `T1` of `generate_test.go`, with the tags of its five fields. -/
def T1 : List reflect.StructField :=
  [ ⟨[("json", "id"), ("db", "id"), ("dbtype", "BIGSERIAL NOT NULL PRIMARY KEY")]⟩,
    ⟨[("json", "field1"), ("db", "field1"), ("dbtype", "TEXT NOT NULL")]⟩,
    ⟨[("json", "field2"), ("db", "field2"), ("dbtype", "BIGSERIAL NOT NULL")]⟩,
    ⟨[("json", "field3"), ("db", "field3"), ("dbtype", "BOOLEAN NOT NULL")]⟩,
    ⟨[("json", "field4"), ("db", "field4"), ("dbtype", "UUID")]⟩ ]

/-- The options of the two runs of `TestGenerateQueries`. -/
def fixtureOpts (driver : String) : GenerateQueriesOptions :=
  { TableName := "t1"
    Model := T1
    AutoGeneratingCols := ["id", "field2"]
    PrimaryKeys := ["id"]
    Driver := driver }


instance instDecidableEqResult : DecidableEq (Except String GeneratedQueries)
  | .ok a, .ok b => decidable_of_iff (a = b) (by simp)
  | .error a, .error b => decidable_of_iff (a = b) (by simp)
  | .ok _, .error _ => isFalse (by simp)
  | .error _, .ok _ => isFalse (by simp)

/-- The type text of a field as it is rendered: the `dbtype` tag, upper-cased
and rewritten for the driver. -/
def fieldType (up : Char → Char) (driver : String) (field : reflect.StructField) : String :=
  rewriteType driver (strings.ToUpper up (reflect.Get field.Tag "dbtype"))

/-- The column name of a field: its `db` tag. -/
def fieldName (field : reflect.StructField) : String :=
  reflect.Get field.Tag "db"

/-- A field is skipped by the field loop. -/
def skipped (up : Char → Char) (driver : String) (field : reflect.StructField) : Bool :=
  decide (fieldName field = "" ∨ fieldType up driver field = "" ∨ fieldName field = "-"
    ∨ fieldType up driver field = "-")

/-- The retained fields, in declaration order, as name and rendered type. -/
def retainedCols (up : Char → Char) (driver : String)
    (fields : List reflect.StructField) : List col :=
  (fields.filter (fun f => !skipped up driver f)).map
    (fun f => { name := fieldName f, sql := fieldType up driver f })


/-- The retained fields that go into `INSERT`: those whose name is not in
`AutoGeneratingCols`. -/
def insertFields (auto : List String) (cols : List col) : List col :=
  cols.filter (fun c => decide (c.name ∉ auto))

/-- The retained fields of the `WHERE` clause: those whose name is in
`PrimaryKeys`. -/
def whereFields (pks : List String) (cols : List col) : List col :=
  cols.filter (fun c => decide (c.name ∈ pks))

/-- The retained fields of the `SET` clauses: those whose name is in neither
`PrimaryKeys` nor `AutoGeneratingCols`. -/
def setFields (pks auto : List String) (cols : List col) : List col :=
  cols.filter (fun c => decide (c.name ∉ pks ∧ c.name ∉ auto))


/-- The exclusion rule in the words of the specification, read on the declared
tags: the name is empty or `-`, or the declared storage type is empty (also
when the tag is absent) or `-`. -/
def declaredExcluded (field : reflect.StructField) : Bool :=
  decide (reflect.Get field.Tag "db" = "" ∨ reflect.Get field.Tag "db" = "-"
    ∨ reflect.Get field.Tag "dbtype" = "" ∨ reflect.Get field.Tag "dbtype" = "-")

namespace driver

/-- A dynamically typed value as it crosses the database driver (`any`):
a `string`, a `[]byte` (held as the text `string(v)` converts it to), or a
value of any other dynamic type, of which only the `%T` name matters. -/
inductive Value where
  | string (v : String)
  | bytes (v : String)
  | other (goType : String)
deriving DecidableEq, Repr

end driver

/-- Go `type StringSlice []string`; `none` is the nil slice. -/
abbrev StringSlice := Option (List String)

/-- Go `len(s)` of a slice that may be nil. -/
def StringSlice.len (s : StringSlice) : Nat :=
  match s with
  | none => 0
  | some elems => elems.length

/-- The elements of a slice that may be nil. -/
def StringSlice.elems (s : StringSlice) : List String :=
  match s with
  | none => []
  | some elems => elems

/-- Go `StringSlice.Value`: the returned value and the returned error
(`none` is the nil error). -/
def StringSlice.Value (s : StringSlice) : driver.Value × Option String :=
  if StringSlice.len s = 0 then
    (.string "\x7b\x7d", none)
  else
    (.string ("\x7b\"" ++ strings.Join (StringSlice.elems s) "\",\"" ++ "\"\x7d"), none)

/-- The loop `for i := range *s` of `StringSlice.Scan`: every position in
turn is overwritten by its own text trimmed of double quotes. -/
def trimQuotesLoop (s : List String) : List String :=
  (List.range s.length).foldl
    (fun acc i => acc.set i (strings.Trim (acc.getD i "") "\""))
    s

/-- The part of `StringSlice.Scan` after the type switch, on the source
text: the new destination and the returned error. -/
def StringSlice.scanText (s : StringSlice) (srcString : String) :
    StringSlice × Option String :=
  let srcString := strings.Trim srcString "\x7b\x7d"
  if srcString = "" then
    (s, none)
  else
    (some (trimQuotesLoop (strings.Split srcString ",")), none)

/-- Go `(*StringSlice).Scan`: from the destination before the call and the
source, the destination after the call and the returned error. -/
def StringSlice.Scan (s : StringSlice) (src : driver.Value) : StringSlice × Option String :=
  match src with
  | .string v => StringSlice.scanText s v
  | .bytes v => StringSlice.scanText s v
  | .other goType => (s, some ("unsupported type: " ++ goType ++ " for slice"))

namespace strings

/-- Go `strings.TrimSuffix(s, suffix)`: the text without the given trailing
text, or the text itself when it does not end with it. -/
def TrimSuffix (s suffix : String) : String :=
  if suffix.data.isSuffixOf s.data then
    ⟨s.data.take (s.data.length - suffix.data.length)⟩
  else s

end strings

namespace strconv

/-- The two sentinel errors a `NumError` can wrap. -/
inductive ErrKind where
  | ErrSyntax
  | ErrRange
deriving DecidableEq, Repr

/-- Go `strconv.NumError`: the failing function, the input and the cause. -/
structure NumError where
  Func : String
  Num : String
  Err : ErrKind
deriving DecidableEq, Repr

/-- A byte is a decimal digit: `'0' <= c && c <= '9'`. -/
def isDigit (c : Char) : Bool :=
  decide (48 ≤ c.toNat ∧ c.toNat ≤ 57)

/-- The digit loop of the fast path of `Atoi`: `n = n*10 + int(ch)`, a
syntax error at the first byte that is not a digit. -/
def fastLoop (s0 : String) : List Char → Nat → Except NumError Nat
  | [], n => .ok n
  | ch :: rest, n =>
    if isDigit ch then fastLoop s0 rest (n * 10 + (ch.toNat - 48))
    else .error { Func := "Atoi", Num := s0, Err := .ErrSyntax }

/-- The digit loop of `ParseUint(s, 10, 64)`: a syntax error at a byte that
is not a digit, a range error as soon as the value leaves 64 bits. -/
def parseUintLoop (s0 : String) : List Char → Nat → Except NumError Nat
  | [], n => .ok n
  | c :: rest, n =>
    if isDigit c then
      if n ≥ 1844674407370955162 then
        .error { Func := "ParseUint", Num := s0, Err := .ErrRange }
      else
        let n1 := n * 10 + (c.toNat - 48)
        if n1 > 18446744073709551615 then
          .error { Func := "ParseUint", Num := s0, Err := .ErrRange }
        else parseUintLoop s0 rest n1
    else .error { Func := "ParseUint", Num := s0, Err := .ErrSyntax }

/-- Go `ParseUint(s, 10, 64)`. -/
def ParseUint (s : String) : Except NumError Nat :=
  if s = "" then .error { Func := "ParseUint", Num := s, Err := .ErrSyntax }
  else parseUintLoop s s.data 0

/-- Go `ParseInt(s, 10, 0)` with a 64-bit `int`, as `Atoi` calls it on its
slow path (the error already carries the function name `Atoi`). A range
error of `ParseUint` comes with the value `1<<64 - 1`. -/
def ParseInt (s : String) : Except NumError Int :=
  if s = "" then .error { Func := "Atoi", Num := s, Err := .ErrSyntax }
  else
    let neg := s.data.head? = some '-'
    let rest : String :=
      if s.data.head? = some '+' ∨ s.data.head? = some '-' then ⟨s.data.tail⟩ else s
    match ParseUint rest with
    | .error e =>
      if e.Err = .ErrSyntax then .error { Func := "Atoi", Num := s, Err := .ErrSyntax }
      else .error { Func := "Atoi", Num := s, Err := .ErrRange }
    | .ok un =>
      if ¬ neg ∧ un ≥ 9223372036854775808 then
        .error { Func := "Atoi", Num := s, Err := .ErrRange }
      else if neg ∧ un > 9223372036854775808 then
        .error { Func := "Atoi", Num := s, Err := .ErrRange }
      else if neg then .ok (-(un : Int))
      else .ok (un : Int)

/-- Go `strconv.Atoi(s)` with a 64-bit `int`: the fast path for texts of 1
to 18 bytes, `ParseInt(s, 10, 0)` for the others. -/
def Atoi (s : String) : Except NumError Int :=
  if 0 < s.utf8ByteSize ∧ s.utf8ByteSize < 19 then
    let signed := s.data.head? = some '-' ∨ s.data.head? = some '+'
    let digits := if signed then s.data.tail else s.data
    if signed ∧ digits.length < 1 then
      .error { Func := "Atoi", Num := s, Err := .ErrSyntax }
    else
      match fastLoop s digits 0 with
      | .error e => .error e
      | .ok n => if s.data.head? = some '-' then .ok (-(n : Int)) else .ok (n : Int)
  else ParseInt s

end strconv

namespace fmt

/-- The decimal digit loop of `fmtInteger`: while `u >= 10` the last digit is
written in front of the buffer, then the leading digit. The first argument
bounds the number of steps; `u` itself is enough. -/
def fmtDigits : Nat → Nat → List Char → List Char
  | 0, u, buf => Char.ofNat (48 + u) :: buf
  | fuel + 1, u, buf =>
    if u ≥ 10 then fmtDigits fuel (u / 10) (Char.ofNat (48 + u % 10) :: buf)
    else Char.ofNat (48 + u) :: buf

/-- The text of `fmt.Sprintf("%d", num)`: the decimal digits of the absolute
value, after a minus sign when the number is negative. -/
def fmtInteger (num : Int) : String :=
  if num < 0 then ⟨'-' :: fmtDigits num.natAbs num.natAbs []⟩
  else ⟨fmtDigits num.natAbs num.natAbs []⟩

end fmt

/-- The number a run of decimal digits denotes when read after the value
`n`: the accumulation `n*10 + digit` of the parsing loops. -/
def digitsValue : List Char → Nat → Nat
  | [], n => n
  | c :: rest, n => digitsValue rest (n * 10 + (c.toNat - 48))

namespace json

/-- Modelled from the spec: the values of the "key-to-any mapping", as the
Go standard library package `encoding/json` (not repository code) handles
them in a `map[string]any`: `nil`, a `bool`, a Go `int`, a `float64`, a
`string`, a `[]any` and a nested `map[string]any` or `JsonObject`, which
are written alike. A `float64` is held as the integer it equals, so only
integral `float64` values are modelled. A map is held as its entries in
strictly increasing key order, the order in which `json.Marshal` writes
them. -/
inductive Any where
  | null
  | bool (b : Bool)
  | int (n : Int)
  | float64 (v : Int)
  | string (s : String)
  | array (elems : List Any)
  | object (fields : List (String × Any))

/-- The errors of `encoding/json` that the model tells apart, and
`notModelled`, which is no Go error: the input leaves the modelled
fragment (a `float64` above `2^53` in magnitude, a number literal with a
fraction or an exponent, the literal `-0`, a map not in key order). -/
inductive Error where
  | SyntaxError
  | UnmarshalTypeError (value : String)
  | notModelled
deriving DecidableEq, Repr

/-- The digit of `"0123456789abcdef"` at an index below 16. -/
def hexDigit (d : Nat) : Char :=
  if d < 10 then Char.ofNat (48 + d) else Char.ofNat (87 + d)

/-- Modelled from the spec: what `json.Marshal` writes for one rune of a
string, HTML escaping being on: `"` and `\` after a backslash, the short
escapes of backspace, form feed, newline, carriage return and tab, `\u00XX`
for the other control characters and for `<`, `>`, `&`, the escapes
`\u2028` and `\u2029` for the two line separators, every other rune as it is.
(Before Go 1.22 backspace and form feed were written `\u0008` and `\u000c`;
`unquote` reads both forms as the same rune.) -/
def escapeRune (c : Char) : List Char :=
  if c = '"' then ['\\', '"']
  else if c = '\\' then ['\\', '\\']
  else if c.toNat = 8 then ['\\', 'b']
  else if c.toNat = 12 then ['\\', 'f']
  else if c.toNat = 10 then ['\\', 'n']
  else if c.toNat = 13 then ['\\', 'r']
  else if c.toNat = 9 then ['\\', 't']
  else if c.toNat < 32 ∨ c = '<' ∨ c = '>' ∨ c = '&' then
    ['\\', 'u', '0', '0', hexDigit (c.toNat / 16), hexDigit (c.toNat % 16)]
  else if c.toNat = 8232 ∨ c.toNat = 8233 then
    ['\\', 'u', '2', '0', '2', hexDigit (c.toNat % 16)]
  else [c]

/-- Modelled from the spec: the quoted text `json.Marshal` writes for a
string, also for a map key. -/
def appendString (s : String) : List Char :=
  '"' :: (s.data.map escapeRune).flatten ++ ['"']

/-- A map representation is in strictly increasing key order. -/
def keysIncreasing : List String → Bool
  | [] => true
  | [_] => true
  | a :: b :: rest => decide (a < b) && keysIncreasing (b :: rest)

mutual

/-- Modelled from the spec: the text `json.Marshal` writes for a value, in
compact form; `none` when the value leaves the modelled fragment. An
integral `float64` of magnitude at most `2^53` is written as that integer. -/
def encode : Any → Option (List Char)
  | .null => some ['n', 'u', 'l', 'l']
  | .bool true => some ['t', 'r', 'u', 'e']
  | .bool false => some ['f', 'a', 'l', 's', 'e']
  | .int n => some (fmt.fmtInteger n).data
  | .float64 v => if v.natAbs ≤ 9007199254740992 then some (fmt.fmtInteger v).data else none
  | .string s => some (appendString s)
  | .array elems =>
    match encodeElems elems with
    | none => none
    | some texts => some ('[' :: List.intercalate [','] texts ++ [']'])
  | .object fields =>
    if keysIncreasing (fields.map Prod.fst) then
      match encodeMembers fields with
      | none => none
      | some texts => some ('\x7b' :: List.intercalate [','] texts ++ ['\x7d'])
    else none

/-- The texts of the elements of an array. -/
def encodeElems : List Any → Option (List (List Char))
  | [] => some []
  | v :: rest =>
    match encode v, encodeElems rest with
    | some t, some ts => some (t :: ts)
    | _, _ => none

/-- The texts `"key":value` of the entries of a map. -/
def encodeMembers : List (String × Any) → Option (List (List Char))
  | [] => some []
  | (k, v) :: rest =>
    match encode v, encodeMembers rest with
    | some t, some ts => some ((appendString k ++ ':' :: t) :: ts)
    | _, _ => none

end

/-- The value of a hexadecimal digit, of either case. -/
def hexVal (c : Char) : Option Nat :=
  if 48 ≤ c.toNat ∧ c.toNat ≤ 57 then some (c.toNat - 48)
  else if 97 ≤ c.toNat ∧ c.toNat ≤ 102 then some (c.toNat - 87)
  else if 65 ≤ c.toNat ∧ c.toNat ≤ 70 then some (c.toNat - 55)
  else none

/-- Go `getu4`: the code unit of a text that starts with `\u` and four
hexadecimal digits. -/
def getu4 (s : List Char) : Option Nat :=
  match s with
  | b :: u :: h1 :: h2 :: h3 :: h4 :: _ =>
    if b = '\\' ∧ u = 'u' then
      match hexVal h1, hexVal h2, hexVal h3, hexVal h4 with
      | some a, some b, some c, some d => some (((a * 16 + b) * 16 + c) * 16 + d)
      | _, _, _, _ => none
    else none
  | _ => none

/-- Modelled from the spec: how `json.Unmarshal` reads a string literal
after its opening quote, up to the closing quote: escapes are resolved, a
pair of surrogate escapes gives one rune, a lone surrogate the replacement
rune; a raw control character or an unknown escape is a syntax error. The
first argument bounds the number of steps. -/
def unquote : Nat → List Char → List Char → Except Error (String × List Char)
  | 0, _, _ => .error .notModelled
  | fuel + 1, s, acc =>
    match s with
    | [] => .error .SyntaxError
    | c :: rest =>
      if c = '"' then .ok (⟨acc⟩, rest)
      else if c = '\\' then
        match rest with
        | [] => .error .SyntaxError
        | e :: rest2 =>
          if e = '"' ∨ e = '\\' ∨ e = '/' then unquote fuel rest2 (acc ++ [e])
          else if e = 'b' then unquote fuel rest2 (acc ++ [Char.ofNat 8])
          else if e = 'f' then unquote fuel rest2 (acc ++ [Char.ofNat 12])
          else if e = 'n' then unquote fuel rest2 (acc ++ [Char.ofNat 10])
          else if e = 'r' then unquote fuel rest2 (acc ++ [Char.ofNat 13])
          else if e = 't' then unquote fuel rest2 (acc ++ [Char.ofNat 9])
          else if e = 'u' then
            match getu4 (c :: e :: rest2) with
            | none => .error .SyntaxError
            | some rr =>
              if 55296 ≤ rr ∧ rr < 57344 then
                match getu4 (rest2.drop 4) with
                | none => unquote fuel (rest2.drop 4) (acc ++ [Char.ofNat 65533])
                | some rr1 =>
                  if rr < 56320 ∧ 56320 ≤ rr1 ∧ rr1 < 57344 then
                    unquote fuel (rest2.drop 10)
                      (acc ++ [Char.ofNat ((rr - 55296) * 1024 + (rr1 - 56320) + 65536)])
                  else unquote fuel (rest2.drop 4) (acc ++ [Char.ofNat 65533])
              else unquote fuel (rest2.drop 4) (acc ++ [Char.ofNat rr])
          else .error .SyntaxError
      else if c.toNat < 32 then .error .SyntaxError
      else unquote fuel rest (acc ++ [c])

/-- JSON white space: space, tab, carriage return, newline. -/
def isSpace (c : Char) : Bool :=
  decide (c = ' ' ∨ c.toNat = 9 ∨ c.toNat = 13 ∨ c.toNat = 10)

/-- The number of binary digits of a number; the first argument bounds the
number of steps, the number itself being enough. -/
def bitLen : Nat → Nat → Nat
  | 0, _ => 0
  | fuel + 1, n => if n = 0 then 0 else bitLen fuel (n / 2) + 1

/-- Modelled from the spec: the `float64` nearest to a natural number, ties
going to the even mantissa, as `strconv.ParseFloat` rounds: the number itself
up to `2^53`, beyond that its 53 leading binary digits, rounded. -/
def roundFloat64 (a : Nat) : Nat :=
  if a ≤ 9007199254740992 then a
  else
    let shift := bitLen a a - 53
    let q := a / 2 ^ shift
    let r := a % 2 ^ shift
    let half := 2 ^ (shift - 1)
    if r > half ∨ (r = half ∧ q % 2 = 1) then (q + 1) * 2 ^ shift else q * 2 ^ shift

/-- Modelled from the spec: how `json.Unmarshal` reads a number literal
into an `any`: an optional minus sign and the digits of an integer without
a leading zero, decoded to the nearest `float64`. A fraction, an exponent,
the literal `-0` and a value beyond the `float64` range leave the modelled
fragment. -/
def parseNumber (s : List Char) : Except Error (Any × List Char) :=
  let neg := decide (s.head? = some '-')
  let body := if neg then s.tail else s
  let digits := body.takeWhile strconv.isDigit
  let rest := body.dropWhile strconv.isDigit
  if digits = [] then .error .SyntaxError
  else if digits.head? = some '0' ∧ 1 < digits.length then .error .SyntaxError
  else if rest.head? = some '.' ∨ rest.head? = some 'e' ∨ rest.head? = some 'E' then
    .error .notModelled
  else if neg ∧ digitsValue digits 0 = 0 then .error .notModelled
  else if roundFloat64 (digitsValue digits 0) ≥ 2 ^ 1024 then .error .notModelled
  else if neg then .ok (.float64 (-(roundFloat64 (digitsValue digits 0) : Int)), rest)
  else .ok (.float64 (roundFloat64 (digitsValue digits 0) : Int), rest)

/-- Go map assignment `m[k] = v` on a map held in increasing key order. -/
def mapStore (k : String) (v : Any) : List (String × Any) → List (String × Any)
  | [] => [(k, v)]
  | (a, w) :: rest =>
    if k < a then (k, v) :: (a, w) :: rest
    else if k = a then (k, v) :: rest
    else (a, w) :: mapStore k v rest

mutual

/-- Modelled from the spec: how `json.Unmarshal` reads one JSON value into
an `any`, white space skipped: an object gives a fresh map, an array a
slice, a number a `float64`; more than 10000 nested objects and arrays are a
syntax error. The result comes with the text left after the value. The
first argument bounds the number of steps, the second counts the enclosing
objects and arrays. -/
def parseValue : Nat → Nat → List Char → Except Error (Any × List Char)
  | 0, _, _ => .error .notModelled
  | fuel + 1, depth, s =>
    match s.dropWhile isSpace with
    | [] => .error .SyntaxError
    | c :: rest =>
      if c = '\x7b' then
        if depth + 1 > 10000 then .error .SyntaxError
        else
          match rest.dropWhile isSpace with
          | [] => .error .SyntaxError
          | d :: rest2 =>
            if d = '\x7d' then .ok (.object [], rest2)
            else parseMembers fuel (depth + 1) (d :: rest2) []
      else if c = '[' then
        if depth + 1 > 10000 then .error .SyntaxError
        else
          match rest.dropWhile isSpace with
          | [] => .error .SyntaxError
          | d :: rest2 =>
            if d = ']' then .ok (.array [], rest2)
            else parseElems fuel (depth + 1) (d :: rest2) []
      else if c = '"' then
        match unquote (rest.length + 1) rest [] with
        | .error e => .error e
        | .ok (str, rest2) => .ok (.string str, rest2)
      else if ['t', 'r', 'u', 'e'].isPrefixOf (c :: rest) then
        .ok (.bool true, (c :: rest).drop 4)
      else if ['f', 'a', 'l', 's', 'e'].isPrefixOf (c :: rest) then
        .ok (.bool false, (c :: rest).drop 5)
      else if ['n', 'u', 'l', 'l'].isPrefixOf (c :: rest) then
        .ok (.null, (c :: rest).drop 4)
      else if c = '-' ∨ strconv.isDigit c then parseNumber (c :: rest)
      else .error .SyntaxError

/-- The elements of an array after the first has been found to exist:
a value, then a comma and the next element, or the closing bracket. -/
def parseElems : Nat → Nat → List Char → List Any → Except Error (Any × List Char)
  | 0, _, _, _ => .error .notModelled
  | fuel + 1, depth, s, acc =>
    match parseValue fuel depth s with
    | .error e => .error e
    | .ok (v, rest) =>
      match rest.dropWhile isSpace with
      | [] => .error .SyntaxError
      | d :: rest2 =>
        if d = ',' then parseElems fuel depth rest2 (acc ++ [v])
        else if d = ']' then .ok (.array (acc ++ [v]), rest2)
        else .error .SyntaxError

/-- The entries of an object: a string key, a colon, a value, stored in the
map, then a comma and the next entry, or the closing brace. -/
def parseMembers : Nat → Nat → List Char → List (String × Any) →
    Except Error (Any × List Char)
  | 0, _, _, _ => .error .notModelled
  | fuel + 1, depth, s, acc =>
    match s.dropWhile isSpace with
    | [] => .error .SyntaxError
    | q :: afterQuote =>
      if q = '"' then
        match unquote (afterQuote.length + 1) afterQuote [] with
        | .error e => .error e
        | .ok (key, rest) =>
          match rest.dropWhile isSpace with
          | [] => .error .SyntaxError
          | colon :: rest2 =>
            if colon = ':' then
              match parseValue fuel depth rest2 with
              | .error e => .error e
              | .ok (v, rest3) =>
                match rest3.dropWhile isSpace with
                | [] => .error .SyntaxError
                | d :: rest4 =>
                  if d = ',' then parseMembers fuel depth rest4 (mapStore key v acc)
                  else if d = '\x7d' then .ok (.object (mapStore key v acc), rest4)
                  else .error .SyntaxError
            else .error .SyntaxError
      else .error .SyntaxError

end

/-- Modelled from the spec: the whole text is one JSON value, white space
around it allowed, anything else after it a syntax error. -/
def decodeText (data : String) : Except Error Any :=
  match parseValue (2 * data.data.length + 2) 0 data.data with
  | .error e => .error e
  | .ok (v, rest) => if rest.dropWhile isSpace = [] then .ok v else .error .SyntaxError

end json

/-- A Go `error` value returned by the codecs: one made by `fmt.Errorf`, a
`*strconv.NumError`, or an error of `encoding/json`. -/
inductive GoError where
  | errorf (text : String)
  | numError (e : strconv.NumError)
  | jsonError (e : json.Error)
deriving DecidableEq, Repr

/-- Go `type IntSlice []int`, `int` being 64 bits wide; `none` is the nil
slice. -/
abbrev IntSlice := Option (List Int)

/-- Go `len(s)` of a slice that may be nil. -/
def IntSlice.len (s : IntSlice) : Nat :=
  match s with
  | none => 0
  | some elems => elems.length

/-- The elements of a slice that may be nil. -/
def IntSlice.elems (s : IntSlice) : List Int :=
  match s with
  | none => []
  | some elems => elems

/-- Go `IntSlice.Value`: the returned value and the returned error. -/
def IntSlice.Value (s : IntSlice) : driver.Value × Option GoError :=
  if IntSlice.len s = 0 then
    (.string "\x7b\x7d", none)
  else
    let v := (IntSlice.elems s).foldl (fun v num => v ++ (fmt.fmtInteger num ++ ",")) ""
    let v := strings.TrimSuffix v ","
    (.string ("\x7b" ++ v ++ "\x7d"), none)

/-- The loop of `IntSlice.Scan` over the tokens of `strings.SplitSeq`: the
first token `Atoi` rejects ends the loop with its error, every other token
is appended to `nums`. -/
def IntSlice.atoiLoop : List String → List Int → Except strconv.NumError (List Int)
  | [], nums => .ok nums
  | numString :: rest, nums =>
    match strconv.Atoi numString with
    | .error err => .error err
    | .ok num => IntSlice.atoiLoop rest (nums ++ [num])

/-- The part of `IntSlice.Scan` after the type switch, on the source text. -/
def IntSlice.scanText (s : IntSlice) (srcString : String) : IntSlice × Option GoError :=
  let srcString := strings.Trim srcString "\x7b\x7d"
  if srcString = "" then
    (s, none)
  else
    match IntSlice.atoiLoop (strings.Split srcString ",") [] with
    | .error err => (s, some (.numError err))
    | .ok nums => (some nums, none)

/-- Go `(*IntSlice).Scan`: from the destination before the call and the
source, the destination after the call and the returned error. -/
def IntSlice.Scan (s : IntSlice) (src : driver.Value) : IntSlice × Option GoError :=
  match src with
  | .string v => IntSlice.scanText s v
  | .bytes v => IntSlice.scanText s v
  | .other goType => (s, some (.errorf ("unsupported type: " ++ goType ++ " for slice")))

/-- Go `(*JsonObject).Scan`. The representation `J` of `map[string]any` and
`json.Unmarshal` (Go standard library), which receives the source bytes and
the destination, are parameters. -/
def JsonObject.Scan {J : Type} (Unmarshal : String → J → J × Option GoError)
    (obj : J) (src : driver.Value) : J × Option GoError :=
  match src with
  | .string v => Unmarshal v obj
  | .bytes v => Unmarshal v obj
  | .other goType => (obj, some (.errorf ("unsupported type: " ++ goType ++ " for json")))

/-- The specification's "decimal integer" token: an optional sign `+` or `-`
followed by one or more decimal digits. -/
def isDecimalInteger (tok : String) : Bool :=
  match tok.data with
  | [] => false
  | c :: rest =>
    let digits := if c = '+' ∨ c = '-' then rest else c :: rest
    !digits.isEmpty && digits.all strconv.isDigit

/-- Go `type JsonObject map[string]any`: `none` is the nil map, `some` holds
the entries in strictly increasing key order. -/
abbrev JsonObject := Option (List (String × json.Any))

namespace json

/-- Modelled from the spec: Go `json.Marshal` on a `JsonObject`, the text and
no error, or the error: a nil map is written `null`, any other map as a JSON
object with its entries in key order. -/
def Marshal (obj : JsonObject) : Except Error String :=
  match obj with
  | none => .ok "null"
  | some fields =>
    match encode (.object fields) with
    | none => .error .notModelled
    | some text => .ok ⟨text⟩

end json

instance instDecidableEqMarshal : DecidableEq (Except json.Error String)
  | .ok a, .ok b => decidable_of_iff (a = b) (by simp)
  | .error a, .error b => decidable_of_iff (a = b) (by simp)
  | .ok _, .error _ => isFalse (by simp)
  | .error _, .ok _ => isFalse (by simp)

/-- Go `JsonObject.Value`: the bytes and the error of `json.Marshal(obj)`;
the nil byte slice that comes with an error is held as the empty text. -/
def JsonObject.Value (obj : JsonObject) : driver.Value × Option GoError :=
  match json.Marshal obj with
  | .ok text => (.bytes text, none)
  | .error e => (.bytes "", some (.jsonError e))

namespace json

/-- Modelled from the spec: Go `json.Unmarshal(data, &obj)` on the receiver
of `(*JsonObject).Scan`, from the text and the map before the call to the map
after the call and the error. A text that is not valid JSON changes
nothing; `null` changes nothing and is no error; an object is stored entry by
entry into the map, a nil map being allocated first and existing entries
being kept; any other value is a type error and changes nothing. -/
def Unmarshal (data : String) (obj : JsonObject) : JsonObject × Option GoError :=
  match decodeText data with
  | .error e => (obj, some (.jsonError e))
  | .ok .null => (obj, none)
  | .ok (.object fields) =>
    (some (fields.foldl (fun m kv => mapStore kv.1 kv.2 m) (obj.getD [])), none)
  | .ok (.array _) => (obj, some (.jsonError (.UnmarshalTypeError "array")))
  | .ok (.string _) => (obj, some (.jsonError (.UnmarshalTypeError "string")))
  | .ok (.bool _) => (obj, some (.jsonError (.UnmarshalTypeError "bool")))
  | .ok (.int _) => (obj, some (.jsonError (.UnmarshalTypeError "number")))
  | .ok (.float64 _) => (obj, some (.jsonError (.UnmarshalTypeError "number")))

/-- What decoding makes of a value: every Go `int` becomes the `float64` of
the same number, inside arrays and maps too. -/
def decoded : Any → Any
  | .null => .null
  | .bool b => .bool b
  | .int n => .float64 n
  | .float64 v => .float64 v
  | .string s => .string s
  | .array elems => .array (decodedElems elems)
  | .object fields => .object (decodedFields fields)
where
  /-- The decoded elements of an array. -/
  decodedElems : List Any → List Any
    | [] => []
    | v :: rest => decoded v :: decodedElems rest
  /-- The decoded entries of a map. -/
  decodedFields : List (String × Any) → List (String × Any)
    | [] => []
    | (k, v) :: rest => (k, decoded v) :: decodedFields rest

/-- Every number of a value is an integer of magnitude at most `2^53`, the
integers a `float64` holds exactly. -/
def exactNumbers : Any → Bool
  | .null => true
  | .bool _ => true
  | .int n => decide (n.natAbs ≤ 9007199254740992)
  | .float64 v => decide (v.natAbs ≤ 9007199254740992)
  | .string _ => true
  | .array elems => exactElems elems
  | .object fields => exactFields fields
where
  /-- The same for the elements of an array. -/
  exactElems : List Any → Bool
    | [] => true
    | v :: rest => exactNumbers v && exactElems rest
  /-- The same for the entries of a map. -/
  exactFields : List (String × Any) → Bool
    | [] => true
    | (_, v) :: rest => exactNumbers v && exactFields rest

/-- Every map of a value, at any depth, is held in strictly increasing key
order: the representation of a Go map with distinct keys. -/
def keysOrdered : Any → Bool
  | .null => true
  | .bool _ => true
  | .int _ => true
  | .float64 _ => true
  | .string _ => true
  | .array elems => orderedElems elems
  | .object fields => keysIncreasing (fields.map Prod.fst) && orderedFields fields
where
  /-- The same for the elements of an array. -/
  orderedElems : List Any → Bool
    | [] => true
    | v :: rest => keysOrdered v && orderedElems rest
  /-- The same for the values of the entries of a map. -/
  orderedFields : List (String × Any) → Bool
    | [] => true
    | (_, v) :: rest => keysOrdered v && orderedFields rest

/-- The number of objects and arrays nested in one another in a value. -/
def nesting : Any → Nat
  | .null => 0
  | .bool _ => 0
  | .int _ => 0
  | .float64 _ => 0
  | .string _ => 0
  | .array elems => nestingElems elems + 1
  | .object fields => nestingFields fields + 1
where
  /-- The deepest nesting among the elements of an array. -/
  nestingElems : List Any → Nat
    | [] => 0
    | v :: rest => max (nesting v) (nestingElems rest)
  /-- The deepest nesting among the entries of a map. -/
  nestingFields : List (String × Any) → Nat
    | [] => 0
    | (_, v) :: rest => max (nesting v) (nestingFields rest)

/-- The empty array inside `k` enclosing arrays: `k + 1` arrays nested in
one another. -/
def nested : Nat → Any
  | 0 => .array []
  | k + 1 => .array [nested k]

end json

/-- The text after a value inside a document written by `json.Marshal`: the
end of the text, a comma, a closing bracket or a closing brace. -/
def json.atDelimiter : List Char → Bool
  | [] => true
  | c :: _ => decide (c = ',' ∨ c = ']' ∨ c = '\x7d')

theorem foldl_append_filter {α β : Type} (p : α → Bool) (f : α → β) (l : List α) (init : List β) :
    l.foldl (fun acc x => if p x then acc else acc ++ [f x]) init
      = init ++ (l.filter (fun x => !p x)).map f := by
  induction l generalizing init with
  | nil => simp
  | cons x xs ih =>
    simp only [List.foldl_cons, ih]
    by_cases h : p x <;> simp [h, List.filter_cons]

theorem slices_contains_iff (l : List String) (v : String) :
    slices.Contains l v = true ↔ v ∈ l := by
  induction l with
  | nil => simp [slices.Contains]
  | cons x xs ih =>
    simp only [slices.Contains, Bool.or_eq_true, beq_iff_eq, ih, List.mem_cons]
    constructor
    · rintro (h | h)
      · exact Or.inl h.symm
      · exact Or.inr h
    · rintro (h | h)
      · exact Or.inl h.symm
      · exact Or.inr h

theorem collectCols_eq (up : Char → Char) (driver : String) (fields : List reflect.StructField) :
    collectCols up driver fields = retainedCols up driver fields := by
  have h := foldl_append_filter (skipped up driver)
    (fun f => ({ name := fieldName f, sql := fieldType up driver f } : col)) fields []
  simp only [List.nil_append] at h
  rw [retainedCols, ← h, collectCols]
  congr 1
  funext cols field
  simp only [fieldStep, skipped, fieldName, fieldType, decide_eq_true_eq]

theorem createLoop_eq (cols : List col) :
    createLoop cols = cols.map (fun c => c.name ++ " " ++ c.sql) := by
  have h := foldl_append_filter (fun _ : col => false) (fun c => c.name ++ " " ++ c.sql) cols []
  simpa [createLoop] using h

theorem insertLoop_fold (auto : List String) (cols : List col) (a b : List String) :
    cols.foldl
        (fun acc c =>
          if slices.Contains auto c.name then acc
          else (acc.1 ++ [c.name], acc.2 ++ [":" ++ c.name]))
        (a, b)
      = (a ++ (insertFields auto cols).map (fun c => c.name),
         b ++ (insertFields auto cols).map (fun c => ":" ++ c.name)) := by
  induction cols generalizing a b with
  | nil => simp [insertFields]
  | cons c cs ih =>
    simp only [List.foldl_cons]
    by_cases h : c.name ∈ auto
    · have hc : slices.Contains auto c.name = true := (slices_contains_iff _ _).2 h
      simp only [hc, if_true, ih]
      simp [insertFields, List.filter_cons, h]
    · have hc : ¬ slices.Contains auto c.name = true := fun hc => h ((slices_contains_iff _ _).1 hc)
      simp only [hc, if_false, ih]
      simp [insertFields, List.filter_cons, h]

theorem insertLoop_eq (auto : List String) (cols : List col) :
    insertLoop auto cols
      = ((insertFields auto cols).map (fun c => c.name),
         (insertFields auto cols).map (fun c => ":" ++ c.name)) := by
  simpa [insertLoop] using insertLoop_fold auto cols [] []

theorem updateLoop_fold (pks auto : List String) (cols : List col) (a b : List String) :
    cols.foldl
        (fun acc c =>
          if slices.Contains pks c.name then
            (acc.1, acc.2 ++ [c.name ++ " = :" ++ c.name])
          else if slices.Contains auto c.name then acc
          else (acc.1 ++ [c.name ++ " = :" ++ c.name], acc.2))
        (a, b)
      = (a ++ (setFields pks auto cols).map (fun c => c.name ++ " = :" ++ c.name),
         b ++ (whereFields pks cols).map (fun c => c.name ++ " = :" ++ c.name)) := by
  induction cols generalizing a b with
  | nil => simp [setFields, whereFields]
  | cons c cs ih =>
    simp only [List.foldl_cons]
    by_cases hp : c.name ∈ pks
    · have hc : slices.Contains pks c.name = true := (slices_contains_iff _ _).2 hp
      simp only [hc, if_true, ih]
      simp [setFields, whereFields, List.filter_cons, hp]
    · have hc : ¬ slices.Contains pks c.name = true := fun hc => hp ((slices_contains_iff _ _).1 hc)
      by_cases ha : c.name ∈ auto
      · have hd : slices.Contains auto c.name = true := (slices_contains_iff _ _).2 ha
        simp only [hc, hd, if_true, if_false, ih]
        simp [setFields, whereFields, List.filter_cons, hp, ha]
      · have hd : ¬ slices.Contains auto c.name = true :=
          fun hd => ha ((slices_contains_iff _ _).1 hd)
        simp only [hc, hd, if_false, ih]
        simp [setFields, whereFields, List.filter_cons, hp, ha]

theorem updateLoop_eq (pks auto : List String) (cols : List col) :
    updateLoop pks auto cols
      = ((setFields pks auto cols).map (fun c => c.name ++ " = :" ++ c.name),
         (whereFields pks cols).map (fun c => c.name ++ " = :" ++ c.name)) := by
  simpa [updateLoop] using updateLoop_fold pks auto cols [] []

theorem upsertLoop_eq (pks auto : List String) (cols : List col) :
    upsertLoop pks auto cols
      = (setFields pks auto cols).map (fun c => c.name ++ " = EXCLUDED." ++ c.name) := by
  have h := foldl_append_filter
    (fun c : col => slices.Contains auto c.name || slices.Contains pks c.name)
    (fun c => c.name ++ " = EXCLUDED." ++ c.name) cols []
  simp only [List.nil_append] at h
  rw [upsertLoop, h, setFields]
  congr 1
  apply List.filter_congr
  intro c _
  by_cases hp : c.name ∈ pks <;> by_cases ha : c.name ∈ auto <;>
    simp [hp, ha, (slices_contains_iff pks c.name).2, (slices_contains_iff auto c.name).2,
      show ∀ l : List String, c.name ∉ l → slices.Contains l c.name = false from
        fun l hl => by
          cases hh : slices.Contains l c.name
          · rfl
          · exact absurd ((slices_contains_iff _ _).1 hh) hl]

/-- With a first primary key the generator returns, and its seven statements
are the formatted loop results. -/
theorem GenerateQueries_cons (up : Char → Char) (opts : GenerateQueriesOptions)
    (pk : String) (rest : List String) (h : opts.PrimaryKeys = pk :: rest) :
    GenerateQueries up opts = .ok
      { CreateTable := "CREATE TABLE IF NOT EXISTS " ++ opts.TableName ++ " ("
          ++ strings.Join (createLoop (collectCols up opts.Driver opts.Model)) ", " ++ ")"
        DropTable := "DROP TABLE IF EXISTS " ++ opts.TableName
        Select := "SELECT * FROM " ++ opts.TableName
        Insert := "INSERT INTO " ++ opts.TableName ++ " ("
          ++ strings.Join (insertLoop opts.AutoGeneratingCols
              (collectCols up opts.Driver opts.Model)).1 ", "
          ++ ") VALUES ("
          ++ strings.Join (insertLoop opts.AutoGeneratingCols
              (collectCols up opts.Driver opts.Model)).2 ", "
          ++ ") RETURNING *"
        Update := "UPDATE " ++ opts.TableName ++ " SET "
          ++ strings.Join (updateLoop opts.PrimaryKeys opts.AutoGeneratingCols
              (collectCols up opts.Driver opts.Model)).1 ", "
          ++ " WHERE "
          ++ strings.Join (updateLoop opts.PrimaryKeys opts.AutoGeneratingCols
              (collectCols up opts.Driver opts.Model)).2 " AND "
          ++ " RETURNING *"
        Upsert := "INSERT INTO " ++ opts.TableName ++ " ("
          ++ strings.Join (insertLoop opts.AutoGeneratingCols
              (collectCols up opts.Driver opts.Model)).1 ", "
          ++ ") VALUES ("
          ++ strings.Join (insertLoop opts.AutoGeneratingCols
              (collectCols up opts.Driver opts.Model)).2 ", "
          ++ ") ON CONFLICT (" ++ pk ++ ") DO UPDATE SET "
          ++ strings.Join (upsertLoop opts.PrimaryKeys opts.AutoGeneratingCols
              (collectCols up opts.Driver opts.Model)) ", "
          ++ " RETURNING *"
        Delete := "DELETE FROM " ++ opts.TableName ++ " WHERE "
          ++ strings.Join (updateLoop opts.PrimaryKeys opts.AutoGeneratingCols
              (collectCols up opts.Driver opts.Model)).2 " AND " } := by
  simp [GenerateQueries, h]

theorem ToUpper_ascii (up : Char → Char) (s : String)
    (h : s.data.all (fun c => decide (c.toNat < 128)) = true) :
    strings.ToUpper up s = ⟨s.data.map Char.toUpper⟩ := by
  simp only [strings.ToUpper, h, if_true]

theorem collectCols_congr (up up' : Char → Char) (driver : String)
    (fields : List reflect.StructField)
    (h : ∀ f ∈ fields, strings.ToUpper up (reflect.Get f.Tag "dbtype")
      = strings.ToUpper up' (reflect.Get f.Tag "dbtype")) :
    collectCols up driver fields = collectCols up' driver fields := by
  induction fields using List.reverseRecOn with
  | nil => rfl
  | append_singleton fs f ih =>
    have hf := h f (by simp)
    have ih' := ih (fun g hg => h g (by simp [hg]))
    simp only [collectCols, List.foldl_append, List.foldl_cons, List.foldl_nil] at ih' ⊢
    rw [ih']
    simp only [fieldStep, hf]

theorem GenerateQueries_congr (up up' : Char → Char) (opts : GenerateQueriesOptions)
    (h : collectCols up opts.Driver opts.Model = collectCols up' opts.Driver opts.Model) :
    GenerateQueries up opts = GenerateQueries up' opts := by
  simp only [GenerateQueries, h]

theorem T1_ascii : ∀ f ∈ T1,
    (reflect.Get f.Tag "dbtype").data.all (fun c => decide (c.toNat < 128)) = true := by
  decide!

theorem fixture_up (up : Char → Char) (driver : String) :
    GenerateQueries up (fixtureOpts driver) = GenerateQueries id (fixtureOpts driver) := by
  apply GenerateQueries_congr
  apply collectCols_congr
  intro f hf
  rw [ToUpper_ascii up _ (T1_ascii f hf), ToUpper_ascii id _ (T1_ascii f hf)]

/-- C1: for the reference fixture (table `t1`, the five fields of `T1`,
auto-generated columns `id` and `field2`, primary key `id`) the generator
returns exactly the seven statements the test expects under the SQLite
driver, and under the Postgres driver the same statements except that
`CreateTable` keeps the declared types. -/
theorem fixture_statements (up : Char → Char) :
    GenerateQueries up (fixtureOpts DriverSqlite) = .ok
      { CreateTable := "CREATE TABLE IF NOT EXISTS t1 (id INTEGER PRIMARY KEY AUTOINCREMENT, field1 TEXT NOT NULL, field2 INTEGER AUTOINCREMENT, field3 BOOLEAN NOT NULL, field4 TEXT)"
        DropTable := "DROP TABLE IF EXISTS t1"
        Select := "SELECT * FROM t1"
        Insert := "INSERT INTO t1 (field1, field3, field4) VALUES (:field1, :field3, :field4) RETURNING *"
        Update := "UPDATE t1 SET field1 = :field1, field3 = :field3, field4 = :field4 WHERE id = :id RETURNING *"
        Upsert := "INSERT INTO t1 (field1, field3, field4) VALUES (:field1, :field3, :field4) ON CONFLICT (id) DO UPDATE SET field1 = EXCLUDED.field1, field3 = EXCLUDED.field3, field4 = EXCLUDED.field4 RETURNING *"
        Delete := "DELETE FROM t1 WHERE id = :id" }
    ∧ GenerateQueries up (fixtureOpts DriverPostgres) = .ok
      { CreateTable := "CREATE TABLE IF NOT EXISTS t1 (id BIGSERIAL NOT NULL PRIMARY KEY, field1 TEXT NOT NULL, field2 BIGSERIAL NOT NULL, field3 BOOLEAN NOT NULL, field4 UUID)"
        DropTable := "DROP TABLE IF EXISTS t1"
        Select := "SELECT * FROM t1"
        Insert := "INSERT INTO t1 (field1, field3, field4) VALUES (:field1, :field3, :field4) RETURNING *"
        Update := "UPDATE t1 SET field1 = :field1, field3 = :field3, field4 = :field4 WHERE id = :id RETURNING *"
        Upsert := "INSERT INTO t1 (field1, field3, field4) VALUES (:field1, :field3, :field4) ON CONFLICT (id) DO UPDATE SET field1 = EXCLUDED.field1, field3 = EXCLUDED.field3, field4 = EXCLUDED.field4 RETURNING *"
        Delete := "DELETE FROM t1 WHERE id = :id" } := by
  rw [fixture_up up DriverSqlite, fixture_up up DriverPostgres]
  decide!

/-- C2: the generator panics exactly when `PrimaryKeys` is empty, with the
message naming the table; for every non-empty `PrimaryKeys` (whatever the
table name, field list, auto-generated columns and driver) it returns a
statement set, the read of `PrimaryKeys[0]` being in bounds. -/
theorem panics_iff_no_primary_key (up : Char → Char) (opts : GenerateQueriesOptions) :
    (GenerateQueries up opts
        = .error ("No primary key specified for table: " ++ opts.TableName)
      ↔ opts.PrimaryKeys = [])
    ∧ ((∃ q, GenerateQueries up opts = .ok q) ↔ opts.PrimaryKeys ≠ [])
    ∧ ((∃ msg, GenerateQueries up opts = .error msg) ↔ opts.PrimaryKeys = []) := by
  cases hpk : opts.PrimaryKeys with
  | nil => simp [GenerateQueries, hpk]
  | cons pk rest => simp [GenerateQueries_cons up opts pk rest hpk]

theorem assign_injective (a b : String) (h : a ++ " = :" ++ a = b ++ " = :" ++ b) : a = b := by
  have hd := congrArg String.data h
  simp only [String.data_append] at hd
  have hl := congrArg List.length hd
  simp only [List.length_append] at hl
  have hab : a.data.length = b.data.length := by omega
  have := (List.append_inj hd (by simp [hab])).1
  have := (List.append_inj this hab).1
  exact String.ext this

/-- C3: with a non-empty `PrimaryKeys` the generator returns and `Insert` is
`INSERT INTO <table> (<cols>) VALUES (<placeholders>) RETURNING *`, where
`<cols>` joins with `, ` the names of the retained fields whose name is not
in `AutoGeneratingCols`, in declaration order, and `<placeholders>` joins
`:` followed by the name for the same fields in the same order; the two
lists built by the loop have the same length and correspond position by
position. -/
theorem insert_statement (up : Char → Char) (opts : GenerateQueriesOptions)
    (h : opts.PrimaryKeys ≠ []) :
    ∃ q, GenerateQueries up opts = .ok q
      ∧ q.Insert = "INSERT INTO " ++ opts.TableName ++ " ("
          ++ strings.Join
              ((insertFields opts.AutoGeneratingCols
                (retainedCols up opts.Driver opts.Model)).map (fun c => c.name)) ", "
          ++ ") VALUES ("
          ++ strings.Join
              ((insertFields opts.AutoGeneratingCols
                (retainedCols up opts.Driver opts.Model)).map (fun c => ":" ++ c.name)) ", "
          ++ ") RETURNING *"
      ∧ (insertLoop opts.AutoGeneratingCols (collectCols up opts.Driver opts.Model)).1.length
          = (insertLoop opts.AutoGeneratingCols (collectCols up opts.Driver opts.Model)).2.length
      ∧ ∀ i : Nat,
          (insertLoop opts.AutoGeneratingCols (collectCols up opts.Driver opts.Model)).2[i]?
            = ((insertLoop opts.AutoGeneratingCols
                (collectCols up opts.Driver opts.Model)).1[i]?).map (fun n => ":" ++ n) := by
  obtain ⟨pk, rest, hpk⟩ := List.exists_cons_of_ne_nil h
  refine ⟨_, GenerateQueries_cons up opts pk rest hpk, ?_, ?_, ?_⟩
  · simp only [insertLoop_eq, collectCols_eq]
  · simp only [insertLoop_eq, List.length_map]
  · intro i
    simp only [insertLoop_eq, List.getElem?_map, Option.map_map]
    rfl

/-- Witness of C3 on the reference fixture under the SQLite driver. -/
theorem insert_statement_witness :
    (fixtureOpts DriverSqlite).PrimaryKeys ≠ []
      ∧ ∃ q, GenerateQueries id (fixtureOpts DriverSqlite) = .ok q
        ∧ q.Insert
          = "INSERT INTO t1 (field1, field3, field4) VALUES (:field1, :field3, :field4) RETURNING *" := by
  refine ⟨by decide, ?_⟩
  obtain ⟨q, hq, hi, _⟩ := insert_statement id (fixtureOpts DriverSqlite) (by decide)
  refine ⟨q, hq, ?_⟩
  rw [hi]
  decide!

/-- C4: with a non-empty `PrimaryKeys` the generator returns, `Update` is
`UPDATE <table> SET <sets> WHERE <wheres> RETURNING *` and `Delete` is
`DELETE FROM <table> WHERE <wheres>` with the same `<wheres>`: the
` AND `-join of `name = :name` over the retained fields named in
`PrimaryKeys`, while `<sets>` is the `, `-join of `name = :name` over the
retained fields named in neither `PrimaryKeys` nor `AutoGeneratingCols`, both
in declaration order. A retained field named in both lists has its predicate
among the `wheres` of the loop and not among its `sets`. -/
theorem update_delete_statements (up : Char → Char) (opts : GenerateQueriesOptions)
    (h : opts.PrimaryKeys ≠ []) :
    ∃ q, GenerateQueries up opts = .ok q
      ∧ q.Update = "UPDATE " ++ opts.TableName ++ " SET "
          ++ strings.Join
              ((setFields opts.PrimaryKeys opts.AutoGeneratingCols
                (retainedCols up opts.Driver opts.Model)).map
                  (fun c => c.name ++ " = :" ++ c.name)) ", "
          ++ " WHERE "
          ++ strings.Join
              ((whereFields opts.PrimaryKeys
                (retainedCols up opts.Driver opts.Model)).map
                  (fun c => c.name ++ " = :" ++ c.name)) " AND "
          ++ " RETURNING *"
      ∧ q.Delete = "DELETE FROM " ++ opts.TableName ++ " WHERE "
          ++ strings.Join
              ((whereFields opts.PrimaryKeys
                (retainedCols up opts.Driver opts.Model)).map
                  (fun c => c.name ++ " = :" ++ c.name)) " AND "
      ∧ ∀ c ∈ retainedCols up opts.Driver opts.Model,
          c.name ∈ opts.PrimaryKeys → c.name ∈ opts.AutoGeneratingCols →
            c.name ++ " = :" ++ c.name
                ∈ (updateLoop opts.PrimaryKeys opts.AutoGeneratingCols
                    (collectCols up opts.Driver opts.Model)).2
              ∧ c.name ++ " = :" ++ c.name
                ∉ (updateLoop opts.PrimaryKeys opts.AutoGeneratingCols
                    (collectCols up opts.Driver opts.Model)).1 := by
  obtain ⟨pk, rest, hpk⟩ := List.exists_cons_of_ne_nil h
  refine ⟨_, GenerateQueries_cons up opts pk rest hpk, ?_, ?_, ?_⟩
  · simp only [updateLoop_eq, collectCols_eq]
  · simp only [updateLoop_eq, collectCols_eq]
  · intro c hc hp _
    simp only [updateLoop_eq, collectCols_eq]
    constructor
    · exact List.mem_map.2 ⟨c, by simp [whereFields, hc, hp], rfl⟩
    · intro hmem
      obtain ⟨d, hd, hdc⟩ := List.mem_map.1 hmem
      have hname : d.name = c.name := assign_injective _ _ hdc
      simp only [setFields, List.mem_filter, decide_eq_true_eq] at hd
      exact hd.2.1 (hname ▸ hp)

/-- Witness of C4 on the reference fixture under the SQLite driver. -/
theorem update_delete_statements_witness :
    (fixtureOpts DriverSqlite).PrimaryKeys ≠ []
      ∧ ∃ q, GenerateQueries id (fixtureOpts DriverSqlite) = .ok q
        ∧ q.Update
          = "UPDATE t1 SET field1 = :field1, field3 = :field3, field4 = :field4 WHERE id = :id RETURNING *"
        ∧ q.Delete = "DELETE FROM t1 WHERE id = :id" := by
  refine ⟨by decide, ?_⟩
  obtain ⟨q, hq, hu, hd, _⟩ := update_delete_statements id (fixtureOpts DriverSqlite) (by decide)
  refine ⟨q, hq, ?_, ?_⟩
  · rw [hu]
    decide!
  · rw [hd]
    decide!

/-- C5: with a non-empty `PrimaryKeys` the generator returns and `Upsert` is
`INSERT INTO <table> (<cols>) VALUES (<placeholders>) ON CONFLICT (<firstPK>)
DO UPDATE SET <onConflictSets> RETURNING *`, where `<cols>` and
`<placeholders>` are the lists of `Insert`, `<firstPK>` is the first entry of
`PrimaryKeys` alone, and `<onConflictSets>` joins with `, ` the texts
`name = EXCLUDED.name` of the retained fields named in neither
`AutoGeneratingCols` nor `PrimaryKeys`, in declaration order. -/
theorem upsert_statement (up : Char → Char) (opts : GenerateQueriesOptions)
    (pk : String) (rest : List String) (h : opts.PrimaryKeys = pk :: rest) :
    ∃ q, GenerateQueries up opts = .ok q
      ∧ q.Upsert = "INSERT INTO " ++ opts.TableName ++ " ("
          ++ strings.Join
              ((insertFields opts.AutoGeneratingCols
                (retainedCols up opts.Driver opts.Model)).map (fun c => c.name)) ", "
          ++ ") VALUES ("
          ++ strings.Join
              ((insertFields opts.AutoGeneratingCols
                (retainedCols up opts.Driver opts.Model)).map (fun c => ":" ++ c.name)) ", "
          ++ ") ON CONFLICT (" ++ pk ++ ") DO UPDATE SET "
          ++ strings.Join
              ((setFields opts.PrimaryKeys opts.AutoGeneratingCols
                (retainedCols up opts.Driver opts.Model)).map
                  (fun c => c.name ++ " = EXCLUDED." ++ c.name)) ", "
          ++ " RETURNING *" := by
  refine ⟨_, GenerateQueries_cons up opts pk rest h, ?_⟩
  simp only [insertLoop_eq, upsertLoop_eq, collectCols_eq]

/-- Witness of C5: two primary keys, `id` then `field1`; only the first is
the conflict target. -/
theorem upsert_statement_witness :
    ({ fixtureOpts DriverSqlite with PrimaryKeys := ["id", "field1"] } :
        GenerateQueriesOptions).PrimaryKeys = "id" :: ["field1"]
    ∧ ∃ q, GenerateQueries id { fixtureOpts DriverSqlite with PrimaryKeys := ["id", "field1"] }
          = .ok q
      ∧ q.Upsert
        = "INSERT INTO t1 (field1, field3, field4) VALUES (:field1, :field3, :field4) ON CONFLICT (id) DO UPDATE SET field3 = EXCLUDED.field3, field4 = EXCLUDED.field4 RETURNING *" := by
  refine ⟨rfl, ?_⟩
  obtain ⟨q, hq, hu⟩ := upsert_statement id
    { fixtureOpts DriverSqlite with PrimaryKeys := ["id", "field1"] } "id" ["field1"] rfl
  refine ⟨q, hq, ?_⟩
  rw [hu]
  decide!

/-- C6: with a non-empty `PrimaryKeys` the generator returns and
`CreateTable` is `CREATE TABLE IF NOT EXISTS <table> (<defs>)`, where `<defs>`
joins with `, `, in declaration order, the name, a space and the rewritten
type of every retained field, auto-generated and primary-key fields included:
the loop emits one entry per retained field. -/
theorem create_table_statement (up : Char → Char) (opts : GenerateQueriesOptions)
    (h : opts.PrimaryKeys ≠ []) :
    ∃ q, GenerateQueries up opts = .ok q
      ∧ q.CreateTable = "CREATE TABLE IF NOT EXISTS " ++ opts.TableName ++ " ("
          ++ strings.Join
              (((opts.Model.filter (fun f => !skipped up opts.Driver f)).map
                (fun f => fieldName f ++ " " ++ fieldType up opts.Driver f))) ", "
          ++ ")"
      ∧ (createLoop (collectCols up opts.Driver opts.Model)).length
          = (opts.Model.filter (fun f => !skipped up opts.Driver f)).length := by
  obtain ⟨pk, rest, hpk⟩ := List.exists_cons_of_ne_nil h
  refine ⟨_, GenerateQueries_cons up opts pk rest hpk, ?_, ?_⟩
  · simp only [createLoop_eq, collectCols_eq, retainedCols, List.map_map]
    rfl
  · simp only [createLoop_eq, collectCols_eq, retainedCols, List.length_map]

/-- Witness of C6 on the reference fixture under the SQLite driver. -/
theorem create_table_statement_witness :
    (fixtureOpts DriverSqlite).PrimaryKeys ≠ []
      ∧ ∃ q, GenerateQueries id (fixtureOpts DriverSqlite) = .ok q
        ∧ q.CreateTable
          = "CREATE TABLE IF NOT EXISTS t1 (id INTEGER PRIMARY KEY AUTOINCREMENT, field1 TEXT NOT NULL, field2 INTEGER AUTOINCREMENT, field3 BOOLEAN NOT NULL, field4 TEXT)" := by
  refine ⟨by decide, ?_⟩
  obtain ⟨q, hq, hc, _⟩ := create_table_statement id (fixtureOpts DriverSqlite) (by decide)
  refine ⟨q, hq, ?_⟩
  rw [hc]
  decide!

theorem replaceChars_of_not_contains (old new : List Char) (n : Nat) (s : List Char)
    (h : strings.containsChars old s = false) : strings.replaceChars old new n s = s := by
  induction n generalizing s with
  | zero => rfl
  | succ n ih =>
    cases s with
    | nil => rfl
    | cons c s =>
      simp only [strings.containsChars, Bool.or_eq_false_iff] at h
      simp only [strings.replaceChars, h.1, Bool.false_eq_true, if_false, ih s h.2]

theorem ReplaceAll_of_not_contains (s old new : String) (hold : old ≠ "")
    (h : strings.Contains s old = false) : strings.ReplaceAll s old new = s := by
  have hd : old.data ≠ [] := fun hd => hold (String.ext hd)
  simp only [strings.ReplaceAll, hd, if_false]
  exact String.ext (replaceChars_of_not_contains _ _ _ _ h)

theorem mem_replaceChars (old new : List Char) (hold : old ≠ []) (c : Char) (hc : c ∉ old)
    (n : Nat) (s : List Char) (hn : s.length ≤ n) (hs : c ∈ s) :
    c ∈ strings.replaceChars old new n s := by
  induction n generalizing s with
  | zero => exact hs
  | succ n ih =>
    cases s with
    | nil => exact absurd hs (List.not_mem_nil c)
    | cons a s =>
      simp only [strings.replaceChars]
      by_cases hp : old.isPrefixOf (a :: s) = true
      · simp only [hp, if_true]
        have hpre : old <+: a :: s := List.isPrefixOf_iff_prefix.1 hp
        have heq := List.prefix_iff_eq_append.1 hpre
        have hmem : c ∈ List.drop old.length (a :: s) := by
          rw [← heq] at hs
          rcases List.mem_append.1 hs with h | h
          · exact absurd h hc
          · exact h
        have hlen : 0 < old.length := List.length_pos.2 hold
        have hdl : (List.drop old.length (a :: s)).length ≤ n := by
          simp only [List.length_drop, List.length_cons] at hn ⊢
          omega
        exact List.mem_append.2 (Or.inr (ih _ hdl hmem))
      · have hp' : old.isPrefixOf (a :: s) = false := Bool.eq_false_iff.2 hp
        simp only [hp', Bool.false_eq_true, if_false]
        rcases List.mem_cons.1 hs with h | h
        · exact h ▸ List.mem_cons_self _ _
        · exact List.mem_cons_of_mem _ (ih s (by simp only [List.length_cons] at hn; omega) h)

theorem length_replaceChars (old new : List Char) (hold : old ≠ [])
    (hlen : new.length = old.length) (n : Nat) (s : List Char) (hn : s.length ≤ n) :
    (strings.replaceChars old new n s).length = s.length := by
  induction n generalizing s with
  | zero => rfl
  | succ n ih =>
    cases s with
    | nil => rfl
    | cons a s =>
      simp only [strings.replaceChars]
      by_cases hp : old.isPrefixOf (a :: s) = true
      · simp only [hp, if_true]
        have hpre : old <+: a :: s := List.isPrefixOf_iff_prefix.1 hp
        have hle : old.length ≤ (a :: s).length := hpre.length_le
        have hpos : 0 < old.length := List.length_pos.2 hold
        have hdl : (List.drop old.length (a :: s)).length ≤ n := by
          simp only [List.length_drop, List.length_cons] at hn ⊢
          omega
        rw [List.length_append, ih _ hdl, hlen, List.length_drop]
        omega
      · have hp' : old.isPrefixOf (a :: s) = false := Bool.eq_false_iff.2 hp
        simp only [hp', Bool.false_eq_true, if_false, List.length_cons]
        rw [ih s (by simp only [List.length_cons] at hn; omega)]

theorem containsChars_length (sub s : List Char) (h : strings.containsChars sub s = true) :
    sub.length ≤ s.length := by
  induction s with
  | nil =>
    simp only [strings.containsChars, List.isEmpty_iff] at h
    simp [h]
  | cons a s ih =>
    simp only [strings.containsChars, Bool.or_eq_true] at h
    rcases h with h | h
    · exact (List.isPrefixOf_iff_prefix.1 h).length_le
    · exact Nat.le_trans (ih h) (by simp)

theorem sqlite_ne_postgres : DriverPostgres ≠ DriverSqlite := by decide

/-- C7: dialect rewriting of a field's type. Declared
`BIGSERIAL NOT NULL PRIMARY KEY`, `BIGSERIAL NOT NULL` and `UUID` are
rendered `INTEGER PRIMARY KEY AUTOINCREMENT`, `INTEGER AUTOINCREMENT` and
`TEXT` under SQLite and unchanged under Postgres. In general, under SQLite a
text that contains `SERIAL` has every `BIGSERIAL`, then every `SERIAL`,
replaced by `INTEGER`, every `NOT NULL` removed and ` AUTOINCREMENT` appended
(double spaces then collapsed), and afterwards, on that text or on the
untouched one, every `UUID` is replaced by `TEXT`. -/
theorem sqlite_type_rewriting (up : Char → Char) (db : String) (t : String) :
    fieldType up DriverSqlite ⟨[("db", db), ("dbtype", "BIGSERIAL NOT NULL PRIMARY KEY")]⟩
        = "INTEGER PRIMARY KEY AUTOINCREMENT"
    ∧ fieldType up DriverSqlite ⟨[("db", db), ("dbtype", "BIGSERIAL NOT NULL")]⟩
        = "INTEGER AUTOINCREMENT"
    ∧ fieldType up DriverSqlite ⟨[("db", db), ("dbtype", "UUID")]⟩ = "TEXT"
    ∧ fieldType up DriverPostgres ⟨[("db", db), ("dbtype", "BIGSERIAL NOT NULL PRIMARY KEY")]⟩
        = "BIGSERIAL NOT NULL PRIMARY KEY"
    ∧ fieldType up DriverPostgres ⟨[("db", db), ("dbtype", "BIGSERIAL NOT NULL")]⟩
        = "BIGSERIAL NOT NULL"
    ∧ fieldType up DriverPostgres ⟨[("db", db), ("dbtype", "UUID")]⟩ = "UUID"
    ∧ rewriteType DriverSqlite t
        = strings.ReplaceAll
            (if strings.Contains t "SERIAL" then
              strings.ReplaceAll
                (strings.ReplaceAll
                    (strings.ReplaceAll (strings.ReplaceAll t "BIGSERIAL" "INTEGER")
                      "SERIAL" "INTEGER")
                    "NOT NULL" ""
                  ++ " AUTOINCREMENT")
                "  " " "
            else t)
            "UUID" "TEXT" := by
  have hget : ∀ v : String, reflect.Get [("db", db), ("dbtype", v)] "dbtype" = v := by
    intro v
    by_cases h : db = "dbtype" <;> simp [reflect.Get, h]
  refine ⟨?_, ?_, ?_, ?_, ?_, ?_, ?_⟩
  · rw [fieldType, hget, ToUpper_ascii up _ (by decide!)]; decide!
  · rw [fieldType, hget, ToUpper_ascii up _ (by decide!)]; decide!
  · rw [fieldType, hget, ToUpper_ascii up _ (by decide!)]; decide!
  · rw [fieldType, hget, ToUpper_ascii up _ (by decide!)]; decide!
  · rw [fieldType, hget, ToUpper_ascii up _ (by decide!)]; decide!
  · rw [fieldType, hget, ToUpper_ascii up _ (by decide!)]; decide!
  · simp only [rewriteType, if_true]
    split_ifs with h1 h2 h2
    · rfl
    · exact (ReplaceAll_of_not_contains _ _ _ (by decide) (by simpa using h2)).symm
    · rfl
    · exact (ReplaceAll_of_not_contains _ _ _ (by decide) (by simpa using h2)).symm

/-- C8: under Postgres a text that contains `AUTOINCREMENT` has every
`AUTOINCREMENT` removed and then every `INT` replaced by `SERIAL`, inside
longer words too: `INTEGER PRIMARY KEY AUTOINCREMENT` becomes
`SERIALEGER PRIMARY KEY ` with its trailing space; a text without
`AUTOINCREMENT` is returned as it is, so `INT NOT NULL` stays. -/
theorem postgres_type_rewriting (t : String) :
    rewriteType DriverPostgres t
        = (if strings.Contains t "AUTOINCREMENT" then
            strings.ReplaceAll (strings.ReplaceAll t "AUTOINCREMENT" "") "INT" "SERIAL"
          else t)
    ∧ rewriteType DriverPostgres "INTEGER PRIMARY KEY AUTOINCREMENT" = "SERIALEGER PRIMARY KEY "
    ∧ rewriteType DriverPostgres "INT NOT NULL" = "INT NOT NULL" := by
  refine ⟨?_, by decide!, by decide!⟩
  simp only [rewriteType, sqlite_ne_postgres, if_false, if_true]

theorem toUpper_eq_dash (c : Char) (h : c.toUpper = '-') : c = '-' := by
  unfold Char.toUpper at h
  by_cases hr : c.toNat ≥ 97 ∧ c.toNat ≤ 122
  · simp only [hr, and_self, if_true] at h
    exfalso
    obtain ⟨h1, h2⟩ := hr
    generalize c.toNat = n at h h1 h2
    interval_cases n <;> revert h <;> decide
  · simpa only [hr, if_false] using h

theorem map_eq_singleton {α β : Type} (f : α → β) (l : List α) (b : β)
    (h : l.map f = [b]) : ∃ a, l = [a] ∧ f a = b := by
  cases l with
  | nil => simp at h
  | cons a t =>
    cases t with
    | nil => exact ⟨a, rfl, by simpa using h⟩
    | cons a2 t => simp at h

theorem ToUpper_eq_empty (up : Char → Char) (s : String) :
    strings.ToUpper up s = "" ↔ s = "" := by
  constructor
  · intro h
    have hd := congrArg String.data h
    apply String.ext
    unfold strings.ToUpper at hd
    split_ifs at hd <;> simpa using hd
  · rintro rfl
    rfl

theorem ToUpper_eq_dash (up : Char → Char) (hup : ∀ c : Char, 128 ≤ c.toNat → up c ≠ '-')
    (s : String) : strings.ToUpper up s = "-" ↔ s = "-" := by
  constructor
  · intro h
    have hd := congrArg String.data h
    apply String.ext
    unfold strings.ToUpper at hd
    split_ifs at hd with hascii
    · change List.map Char.toUpper s.data = ['-'] at hd
      obtain ⟨c, hc, hcu⟩ := map_eq_singleton _ _ _ hd
      rw [hc, toUpper_eq_dash c hcu]
    · change List.map up s.data = ['-'] at hd
      obtain ⟨c, hc, hcu⟩ := map_eq_singleton _ _ _ hd
      exfalso
      rw [hc] at hascii
      simp only [List.all_cons, List.all_nil, Bool.and_true, decide_eq_true_eq, not_lt] at hascii
      exact hup c hascii hcu
  · rintro rfl
    rfl

theorem uuid_replace_length (s : String) :
    (strings.ReplaceAll s "UUID" "TEXT").data.length = s.data.length := by
  have hne : ("UUID" : String).data ≠ [] := by decide
  simp only [strings.ReplaceAll, hne, if_false]
  exact length_replaceChars ['U', 'U', 'I', 'D'] ['T', 'E', 'X', 'T'] (by decide) rfl _ _
    (Nat.le_refl _)

theorem uuid_replace_eq_empty (s : String) :
    strings.ReplaceAll s "UUID" "TEXT" = "" ↔ s = "" := by
  constructor
  · intro h
    have hl := uuid_replace_length s
    rw [h] at hl
    exact String.ext (List.length_eq_zero.1 hl.symm)
  · rintro rfl
    rfl

theorem uuid_replace_eq_dash (s : String) :
    strings.ReplaceAll s "UUID" "TEXT" = "-" ↔ s = "-" := by
  constructor
  · intro h
    have hl := uuid_replace_length s
    rw [h] at hl
    have hnc : strings.Contains s "UUID" = false := by
      cases hc : strings.Contains s "UUID"
      · rfl
      · have := containsChars_length _ _ hc
        have h4 : ("UUID" : String).data.length = 4 := rfl
        have h1 : ("-" : String).data.length = 1 := rfl
        omega
    rw [ReplaceAll_of_not_contains s _ _ (by decide) hnc] at h
    exact h
  · rintro rfl
    rfl

theorem serial_branch_mem (s : String) :
    'A' ∈ (strings.ReplaceAll (s ++ " AUTOINCREMENT") "  " " ").data := by
  have hne : ("  " : String).data ≠ [] := by decide
  simp only [strings.ReplaceAll, hne, if_false]
  apply mem_replaceChars _ _ hne 'A' (by decide) _ _ (Nat.le_refl _)
  simp [String.data_append]

theorem rewriteType_sqlite_sentinel (t : String) :
    (rewriteType DriverSqlite t = "" ↔ t = "") ∧ (rewriteType DriverSqlite t = "-" ↔ t = "-") := by
  have hrw : rewriteType DriverSqlite t
      = strings.ReplaceAll
          (if strings.Contains t "SERIAL" then
            strings.ReplaceAll
              (strings.ReplaceAll
                  (strings.ReplaceAll (strings.ReplaceAll t "BIGSERIAL" "INTEGER")
                    "SERIAL" "INTEGER")
                  "NOT NULL" ""
                ++ " AUTOINCREMENT")
              "  " " "
          else t)
          "UUID" "TEXT" := by
    simp only [rewriteType, if_true]
    split_ifs with h1 h2 h2
    · rfl
    · exact (ReplaceAll_of_not_contains _ _ _ (by decide) (by simpa using h2)).symm
    · rfl
    · exact (ReplaceAll_of_not_contains _ _ _ (by decide) (by simpa using h2)).symm
  rw [hrw, uuid_replace_eq_empty, uuid_replace_eq_dash]
  by_cases hs : strings.Contains t "SERIAL" = true
  · simp only [hs, if_true]
    have hmem := serial_branch_mem
      (strings.ReplaceAll
        (strings.ReplaceAll (strings.ReplaceAll t "BIGSERIAL" "INTEGER") "SERIAL" "INTEGER")
        "NOT NULL" "")
    have ht1 : t ≠ "" := by
      rintro rfl
      revert hs
      decide
    have ht2 : t ≠ "-" := by
      rintro rfl
      revert hs
      decide
    constructor
    · constructor
      · intro h
        rw [h] at hmem
        exact absurd hmem (by decide)
      · intro h
        exact absurd h ht1
    · constructor
      · intro h
        rw [h] at hmem
        exact absurd hmem (by decide)
      · intro h
        exact absurd h ht2
  · simp only [hs, Bool.false_eq_true, if_false, and_self]

theorem rewriteType_other (driver t : String) (h1 : driver ≠ DriverSqlite)
    (h2 : driver ≠ DriverPostgres) : rewriteType driver t = t := by
  simp only [rewriteType, h1, h2, if_false]

theorem collectCols_filter (up : Char → Char) (driver : String)
    (fields : List reflect.StructField) :
    collectCols up driver (fields.filter (fun f => !skipped up driver f))
      = collectCols up driver fields := by
  simp only [collectCols_eq, retainedCols, List.filter_filter, Bool.and_self]

/-- C9, as stated, fails under Postgres: the field `seq` declared
`AUTOINCREMENT` has a name and a declared type that are neither empty nor
`-`, yet the rewriting empties its type and the loop skips it, so it is
missing from every statement. -/
theorem exclusion_counterexample :
    declaredExcluded ⟨[("db", "seq"), ("dbtype", "AUTOINCREMENT")]⟩ = false
    ∧ skipped id DriverPostgres ⟨[("db", "seq"), ("dbtype", "AUTOINCREMENT")]⟩ = true
    ∧ GenerateQueries id
        { TableName := "t"
          Model := [⟨[("db", "id"), ("dbtype", "BIGINT")]⟩,
                    ⟨[("db", "seq"), ("dbtype", "AUTOINCREMENT")]⟩]
          AutoGeneratingCols := []
          PrimaryKeys := ["id"]
          Driver := DriverPostgres }
      = .ok
        { CreateTable := "CREATE TABLE IF NOT EXISTS t (id BIGINT)"
          DropTable := "DROP TABLE IF EXISTS t"
          Select := "SELECT * FROM t"
          Insert := "INSERT INTO t (id) VALUES (:id) RETURNING *"
          Update := "UPDATE t SET  WHERE id = :id RETURNING *"
          Upsert := "INSERT INTO t (id) VALUES (:id) ON CONFLICT (id) DO UPDATE SET  RETURNING *"
          Delete := "DELETE FROM t WHERE id = :id" } := by
  decide!

/-- C9, amended: under every driver the field loop retains, in declaration
order, exactly the fields it does not skip, and a model stripped of the
skipped fields yields the same statements; a field is skipped exactly when
its name is empty or `-` or its type text after upper-casing and dialect
rewriting is empty or `-`. Under every driver other than Postgres that is
exactly when its name is empty or `-` or its declared type is empty, absent
or `-`. (`unicode.ToUpper` sends no rune outside ASCII to `-`.) -/
theorem exclusion_rule (up : Char → Char) (hup : ∀ c : Char, 128 ≤ c.toNat → up c ≠ '-')
    (opts : GenerateQueriesOptions) (field : reflect.StructField) :
    collectCols up opts.Driver opts.Model
        = (opts.Model.filter (fun f => !skipped up opts.Driver f)).map
            (fun f => { name := fieldName f, sql := fieldType up opts.Driver f })
    ∧ GenerateQueries up
          { opts with Model := opts.Model.filter (fun f => !skipped up opts.Driver f) }
        = GenerateQueries up opts
    ∧ (skipped up opts.Driver field = true
        ↔ fieldName field = "" ∨ fieldName field = "-"
          ∨ fieldType up opts.Driver field = "" ∨ fieldType up opts.Driver field = "-")
    ∧ (opts.Driver ≠ DriverPostgres →
        (skipped up opts.Driver field = true ↔ declaredExcluded field = true)) := by
  refine ⟨collectCols_eq up _ _, ?_, ?_, ?_⟩
  · simp only [GenerateQueries, collectCols_filter]
  · simp only [skipped, decide_eq_true_eq]
    tauto
  · intro hpg
    have hty : (fieldType up opts.Driver field = "" ↔ reflect.Get field.Tag "dbtype" = "")
        ∧ (fieldType up opts.Driver field = "-" ↔ reflect.Get field.Tag "dbtype" = "-") := by
      by_cases hs : opts.Driver = DriverSqlite
      · rw [fieldType, hs]
        have h := rewriteType_sqlite_sentinel (strings.ToUpper up (reflect.Get field.Tag "dbtype"))
        exact ⟨h.1.trans (ToUpper_eq_empty up _), h.2.trans (ToUpper_eq_dash up hup _)⟩
      · rw [fieldType, rewriteType_other _ _ hs hpg]
        exact ⟨ToUpper_eq_empty up _, ToUpper_eq_dash up hup _⟩
    simp only [skipped, declaredExcluded, decide_eq_true_eq, hty.1, hty.2, fieldName]
    tauto

/-- Witness of C9 (amended) under the SQLite driver, with the identity as
upper-casing table: a field named `-` is skipped, as its declared tags say. -/
theorem exclusion_rule_witness :
    (∀ c : Char, 128 ≤ c.toNat → id c ≠ '-')
    ∧ DriverSqlite ≠ DriverPostgres
    ∧ (skipped id DriverSqlite ⟨[("db", "-"), ("dbtype", "TEXT")]⟩ = true
        ↔ declaredExcluded ⟨[("db", "-"), ("dbtype", "TEXT")]⟩ = true)
    ∧ skipped id DriverSqlite ⟨[("db", "-"), ("dbtype", "TEXT")]⟩ = true := by
  have hid : ∀ c : Char, 128 ≤ c.toNat → id c ≠ '-' := by
    intro c hc h
    have hc' : c = '-' := h
    rw [hc'] at hc
    revert hc
    decide
  refine ⟨hid, by decide, ?_, by decide!⟩
  exact (exclusion_rule id hid (fixtureOpts DriverSqlite)
    ⟨[("db", "-"), ("dbtype", "TEXT")]⟩).2.2.2 (by decide)

theorem splitChars_comma (ps : List (List Char)) (p cur : List Char) (fuel : Nat)
    (hp : ',' ∉ p) (hps : ∀ q ∈ ps, ',' ∉ q)
    (hfuel : (p ++ (ps.map (fun q => ',' :: q)).flatten).length ≤ fuel) :
    strings.splitChars [','] fuel cur (p ++ (ps.map (fun q => ',' :: q)).flatten)
      = (cur ++ p) :: ps := by
  induction ps generalizing p cur fuel with
  | nil =>
    induction p generalizing cur fuel with
    | nil => cases fuel <;> simp [strings.splitChars]
    | cons c p ih =>
      cases fuel with
      | zero => simp at hfuel
      | succ fuel =>
        have hc : ¬ (',' = c) := fun h => hp (h ▸ List.mem_cons_self _ _)
        have hp' : ',' ∉ p := fun h => hp (List.mem_cons_of_mem _ h)
        have := ih (cur ++ [c]) fuel hp' (by simpa using hfuel)
        simp only [List.map_nil, List.flatten_nil, List.append_nil] at this ⊢
        simp [strings.splitChars, List.isPrefixOf, hc, this]
  | cons q ps ihps =>
    induction p generalizing cur fuel with
    | nil =>
      cases fuel with
      | zero => simp at hfuel
      | succ fuel =>
        have hq : ',' ∉ q := hps q (List.mem_cons_self _ _)
        have hps' : ∀ r ∈ ps, ',' ∉ r := fun r hr => hps r (List.mem_cons_of_mem _ hr)
        have := ihps q [] fuel hq hps' (by simpa using hfuel)
        simp [strings.splitChars, List.isPrefixOf, this]
    | cons c p ih =>
      cases fuel with
      | zero => simp at hfuel
      | succ fuel =>
        have hc : ¬ (',' = c) := fun h => hp (h ▸ List.mem_cons_self _ _)
        have hp' : ',' ∉ p := fun h => hp (List.mem_cons_of_mem _ h)
        have := ih (cur ++ [c]) fuel hp' (by simpa using hfuel)
        simp only [List.map_cons, List.flatten_cons, List.cons_append, List.append_assoc,
          List.nil_append] at this
        simp [strings.splitChars, List.isPrefixOf, hc, this]

theorem Join_data (x : String) (xs : List String) (sep : String) :
    (strings.Join (x :: xs) sep).data
      = x.data ++ (xs.map (fun y => sep.data ++ y.data)).flatten := by
  induction xs generalizing x with
  | nil => simp [strings.Join]
  | cons y r ih => simp [strings.Join, String.data_append, ih y]

theorem quoted_join (x : List Char) (xs : List String) :
    '"' :: (x ++ (xs.map (fun y => ['"', ',', '"'] ++ y.data)).flatten) ++ ['"']
      = ('"' :: x ++ ['"'])
          ++ ((xs.map (fun y => '"' :: y.data ++ ['"'])).map (fun q => ',' :: q)).flatten := by
  induction xs generalizing x with
  | nil => simp
  | cons y r ih =>
    have := ih y.data
    simp only [List.map_cons, List.flatten_cons, List.cons_append, List.append_assoc,
      List.nil_append, List.singleton_append] at this ⊢
    rw [← this]

theorem dropWhile_of_head {α : Type} (p : α → Bool) (l : List α)
    (h : ∀ a ∈ l.head?, p a = false) : l.dropWhile p = l := by
  cases l with
  | nil => rfl
  | cons a t =>
    have := h a (by simp)
    simp [List.dropWhile_cons, this]

theorem trim_braces (m : List Char) :
    strings.Trim ⟨'\x7b' :: '"' :: m ++ ['"', '\x7d']⟩ "\x7b\x7d" = ⟨'"' :: m ++ ['"']⟩ := by
  have h1 : ("\x7b\x7d" : String).data = ['\x7b', '\x7d'] := rfl
  apply String.ext
  simp only [strings.Trim, h1]
  have e1 : List.dropWhile (fun c => ['\x7b', '\x7d'].contains c)
      ('\x7b' :: '"' :: m ++ ['"', '\x7d']) = '"' :: m ++ ['"', '\x7d'] := by
    rw [List.cons_append, List.dropWhile_cons]
    simp only [show (['\x7b', '\x7d'].contains '\x7b') = true by decide, if_true]
    rw [List.cons_append, List.dropWhile_cons]
    simp only [show (['\x7b', '\x7d'].contains '"') = false by decide, Bool.false_eq_true,
      if_false]
  rw [e1]
  have e2 : ('"' :: m ++ ['"', '\x7d']).reverse = '\x7d' :: '"' :: ('"' :: m).reverse := by
    simp
  rw [e2, List.dropWhile_cons]
  simp only [show (['\x7b', '\x7d'].contains '\x7d') = true by decide, if_true]
  rw [List.dropWhile_cons]
  simp only [show (['\x7b', '\x7d'].contains '"') = false by decide, Bool.false_eq_true,
    if_false]
  simp

theorem trim_quotes (e : List Char) (he : '"' ∉ e) :
    strings.Trim ⟨'"' :: e ++ ['"']⟩ "\"" = ⟨e⟩ := by
  have h1 : ("\"" : String).data = ['"'] := rfl
  apply String.ext
  simp only [strings.Trim, h1]
  have hq : (['"'].contains '"') = true := by decide
  have hn : ∀ c ∈ e, (['"'].contains c) = false := by
    intro c hc
    have : c ≠ '"' := fun h => he (h ▸ hc)
    simp [this]
  cases e with
  | nil =>
    simp [List.dropWhile_cons, hq]
  | cons c e =>
    have e1 : List.dropWhile (fun c => ['"'].contains c) ('"' :: (c :: e) ++ ['"'])
        = c :: e ++ ['"'] := by
      rw [List.cons_append, List.dropWhile_cons]
      simp only [hq, if_true]
      rw [List.cons_append, List.dropWhile_cons]
      simp only [hn c (List.mem_cons_self _ _), Bool.false_eq_true, if_false]
    rw [e1]
    have e2 : (c :: e ++ ['"']).reverse = '"' :: (c :: e).reverse := by simp
    rw [e2, List.dropWhile_cons]
    simp only [hq, if_true]
    rw [dropWhile_of_head]
    · simp
    · intro a ha
      apply hn
      have : a ∈ (c :: e).reverse := List.mem_of_mem_head? ha
      exact List.mem_reverse.1 this

theorem foldl_range_set {α : Type} (f : α → α) (d : α) (l : List α) (n : Nat)
    (hn : n ≤ l.length) :
    (List.range n).foldl (fun acc i => acc.set i (f (acc.getD i d))) l
      = (l.take n).map f ++ l.drop n := by
  induction n with
  | zero => simp
  | succ n ih =>
    have hlt : n < l.length := hn
    rw [List.range_succ, List.foldl_append, ih (Nat.le_of_lt hlt)]
    simp only [List.foldl_cons, List.foldl_nil]
    have hlen : ((l.take n).map f).length = n := by
      simp [List.length_take, Nat.min_eq_left (Nat.le_of_lt hlt)]
    have hdrop : l.drop n = l[n] :: l.drop (n + 1) := List.drop_eq_getElem_cons hlt
    have htake : l.take (n + 1) = l.take n ++ [l[n]] := by
      rw [List.take_succ, List.getElem?_eq_getElem hlt]
      rfl
    rw [hdrop, htake]
    have hget : (List.map f (List.take n l) ++ l[n] :: List.drop (n + 1) l).getD n d = l[n] := by
      rw [List.getD_eq_getElem?_getD, List.getElem?_append_right (by omega), hlen]
      simp [List.getElem?_eq_getElem hlt]
    rw [hget, List.set_append_right _ _ (by omega), hlen, Nat.sub_self]
    simp only [List.set_cons_zero, List.map_append, List.map_cons, List.map_nil,
      List.append_assoc, List.singleton_append]

theorem trimQuotesLoop_eq (l : List String) :
    trimQuotesLoop l = l.map (fun e => strings.Trim e "\"") := by
  have h := foldl_range_set (fun e => strings.Trim e "\"") "" l l.length (Nat.le_refl _)
  simpa [trimQuotesLoop] using h

theorem Value_nonempty (x : String) (xs : List String) :
    StringSlice.Value (some (x :: xs))
      = (.string ⟨'\x7b' :: '"'
          :: (x.data ++ (xs.map (fun y => ['"', ',', '"'] ++ y.data)).flatten)
          ++ ['"', '\x7d']⟩, none) := by
  have hsep : ("\",\"" : String).data = ['"', ',', '"'] := rfl
  simp only [StringSlice.Value, StringSlice.len, StringSlice.elems, List.length_cons,
    Nat.add_one_ne_zero, if_false, Prod.mk.injEq, driver.Value.string.injEq, and_true]
  apply String.ext
  simp only [String.data_append, Join_data, hsep]
  rfl

theorem scanText_quoted (dest : StringSlice) (x : String) (xs : List String)
    (h : ∀ e ∈ x :: xs, ',' ∉ e.data ∧ '"' ∉ e.data) :
    StringSlice.scanText dest
        ⟨'\x7b' :: '"'
          :: (x.data ++ (xs.map (fun y => ['"', ',', '"'] ++ y.data)).flatten)
          ++ ['"', '\x7d']⟩
      = (some (x :: xs), none) := by
  have hsep : ("," : String).data ≠ [] := by decide
  have hdata : ("," : String).data = [','] := rfl
  have hq : ∀ e : String, e ∈ x :: xs → ',' ∉ ('"' :: e.data ++ ['"']) := by
    intro e he hmem
    simp only [List.cons_append, List.mem_cons, List.mem_append, List.mem_singleton] at hmem
    rcases hmem with hm | hm | hm
    · exact absurd hm (by decide)
    · exact (h e he).1 hm
    · rcases hm with hm | hm
      · exact absurd hm (by decide)
      · exact absurd hm (List.not_mem_nil _)
  have hps : ∀ q ∈ xs.map (fun y => '"' :: y.data ++ ['"']), ',' ∉ q := by
    intro q hqm
    obtain ⟨e, he, rfl⟩ := List.mem_map.1 hqm
    exact hq e (List.mem_cons_of_mem _ he)
  have hne : (⟨'"' :: (x.data ++ (xs.map (fun y => ['"', ',', '"'] ++ y.data)).flatten)
      ++ ['"']⟩ : String) ≠ "" := by
    intro hh
    have := congrArg String.data hh
    simp at this
  unfold StringSlice.scanText
  simp only [trim_braces, hne, if_false, Prod.mk.injEq, and_true, Option.some.injEq]
  rw [trimQuotesLoop_eq]
  simp only [strings.Split, hsep, if_false, hdata]
  rw [quoted_join, splitChars_comma _ _ _ _ (hq x (List.mem_cons_self _ _)) hps (Nat.le_refl _)]
  simp only [List.nil_append, List.map_cons, List.map_map]
  rw [trim_quotes x.data (h x (List.mem_cons_self _ _)).2]
  congr 1
  conv_rhs => rw [← List.map_id xs]
  apply List.map_congr_left
  intro e he
  simp only [Function.comp, id]
  exact trim_quotes e.data (h e (List.mem_cons_of_mem _ he)).2

/-- C10: string-list round trip. For every non-empty list of strings none of
which contains a comma or a double quote, `Value` returns no error and a
text, and `Scan` of that text, handed over as a string or as bytes, returns
no error and sets the destination, whatever it held, to exactly the original
list. -/
theorem string_slice_round_trip (xs : List String) (dest : StringSlice) (hne : xs ≠ [])
    (h : ∀ e ∈ xs, ',' ∉ e.data ∧ '"' ∉ e.data) :
    ∃ v, StringSlice.Value (some xs) = (.string v, none)
      ∧ StringSlice.Scan dest (.string v) = (some xs, none)
      ∧ StringSlice.Scan dest (.bytes v) = (some xs, none) := by
  obtain ⟨x, rest, rfl⟩ := List.exists_cons_of_ne_nil hne
  exact ⟨_, Value_nonempty x rest, scanText_quoted dest x rest h, scanText_quoted dest x rest h⟩

/-- Witness of C10: `["test1","test2","test3"]` is encoded as
`{"test1","test2","test3"}` and decoded back to the same list. -/
theorem string_slice_round_trip_witness :
    (["test1", "test2", "test3"] : List String) ≠ []
    ∧ (∀ e ∈ (["test1", "test2", "test3"] : List String), ',' ∉ e.data ∧ '"' ∉ e.data)
    ∧ StringSlice.Value (some ["test1", "test2", "test3"])
        = (.string "\x7b\"test1\",\"test2\",\"test3\"\x7d", none)
    ∧ StringSlice.Scan none (.string "\x7b\"test1\",\"test2\",\"test3\"\x7d")
        = (some ["test1", "test2", "test3"], none) := by
  obtain ⟨v, hv, hs, _⟩ :=
    string_slice_round_trip ["test1", "test2", "test3"] none (by decide) (by decide)
  have hval : StringSlice.Value (some ["test1", "test2", "test3"])
      = (.string "\x7b\"test1\",\"test2\",\"test3\"\x7d", none) := by decide!
  have hveq : v = "\x7b\"test1\",\"test2\",\"test3\"\x7d" := by
    rw [hval] at hv
    simpa using hv.symm
  exact ⟨by decide, by decide, hval, hveq ▸ hs⟩

/-- C12: empty/absent collapse for both list codecs. `Value` of the nil list
and of the empty, non-nil list is the text `{}` with no error, and `Scan` of
`{}`, as a string or as bytes, into a nil destination returns no error and
leaves the destination nil. -/
theorem empty_absent_collapse :
    StringSlice.Value none = (.string "\x7b\x7d", none)
    ∧ StringSlice.Value (some []) = (.string "\x7b\x7d", none)
    ∧ IntSlice.Value none = (.string "\x7b\x7d", none)
    ∧ IntSlice.Value (some []) = (.string "\x7b\x7d", none)
    ∧ StringSlice.Scan none (.string "\x7b\x7d") = (none, none)
    ∧ StringSlice.Scan none (.bytes "\x7b\x7d") = (none, none)
    ∧ IntSlice.Scan none (.string "\x7b\x7d") = (none, none)
    ∧ IntSlice.Scan none (.bytes "\x7b\x7d") = (none, none) := by
  refine ⟨rfl, rfl, rfl, rfl, ?_, ?_, ?_, ?_⟩ <;> decide!

theorem Join_quoted (x : String) (xs : List String) :
    "\"" ++ strings.Join (x :: xs) "\",\"" ++ "\""
      = strings.Join ((x :: xs).map (fun e => "\"" ++ e ++ "\"")) "," := by
  induction xs generalizing x with
  | nil => simp [strings.Join]
  | cons y r ih =>
    have h := ih y
    simp only [List.map_cons, strings.Join] at h ⊢
    rw [← h]
    apply String.ext
    simp [String.data_append]

theorem intercalate_comma (p : List Char) (ps : List (List Char)) :
    List.intercalate [','] (p :: ps) = p ++ (ps.map (fun q => ',' :: q)).flatten := by
  induction ps generalizing p with
  | nil => simp [List.intercalate, List.intersperse]
  | cons q r ih =>
    have h := ih q
    simp only [List.intercalate, List.intersperse, List.flatten_cons, List.map_cons,
      List.singleton_append, List.cons_append, List.nil_append] at h ⊢
    rw [h]

/-- C13: `StringSlice.Value` never fails; for a non-empty list it returns,
character for character, an opening brace, the elements each wrapped
verbatim in double quotes and separated by single commas without spaces, and
a closing brace, which is `{"` + e1 + `","` + e2 + ... + `"}`; a one-element
list `[e]` yields `{"e"}`, and quotes or commas inside an element are copied
unescaped. -/
theorem string_slice_value (s : StringSlice) (x : String) (xs : List String) :
    (StringSlice.Value s).2 = none
    ∧ StringSlice.Value (some (x :: xs))
        = (.string
            ⟨['\x7b']
              ++ List.intercalate [','] ((x :: xs).map (fun e => ['"'] ++ e.data ++ ['"']))
              ++ ['\x7d']⟩,
           none)
    ∧ StringSlice.Value (some (x :: xs))
        = (.string
            ⟨['\x7b', '"'] ++ x.data
              ++ (xs.map (fun e => ['"', ',', '"'] ++ e.data)).flatten ++ ['"', '\x7d']⟩,
           none)
    ∧ StringSlice.Value (some (x :: xs))
        = (.string ("\x7b\"" ++ strings.Join (x :: xs) "\",\"" ++ "\"\x7d"), none)
    ∧ StringSlice.Value (some (x :: xs))
        = (.string
            ("\x7b" ++ strings.Join ((x :: xs).map (fun e => "\"" ++ e ++ "\"")) "," ++ "\x7d"),
           none)
    ∧ StringSlice.Value (some [x]) = (.string ⟨['\x7b', '"'] ++ x.data ++ ['"', '\x7d']⟩, none)
    ∧ StringSlice.Value (some ["a", "b"]) = (.string "\x7b\"a\",\"b\"\x7d", none)
    ∧ StringSlice.Value (some ["test1", "test2", "test3"])
        = (.string "\x7b\"test1\",\"test2\",\"test3\"\x7d", none)
    ∧ StringSlice.Value (some ["a\"b", "c,d", "", " e "])
        = (.string "\x7b\"a\"b\",\"c,d\",\"\",\" e \"\x7d", none) := by
  have hchars := Value_nonempty x xs
  refine ⟨?_, ?_, ?_, rfl, ?_, ?_, by decide!, by decide!, by decide!⟩
  · unfold StringSlice.Value
    split_ifs <;> rfl
  · rw [hchars]
    simp only [Prod.mk.injEq, driver.Value.string.injEq, and_true]
    apply String.ext
    have hq := quoted_join x.data xs
    simp only [List.map_cons, List.map_map, intercalate_comma]
    simp only [List.map_map] at hq
    simp only [List.cons_append, List.nil_append, List.append_assoc, List.singleton_append,
      List.cons.injEq, true_and] at hq ⊢
    have hq2 := congrArg (fun l => l ++ ['\x7d']) hq
    simpa only [List.append_assoc, List.cons_append, List.nil_append] using hq2
  · rw [hchars]
    simp
  · rw [← Join_quoted]
    simp only [StringSlice.Value, StringSlice.len, StringSlice.elems, List.length_cons,
      Nat.add_one_ne_zero, if_false, Prod.mk.injEq, driver.Value.string.injEq, and_true]
    apply String.ext
    simp [String.data_append]
  · have h1 := Value_nonempty x []
    rw [h1]
    simp

/-- C16: for each of the three codecs, a source that is neither a string nor
a byte sequence (any other dynamic type, the nil source included) makes
`Scan` return an error and leave the destination as it was. -/
theorem scan_unsupported_source {J : Type} (Unmarshal : String → J → J × Option GoError)
    (ss : StringSlice) (is : IntSlice) (obj : J) (src : driver.Value)
    (hs : ∀ v, src ≠ .string v) (hb : ∀ v, src ≠ .bytes v) :
    (∃ e, StringSlice.Scan ss src = (ss, some e))
    ∧ (∃ e, IntSlice.Scan is src = (is, some e))
    ∧ (∃ e, JsonObject.Scan Unmarshal obj src = (obj, some e)) := by
  cases src with
  | string v => exact absurd rfl (hs v)
  | bytes v => exact absurd rfl (hb v)
  | other goType => exact ⟨⟨_, rfl⟩, ⟨_, rfl⟩, ⟨_, rfl⟩⟩

/-- Witness of C16: an `int64` source, with destinations that hold values. -/
theorem scan_unsupported_source_witness :
    (∀ v, driver.Value.other "int64" ≠ .string v)
    ∧ (∀ v, driver.Value.other "int64" ≠ .bytes v)
    ∧ (∃ e, StringSlice.Scan (some ["a"]) (.other "int64") = (some ["a"], some e))
    ∧ (∃ e, IntSlice.Scan (some [1]) (.other "int64") = (some [1], some e))
    ∧ (∃ e, JsonObject.Scan (fun (_ : String) (o : List (String × String)) => (o, none))
          [("k", "v")] (.other "int64") = ([("k", "v")], some e)) :=
  ⟨fun _ => by simp, fun _ => by simp,
    scan_unsupported_source (fun (_ : String) (o : List (String × String)) => (o, none))
      (some ["a"]) (some [1]) [("k", "v")] (.other "int64") (fun _ => by simp) (fun _ => by simp)⟩

/-- C19, as stated, fails: with the fixture and `PrimaryKeys = ["uuid"]`, a
non-empty list that names no field, the generator returns, the `WHERE`
clause is empty and `Delete` ends in `WHERE `. -/
theorem keyless_where_counterexample :
    ({ fixtureOpts DriverSqlite with PrimaryKeys := ["uuid"] } :
        GenerateQueriesOptions).PrimaryKeys ≠ []
    ∧ (updateLoop ["uuid"] ["id", "field2"] (collectCols id DriverSqlite T1)).2 = []
    ∧ GenerateQueries id { fixtureOpts DriverSqlite with PrimaryKeys := ["uuid"] }
      = .ok
        { CreateTable := "CREATE TABLE IF NOT EXISTS t1 (id INTEGER PRIMARY KEY AUTOINCREMENT, field1 TEXT NOT NULL, field2 INTEGER AUTOINCREMENT, field3 BOOLEAN NOT NULL, field4 TEXT)"
          DropTable := "DROP TABLE IF EXISTS t1"
          Select := "SELECT * FROM t1"
          Insert := "INSERT INTO t1 (field1, field3, field4) VALUES (:field1, :field3, :field4) RETURNING *"
          Update := "UPDATE t1 SET field1 = :field1, field3 = :field3, field4 = :field4 WHERE  RETURNING *"
          Upsert := "INSERT INTO t1 (field1, field3, field4) VALUES (:field1, :field3, :field4) ON CONFLICT (uuid) DO UPDATE SET field1 = EXCLUDED.field1, field3 = EXCLUDED.field3, field4 = EXCLUDED.field4 RETURNING *"
          Delete := "DELETE FROM t1 WHERE " } := by
  decide!

theorem Join_ne_empty (w : String) (ws : List String) (sep : String) (hw : w ≠ "") :
    strings.Join (w :: ws) sep ≠ "" := by
  intro h
  have hd := congrArg String.data h
  rw [Join_data] at hd
  have : w.data = [] := (List.append_eq_nil.1 hd).1
  exact hw (String.ext this)

/-- C19, amended: for every input with non-empty `PrimaryKeys` the
generator returns, and the `WHERE` clause shared by `Update` and `Delete`
holds at least one predicate exactly when some entry of `PrimaryKeys` is the
name of a retained field; every predicate is `name = :name` of such a
field and the clause text is then not empty. When no entry names a retained
field the clause is empty and `Delete` is `DELETE FROM <table> WHERE `. -/
theorem where_clause_has_key (up : Char → Char) (opts : GenerateQueriesOptions)
    (h : opts.PrimaryKeys ≠ []) :
    ∃ q, GenerateQueries up opts = .ok q
      ∧ q.Delete = "DELETE FROM " ++ opts.TableName ++ " WHERE "
          ++ strings.Join (updateLoop opts.PrimaryKeys opts.AutoGeneratingCols
              (collectCols up opts.Driver opts.Model)).2 " AND "
      ∧ q.Update = "UPDATE " ++ opts.TableName ++ " SET "
          ++ strings.Join (updateLoop opts.PrimaryKeys opts.AutoGeneratingCols
              (collectCols up opts.Driver opts.Model)).1 ", "
          ++ " WHERE "
          ++ strings.Join (updateLoop opts.PrimaryKeys opts.AutoGeneratingCols
              (collectCols up opts.Driver opts.Model)).2 " AND "
          ++ " RETURNING *"
      ∧ ((updateLoop opts.PrimaryKeys opts.AutoGeneratingCols
            (collectCols up opts.Driver opts.Model)).2 ≠ []
          ↔ ∃ c ∈ retainedCols up opts.Driver opts.Model, c.name ∈ opts.PrimaryKeys)
      ∧ (∀ w ∈ (updateLoop opts.PrimaryKeys opts.AutoGeneratingCols
            (collectCols up opts.Driver opts.Model)).2,
          ∃ c ∈ retainedCols up opts.Driver opts.Model,
            c.name ∈ opts.PrimaryKeys ∧ w = c.name ++ " = :" ++ c.name)
      ∧ ((∃ c ∈ retainedCols up opts.Driver opts.Model, c.name ∈ opts.PrimaryKeys) →
          strings.Join (updateLoop opts.PrimaryKeys opts.AutoGeneratingCols
            (collectCols up opts.Driver opts.Model)).2 " AND " ≠ "")
      ∧ ((¬ ∃ c ∈ retainedCols up opts.Driver opts.Model, c.name ∈ opts.PrimaryKeys) →
          q.Delete = "DELETE FROM " ++ opts.TableName ++ " WHERE ") := by
  obtain ⟨pk, rest, hcons⟩ := List.exists_cons_of_ne_nil h
  have hall : ∀ w ∈ (updateLoop opts.PrimaryKeys opts.AutoGeneratingCols
      (collectCols up opts.Driver opts.Model)).2,
      ∃ c ∈ retainedCols up opts.Driver opts.Model,
        c.name ∈ opts.PrimaryKeys ∧ w = c.name ++ " = :" ++ c.name := by
    intro w hw
    simp only [updateLoop_eq, collectCols_eq] at hw
    obtain ⟨d, hd, rfl⟩ := List.mem_map.1 hw
    simp only [whereFields, List.mem_filter, decide_eq_true_eq] at hd
    exact ⟨d, hd.1, hd.2, rfl⟩
  have hiff : (updateLoop opts.PrimaryKeys opts.AutoGeneratingCols
      (collectCols up opts.Driver opts.Model)).2 ≠ []
      ↔ ∃ c ∈ retainedCols up opts.Driver opts.Model, c.name ∈ opts.PrimaryKeys := by
    constructor
    · intro hne
      obtain ⟨w, ws, hws⟩ := List.exists_cons_of_ne_nil hne
      obtain ⟨c, hc, hpk, _⟩ := hall w (by rw [hws]; exact List.mem_cons_self _ _)
      exact ⟨c, hc, hpk⟩
    · rintro ⟨c, hc, hpk⟩
      have hmem : c.name ++ " = :" ++ c.name
          ∈ (updateLoop opts.PrimaryKeys opts.AutoGeneratingCols
              (collectCols up opts.Driver opts.Model)).2 := by
        simp only [updateLoop_eq, collectCols_eq]
        exact List.mem_map.2 ⟨c, by simp [whereFields, hc, hpk], rfl⟩
      exact List.ne_nil_of_mem hmem
  refine ⟨_, GenerateQueries_cons up opts pk rest hcons, rfl, rfl, hiff, hall, ?_, ?_⟩
  · intro hex
    obtain ⟨w, ws, hws⟩ := List.exists_cons_of_ne_nil (hiff.2 hex)
    rw [hws]
    apply Join_ne_empty
    obtain ⟨d, _, _, hwd⟩ := hall w (by rw [hws]; exact List.mem_cons_self _ _)
    intro hw
    have := congrArg String.data (hwd.symm.trans hw)
    simp [String.data_append] at this
  · intro hno
    have hnil : (updateLoop opts.PrimaryKeys opts.AutoGeneratingCols
        (collectCols up opts.Driver opts.Model)).2 = [] := by
      by_contra hne
      exact hno (hiff.1 hne)
    simp only [hnil, strings.Join]
    apply String.ext
    simp [String.data_append]

/-- Witness of C19 (amended) on the reference fixture under the SQLite
driver, whose primary key `id` is a retained field. -/
theorem where_clause_has_key_witness :
    (fixtureOpts DriverSqlite).PrimaryKeys ≠ []
    ∧ ∃ q, GenerateQueries id (fixtureOpts DriverSqlite) = .ok q
      ∧ q.Delete = "DELETE FROM t1 WHERE id = :id" := by
  obtain ⟨q, hq, hd, _⟩ := where_clause_has_key id (fixtureOpts DriverSqlite) (by decide)
  refine ⟨by decide, q, hq, ?_⟩
  rw [hd]
  decide!

/-- C20, as stated, fails: the type declared `text not null` contains none
of `SERIAL`, `UUID`, `AUTOINCREMENT`, the field is retained, and under both
drivers it is rendered `TEXT NOT NULL`, not the declared text. -/
theorem pass_through_counterexample :
    strings.Contains "text not null" "SERIAL" = false
    ∧ strings.Contains "text not null" "UUID" = false
    ∧ strings.Contains "text not null" "AUTOINCREMENT" = false
    ∧ skipped id DriverSqlite ⟨[("db", "note"), ("dbtype", "text not null")]⟩ = false
    ∧ skipped id DriverPostgres ⟨[("db", "note"), ("dbtype", "text not null")]⟩ = false
    ∧ fieldType id DriverSqlite ⟨[("db", "note"), ("dbtype", "text not null")]⟩
        = "TEXT NOT NULL"
    ∧ fieldType id DriverPostgres ⟨[("db", "note"), ("dbtype", "text not null")]⟩
        = "TEXT NOT NULL"
    ∧ GenerateQueries id
        { TableName := "t"
          Model := [⟨[("db", "note"), ("dbtype", "text not null")]⟩]
          AutoGeneratingCols := []
          PrimaryKeys := ["note"]
          Driver := DriverPostgres }
      = .ok
        { CreateTable := "CREATE TABLE IF NOT EXISTS t (note TEXT NOT NULL)"
          DropTable := "DROP TABLE IF EXISTS t"
          Select := "SELECT * FROM t"
          Insert := "INSERT INTO t (note) VALUES (:note) RETURNING *"
          Update := "UPDATE t SET  WHERE note = :note RETURNING *"
          Upsert := "INSERT INTO t (note) VALUES (:note) ON CONFLICT (note) DO UPDATE SET  RETURNING *"
          Delete := "DELETE FROM t WHERE note = :note" } := by
  decide!

theorem ToUpper_no_lower (up : Char → Char) (s : String)
    (h : s.data.all (fun c => decide (c.toNat < 128 ∧ ¬ (97 ≤ c.toNat ∧ c.toNat ≤ 122))) = true) :
    strings.ToUpper up s = s := by
  have hascii : s.data.all (fun c => decide (c.toNat < 128)) = true := by
    rw [List.all_eq_true] at h ⊢
    intro c hc
    have := h c hc
    simp only [decide_eq_true_eq] at this ⊢
    exact this.1
  rw [ToUpper_ascii up s hascii]
  apply String.ext
  show List.map Char.toUpper s.data = s.data
  conv_rhs => rw [← List.map_id s.data]
  apply List.map_congr_left
  intro c hc
  have := (List.all_eq_true.1 h) c hc
  simp only [decide_eq_true_eq] at this
  unfold Char.toUpper
  simp only [id]
  have hr : ¬ (c.toNat ≥ 97 ∧ c.toNat ≤ 122) := this.2
  simp only [hr, if_false]

/-- C20, amended: under every driver, a retained field whose upper-cased
declared type text triggers no dialect rule (under SQLite it contains neither
`SERIAL` nor `UUID`, under Postgres it does not contain `AUTOINCREMENT`) is
rendered in `CreateTable` with exactly its upper-cased declared type text;
that is the declared type text itself when it is ASCII without lower-case
letters. -/
theorem type_pass_through (up : Char → Char) (opts : GenerateQueriesOptions)
    (f : reflect.StructField) (hf : f ∈ opts.Model)
    (hk : skipped up opts.Driver f = false)
    (hs : opts.Driver = DriverSqlite →
      strings.Contains (strings.ToUpper up (reflect.Get f.Tag "dbtype")) "SERIAL" = false
      ∧ strings.Contains (strings.ToUpper up (reflect.Get f.Tag "dbtype")) "UUID" = false)
    (hp : opts.Driver = DriverPostgres →
      strings.Contains (strings.ToUpper up (reflect.Get f.Tag "dbtype")) "AUTOINCREMENT"
        = false) :
    fieldType up opts.Driver f = strings.ToUpper up (reflect.Get f.Tag "dbtype")
    ∧ fieldName f ++ " " ++ strings.ToUpper up (reflect.Get f.Tag "dbtype")
        ∈ createLoop (collectCols up opts.Driver opts.Model)
    ∧ ((reflect.Get f.Tag "dbtype").data.all
          (fun c => decide (c.toNat < 128 ∧ ¬ (97 ≤ c.toNat ∧ c.toNat ≤ 122))) = true →
        fieldType up opts.Driver f = reflect.Get f.Tag "dbtype"
        ∧ fieldName f ++ " " ++ reflect.Get f.Tag "dbtype"
            ∈ createLoop (collectCols up opts.Driver opts.Model)) := by
  have hty : fieldType up opts.Driver f
      = strings.ToUpper up (reflect.Get f.Tag "dbtype") := by
    unfold fieldType rewriteType
    by_cases h1 : opts.Driver = DriverSqlite
    · obtain ⟨ha, hb⟩ := hs h1
      simp only [h1, if_true, ha, hb, Bool.false_eq_true, if_false]
    · by_cases h2 : opts.Driver = DriverPostgres
      · have h3 := hp h2
        rw [h2] at h1 ⊢
        simp only [h1, if_true, if_false, h3, Bool.false_eq_true]
      · simp only [h1, h2, if_false]
  have hmem : fieldName f ++ " " ++ fieldType up opts.Driver f
      ∈ createLoop (collectCols up opts.Driver opts.Model) := by
    rw [createLoop_eq, collectCols_eq, retainedCols, List.map_map]
    exact List.mem_map.2 ⟨f, List.mem_filter.2 ⟨hf, by simp [hk]⟩, rfl⟩
  refine ⟨hty, hty ▸ hmem, ?_⟩
  intro hup
  have hsame := ToUpper_no_lower up _ hup
  rw [hsame] at hty
  exact ⟨hty, hty ▸ hmem⟩

/-- Witness of C20 (amended): the field `field1` of the fixture, declared
`TEXT NOT NULL`, under the SQLite driver. -/
theorem type_pass_through_witness :
    (⟨[("json", "field1"), ("db", "field1"), ("dbtype", "TEXT NOT NULL")]⟩ :
        reflect.StructField) ∈ T1
    ∧ skipped id DriverSqlite
        ⟨[("json", "field1"), ("db", "field1"), ("dbtype", "TEXT NOT NULL")]⟩ = false
    ∧ fieldType id DriverSqlite
        ⟨[("json", "field1"), ("db", "field1"), ("dbtype", "TEXT NOT NULL")]⟩
        = "TEXT NOT NULL"
    ∧ "field1 TEXT NOT NULL" ∈ createLoop (collectCols id DriverSqlite T1) := by
  have h := type_pass_through id (fixtureOpts DriverSqlite)
    ⟨[("json", "field1"), ("db", "field1"), ("dbtype", "TEXT NOT NULL")]⟩
    (by decide) (by decide!) (fun _ => by decide!)
    (fun hd => absurd hd (by decide))
  have h3 := h.2.2 (by decide!)
  exact ⟨by decide, by decide!, h3.1, h3.2⟩

theorem digitChar_spec (d : Nat) (hd : d < 10) :
    strconv.isDigit (Char.ofNat (48 + d)) = true ∧ (Char.ofNat (48 + d)).toNat - 48 = d := by
  interval_cases d <;> exact ⟨by decide, by decide⟩

theorem fmtDigits_buf (fuel u : Nat) (buf : List Char) :
    fmt.fmtDigits fuel u buf = fmt.fmtDigits fuel u [] ++ buf := by
  induction fuel generalizing u buf with
  | zero => simp [fmt.fmtDigits]
  | succ fuel ih =>
    simp only [fmt.fmtDigits]
    split_ifs
    · rw [ih (u / 10) (Char.ofNat (48 + u % 10) :: buf), ih (u / 10) [Char.ofNat (48 + u % 10)]]
      simp
    · simp

theorem fmtDigits_ne_nil (fuel u : Nat) : fmt.fmtDigits fuel u [] ≠ [] := by
  cases fuel with
  | zero => simp [fmt.fmtDigits]
  | succ fuel =>
    simp only [fmt.fmtDigits]
    split_ifs
    · rw [fmtDigits_buf]
      simp
    · simp

theorem fmtDigits_digits (fuel u : Nat) (hu : u ≤ fuel) :
    ∀ c ∈ fmt.fmtDigits fuel u [], strconv.isDigit c = true := by
  induction fuel generalizing u with
  | zero =>
    have : u = 0 := Nat.le_zero.1 hu
    subst this
    intro c hc
    simp only [fmt.fmtDigits, List.mem_singleton] at hc
    subst hc
    decide
  | succ fuel ih =>
    intro c hc
    simp only [fmt.fmtDigits] at hc
    split_ifs at hc with h10
    · rw [fmtDigits_buf] at hc
      rcases List.mem_append.1 hc with h | h
      · exact ih (u / 10) (by omega) c h
      · simp only [List.mem_singleton] at h
        subst h
        exact (digitChar_spec (u % 10) (Nat.mod_lt _ (by decide))).1
    · simp only [List.mem_singleton] at hc
      subst hc
      exact (digitChar_spec u (by omega)).1

theorem digitsValue_append (a b : List Char) (n : Nat) :
    digitsValue (a ++ b) n = digitsValue b (digitsValue a n) := by
  induction a generalizing n with
  | nil => rfl
  | cons c a ih =>
    show digitsValue (a ++ b) (n * 10 + (c.toNat - 48)) = _
    rw [ih]
    rfl

theorem digitsValue_fmtDigits (fuel u : Nat) (hu : u ≤ fuel) :
    digitsValue (fmt.fmtDigits fuel u []) 0 = u := by
  induction fuel generalizing u with
  | zero =>
    have : u = 0 := Nat.le_zero.1 hu
    subst this
    decide
  | succ fuel ih =>
    simp only [fmt.fmtDigits]
    split_ifs with h10
    · rw [fmtDigits_buf, digitsValue_append, ih (u / 10) (by omega)]
      simp only [digitsValue, (digitChar_spec (u % 10) (Nat.mod_lt _ (by decide))).2]
      omega
    · simp only [digitsValue, (digitChar_spec u (by omega)).2]
      omega

theorem digitsValue_ge (cs : List Char) (n : Nat) : n ≤ digitsValue cs n := by
  induction cs generalizing n with
  | nil => exact Nat.le_refl _
  | cons c cs ih =>
    simp only [digitsValue]
    exact Nat.le_trans (by omega) (ih _)

theorem fastLoop_digits (s0 : String) (cs : List Char) (n : Nat)
    (h : ∀ c ∈ cs, strconv.isDigit c = true) :
    strconv.fastLoop s0 cs n = .ok (digitsValue cs n) := by
  induction cs generalizing n with
  | nil => rfl
  | cons c cs ih =>
    simp only [strconv.fastLoop, h c (List.mem_cons_self _ _), if_true, digitsValue]
    exact ih _ (fun d hd => h d (List.mem_cons_of_mem _ hd))

theorem parseUintLoop_digits (s0 : String) (cs : List Char) (n : Nat)
    (h : ∀ c ∈ cs, strconv.isDigit c = true)
    (hmax : digitsValue cs n ≤ 18446744073709551615) :
    strconv.parseUintLoop s0 cs n = .ok (digitsValue cs n) := by
  induction cs generalizing n with
  | nil => rfl
  | cons c cs ih =>
    simp only [digitsValue] at hmax
    have hge := digitsValue_ge cs (n * 10 + (c.toNat - 48))
    have h1 : ¬ n ≥ 1844674407370955162 := by omega
    have h2 : ¬ n * 10 + (c.toNat - 48) > 18446744073709551615 := by omega
    simp only [strconv.parseUintLoop, h c (List.mem_cons_self _ _), if_true, h1, h2, if_false,
      digitsValue]
    exact ih _ (fun d hd => h d (List.mem_cons_of_mem _ hd)) hmax

theorem fastLoop_bad (s0 : String) (cs : List Char) (n : Nat)
    (h : ∃ c ∈ cs, strconv.isDigit c = false) :
    ∃ e, strconv.fastLoop s0 cs n = .error e := by
  induction cs generalizing n with
  | nil =>
    obtain ⟨c, hc, _⟩ := h
    exact absurd hc (List.not_mem_nil _)
  | cons c cs ih =>
    by_cases hd : strconv.isDigit c = true
    · simp only [strconv.fastLoop, hd, if_true]
      apply ih
      obtain ⟨d, hmem, hbad⟩ := h
      rcases List.mem_cons.1 hmem with rfl | hmem
      · rw [hd] at hbad
        exact absurd hbad (by decide)
      · exact ⟨d, hmem, hbad⟩
    · simp only [strconv.fastLoop, hd, if_false]
      exact ⟨_, rfl⟩

theorem parseUintLoop_bad (s0 : String) (cs : List Char) (n : Nat)
    (h : ∃ c ∈ cs, strconv.isDigit c = false) :
    ∃ e, strconv.parseUintLoop s0 cs n = .error e := by
  induction cs generalizing n with
  | nil =>
    obtain ⟨c, hc, _⟩ := h
    exact absurd hc (List.not_mem_nil _)
  | cons c cs ih =>
    by_cases hd : strconv.isDigit c = true
    · simp only [strconv.parseUintLoop, hd, if_true]
      split_ifs
      · exact ⟨_, rfl⟩
      · exact ⟨_, rfl⟩
      · apply ih
        obtain ⟨d, hmem, hbad⟩ := h
        rcases List.mem_cons.1 hmem with rfl | hmem
        · rw [hd] at hbad
          exact absurd hbad (by decide)
        · exact ⟨d, hmem, hbad⟩
    · simp only [strconv.parseUintLoop, hd, if_false]
      exact ⟨_, rfl⟩

theorem isDigit_not_sign (c : Char) (h : strconv.isDigit c = true) : c ≠ '-' ∧ c ≠ '+' := by
  constructor <;>
  · rintro rfl
    revert h
    decide

theorem Atoi_digits (ds : List Char) (hne : ds ≠ [])
    (hd : ∀ c ∈ ds, strconv.isDigit c = true) (hmax : digitsValue ds 0 < 9223372036854775808) :
    strconv.Atoi ⟨ds⟩ = .ok (digitsValue ds 0 : Int) := by
  obtain ⟨c, rest, rfl⟩ := List.exists_cons_of_ne_nil hne
  have hc := isDigit_not_sign c (hd c (List.mem_cons_self _ _))
  have h1 : ¬ (some c = some '-') := by simpa using hc.1
  have h2 : ¬ (some c = some '+') := by simpa using hc.2
  have hstr : (⟨c :: rest⟩ : String) ≠ "" := by
    intro h
    have := congrArg String.data h
    simp at this
  unfold strconv.Atoi
  by_cases hfast : 0 < (⟨c :: rest⟩ : String).utf8ByteSize
      ∧ (⟨c :: rest⟩ : String).utf8ByteSize < 19
  · rw [if_pos hfast]
    simp only [List.head?_cons, h1, h2, or_self, if_false, false_and]
    rw [fastLoop_digits _ _ _ hd]
  · rw [if_neg hfast]
    have h3 : ¬ digitsValue (c :: rest) 0 ≥ 9223372036854775808 := by omega
    simp only [strconv.ParseInt, hstr, if_false, List.head?_cons, h1, h2, or_self,
      strconv.ParseUint]
    rw [parseUintLoop_digits _ _ _ hd (by omega)]
    simp [h3]

theorem Atoi_neg_digits (ds : List Char) (hne : ds ≠ [])
    (hd : ∀ c ∈ ds, strconv.isDigit c = true) (hmax : digitsValue ds 0 ≤ 9223372036854775808) :
    strconv.Atoi ⟨'-' :: ds⟩ = .ok (-(digitsValue ds 0 : Int)) := by
  have hstr : (⟨'-' :: ds⟩ : String) ≠ "" := by
    intro h
    have := congrArg String.data h
    simp at this
  have hds : (⟨ds⟩ : String) ≠ "" := by
    intro h
    exact hne (congrArg String.data h)
  have hlen : ¬ ds.length < 1 := by
    have := List.length_pos.2 hne
    omega
  unfold strconv.Atoi
  by_cases hfast : 0 < (⟨'-' :: ds⟩ : String).utf8ByteSize
      ∧ (⟨'-' :: ds⟩ : String).utf8ByteSize < 19
  · rw [if_pos hfast]
    simp only [List.head?_cons, true_or, if_true, List.tail_cons, hlen, and_false, if_false]
    rw [fastLoop_digits _ _ _ hd]
  · rw [if_neg hfast]
    have h3 : ¬ digitsValue ds 0 > 9223372036854775808 := by omega
    simp only [strconv.ParseInt, hstr, if_false, List.head?_cons, or_true, if_true,
      List.tail_cons, strconv.ParseUint, hds]
    rw [parseUintLoop_digits _ _ _ hd (by omega)]
    simp [h3]

theorem fmtInteger_chars (num : Int) :
    ∀ c ∈ (fmt.fmtInteger num).data, strconv.isDigit c = true ∨ c = '-' := by
  intro c hc
  unfold fmt.fmtInteger at hc
  split_ifs at hc
  · rcases List.mem_cons.1 hc with h | h
    · exact Or.inr h
    · exact Or.inl (fmtDigits_digits _ _ (Nat.le_refl _) c h)
  · exact Or.inl (fmtDigits_digits _ _ (Nat.le_refl _) c hc)

theorem fmtInteger_ne_empty (num : Int) : (fmt.fmtInteger num).data ≠ [] := by
  unfold fmt.fmtInteger
  split_ifs
  · simp
  · exact fmtDigits_ne_nil _ _

/-- Parsing the text of `%d` gives the number back, for every 64-bit `int`. -/
theorem Atoi_fmtInteger (num : Int) (hlo : -9223372036854775808 ≤ num)
    (hhi : num ≤ 9223372036854775807) :
    strconv.Atoi (fmt.fmtInteger num) = .ok num := by
  have hd := fmtDigits_digits num.natAbs num.natAbs (Nat.le_refl _)
  have hv := digitsValue_fmtDigits num.natAbs num.natAbs (Nat.le_refl _)
  have hne := fmtDigits_ne_nil num.natAbs num.natAbs
  unfold fmt.fmtInteger
  split_ifs with hneg
  · rw [Atoi_neg_digits _ hne hd (by rw [hv]; omega), hv]
    congr 1
    omega
  · rw [Atoi_digits _ hne hd (by rw [hv]; omega), hv]
    congr 1
    omega

theorem ParseUint_bad (s : String)
    (h : s.data = [] ∨ ∃ c ∈ s.data, strconv.isDigit c = false) :
    ∃ e, strconv.ParseUint s = .error e := by
  unfold strconv.ParseUint
  by_cases hs : s = ""
  · rw [if_pos hs]
    exact ⟨_, rfl⟩
  · rw [if_neg hs]
    rcases h with h | h
    · exact absurd (String.ext h) hs
    · exact parseUintLoop_bad _ _ _ h

theorem not_decimal_digits (c : Char) (rest : List Char)
    (h : isDecimalInteger ⟨c :: rest⟩ = false) :
    (if c = '+' ∨ c = '-' then rest else c :: rest) = []
      ∨ ∃ d ∈ (if c = '+' ∨ c = '-' then rest else c :: rest), strconv.isDigit d = false := by
  simp only [isDecimalInteger] at h
  generalize (if c = '+' ∨ c = '-' then rest else c :: rest) = digits at h
  cases digits with
  | nil => exact Or.inl rfl
  | cons d ds =>
    right
    simp only [List.isEmpty_cons, Bool.not_false, Bool.true_and] at h
    by_contra hall
    have : (d :: ds).all strconv.isDigit = true := by
      rw [List.all_eq_true]
      intro x hx
      by_contra hx'
      exact hall ⟨x, hx, by simpa using hx'⟩
    rw [this] at h
    exact absurd h (by decide)

theorem Atoi_not_decimal (tok : String) (h : isDecimalInteger tok = false) :
    ∃ e, strconv.Atoi tok = .error e := by
  obtain ⟨data⟩ := tok
  cases data with
  | nil =>
    have h0 : ¬ (0 < (⟨[]⟩ : String).utf8ByteSize ∧ (⟨[]⟩ : String).utf8ByteSize < 19) := by
      decide
    unfold strconv.Atoi
    rw [if_neg h0]
    exact ⟨_, rfl⟩
  | cons c rest =>
    have hdig := not_decimal_digits c rest h
    have hstr : (⟨c :: rest⟩ : String) ≠ "" := by
      intro hh
      have := congrArg String.data hh
      simp at this
    unfold strconv.Atoi
    by_cases hfast : 0 < (⟨c :: rest⟩ : String).utf8ByteSize
        ∧ (⟨c :: rest⟩ : String).utf8ByteSize < 19
    · rw [if_pos hfast]
      simp only [List.head?_cons, Option.some.injEq, List.tail_cons]
      by_cases hs : c = '+' ∨ c = '-'
      · have hs' : c = '-' ∨ c = '+' := hs.symm
        simp only [hs, if_true] at hdig
        simp only [hs', if_true, true_and]
        rcases hdig with hnil | hbad
        · simp [hnil]
        · by_cases hl : rest.length < 1
          · simp [hl]
          · obtain ⟨e, he⟩ := fastLoop_bad ⟨c :: rest⟩ rest 0 hbad
            simp only [hl, if_false, he]
            exact ⟨_, rfl⟩
      · have hs' : ¬ (c = '-' ∨ c = '+') := fun hh => hs hh.symm
        simp only [hs, if_false] at hdig
        simp only [hs', if_false, false_and]
        rcases hdig with hnil | hbad
        · exact absurd hnil (by simp)
        · obtain ⟨e, he⟩ := fastLoop_bad ⟨c :: rest⟩ (c :: rest) 0 hbad
          simp only [he]
          exact ⟨_, rfl⟩
    · rw [if_neg hfast]
      simp only [strconv.ParseInt, hstr, if_false, List.head?_cons, Option.some.injEq,
        List.tail_cons]
      have herr : ∃ e, strconv.ParseUint
          (if c = '+' ∨ c = '-' then ⟨rest⟩ else ⟨c :: rest⟩) = .error e := by
        apply ParseUint_bad
        by_cases hs : c = '+' ∨ c = '-'
        · simp only [hs, if_true] at hdig ⊢
          exact hdig
        · simp only [hs, if_false] at hdig ⊢
          exact hdig
      obtain ⟨e, he⟩ := herr
      simp only [he]
      split_ifs <;> exact ⟨_, rfl⟩

theorem value_fold (ns : List Int) (n : Int) (init : String) :
    (n :: ns).foldl (fun v num => v ++ (fmt.fmtInteger num ++ ",")) init
      = init ++ strings.Join ((n :: ns).map fmt.fmtInteger) "," ++ "," := by
  induction ns generalizing n init with
  | nil =>
    simp only [List.foldl_cons, List.foldl_nil, List.map_cons, List.map_nil, strings.Join]
    exact (String.append_assoc _ _ _).symm
  | cons m r ih =>
    rw [List.foldl_cons, ih m]
    simp only [List.map_cons, strings.Join]
    apply String.ext
    simp [String.data_append]

theorem TrimSuffix_comma (x : String) : strings.TrimSuffix (x ++ ",") "," = x := by
  have hdata : ("," : String).data = [','] := rfl
  have hsuf : [','].isSuffixOf (x.data ++ [',']) = true := by
    rw [List.isSuffixOf_iff_suffix]
    exact List.suffix_append _ _
  unfold strings.TrimSuffix
  simp only [String.data_append, hdata, hsuf, if_true]
  apply String.ext
  simp

theorem IntSlice_value_nonempty (n : Int) (ns : List Int) :
    IntSlice.Value (some (n :: ns))
      = (.string ("\x7b" ++ strings.Join ((n :: ns).map fmt.fmtInteger) "," ++ "\x7d"), none) := by
  have hlen : ¬ IntSlice.len (some (n :: ns)) = 0 := by simp [IntSlice.len]
  unfold IntSlice.Value
  rw [if_neg hlen]
  simp only [IntSlice.elems]
  rw [value_fold, TrimSuffix_comma]
  simp only [Prod.mk.injEq, driver.Value.string.injEq, and_true]
  apply String.ext
  simp [String.data_append]

/-- C14: `IntSlice.Value` never fails; for a non-empty list it returns `{`,
the `%d` renderings of the numbers joined by `,`, and `}`: the text holds
only digits, minus signs, commas and the two braces, so no quote and no
space, and no comma before the closing brace; `[1,2,3]` gives `{1,2,3}` and
`[-1]` gives `{-1}`. -/
theorem int_slice_value (s : IntSlice) (n : Int) (ns : List Int) :
    (IntSlice.Value s).2 = none
    ∧ IntSlice.Value (some (n :: ns))
        = (.string ("\x7b" ++ strings.Join ((n :: ns).map fmt.fmtInteger) "," ++ "\x7d"), none)
    ∧ (∀ m : Int, ∀ c ∈ (fmt.fmtInteger m).data, strconv.isDigit c = true ∨ c = '-')
    ∧ (∀ m : Int, -9223372036854775808 ≤ m → m ≤ 9223372036854775807 →
        strconv.Atoi (fmt.fmtInteger m) = .ok m)
    ∧ IntSlice.Value (some [1, 2, 3]) = (.string "\x7b1,2,3\x7d", none)
    ∧ IntSlice.Value (some [-1]) = (.string "\x7b-1\x7d", none) := by
  refine ⟨?_, IntSlice_value_nonempty n ns, fmtInteger_chars, Atoi_fmtInteger, by decide!,
    by decide!⟩
  unfold IntSlice.Value
  split_ifs <;> rfl

theorem trim_braces_clean (t : List Char) (hne : t ≠ [])
    (h : ∀ c ∈ t, c ≠ '\x7b' ∧ c ≠ '\x7d') :
    strings.Trim ⟨'\x7b' :: t ++ ['\x7d']⟩ "\x7b\x7d" = ⟨t⟩ := by
  have h1 : ("\x7b\x7d" : String).data = ['\x7b', '\x7d'] := rfl
  have hn : ∀ c ∈ t, (['\x7b', '\x7d'].contains c) = false := by
    intro c hc
    have := h c hc
    simp [this.1, this.2]
  apply String.ext
  simp only [strings.Trim, h1]
  have e1 : List.dropWhile (fun c => ['\x7b', '\x7d'].contains c) ('\x7b' :: t ++ ['\x7d'])
      = t ++ ['\x7d'] := by
    rw [List.cons_append, List.dropWhile_cons]
    simp only [show (['\x7b', '\x7d'].contains '\x7b') = true by decide, if_true]
    apply dropWhile_of_head
    intro a ha
    obtain ⟨c, rest, rfl⟩ := List.exists_cons_of_ne_nil hne
    simp only [List.cons_append, List.head?_cons, Option.mem_def, Option.some.injEq] at ha
    exact ha ▸ hn c (List.mem_cons_self _ _)
  rw [e1]
  have e2 : (t ++ ['\x7d']).reverse = '\x7d' :: t.reverse := by simp
  rw [e2, List.dropWhile_cons]
  simp only [show (['\x7b', '\x7d'].contains '\x7d') = true by decide, if_true]
  rw [dropWhile_of_head]
  · simp
  · intro a ha
    exact hn a (List.mem_reverse.1 (List.mem_of_mem_head? ha))

theorem trim_none (e : List Char) (cut : String) (h : ∀ c ∈ e, cut.data.contains c = false) :
    strings.Trim ⟨e⟩ cut = ⟨e⟩ := by
  apply String.ext
  simp only [strings.Trim]
  rw [dropWhile_of_head _ e (fun a ha => h a (List.mem_of_mem_head? ha)), dropWhile_of_head]
  · simp
  · intro a ha
    exact h a (List.mem_reverse.1 (List.mem_of_mem_head? ha))

theorem Join_comma_data (x : String) (xs : List String) :
    (strings.Join (x :: xs) ",").data
      = x.data ++ ((xs.map String.data).map (fun q => ',' :: q)).flatten := by
  rw [Join_data]
  simp [List.map_map, Function.comp]
  rfl

theorem split_join_comma (x : String) (xs : List String)
    (h : ∀ e ∈ x :: xs, ',' ∉ e.data) :
    strings.Split (strings.Join (x :: xs) ",") "," = x :: xs := by
  have hsep : ("," : String).data ≠ [] := by decide
  have hdata : ("," : String).data = [','] := rfl
  simp only [strings.Split, hsep, if_false, hdata]
  rw [Join_comma_data, splitChars_comma _ _ _ _ (h x (List.mem_cons_self _ _))
    (by
      intro q hq
      obtain ⟨e, he, rfl⟩ := List.mem_map.1 hq
      exact h e (List.mem_cons_of_mem _ he))
    (Nat.le_refl _)]
  simp only [List.nil_append, List.map_cons, List.map_map, List.cons.injEq, true_and]
  conv_rhs => rw [← List.map_id xs]
  apply List.map_congr_left
  intro e _
  rfl

theorem atoiLoop_fmt (ns acc : List Int)
    (h : ∀ m ∈ ns, -9223372036854775808 ≤ m ∧ m ≤ 9223372036854775807) :
    IntSlice.atoiLoop (ns.map fmt.fmtInteger) acc = .ok (acc ++ ns) := by
  induction ns generalizing acc with
  | nil => simp [IntSlice.atoiLoop]
  | cons m r ih =>
    have hm := h m (List.mem_cons_self _ _)
    simp only [List.map_cons, IntSlice.atoiLoop, Atoi_fmtInteger m hm.1 hm.2]
    rw [ih _ (fun k hk => h k (List.mem_cons_of_mem _ hk))]
    simp

theorem atoiLoop_bad (toks : List String) (acc : List Int)
    (h : ∃ tok ∈ toks, ∃ e, strconv.Atoi tok = .error e) :
    ∃ e, IntSlice.atoiLoop toks acc = .error e := by
  induction toks generalizing acc with
  | nil =>
    obtain ⟨tok, hmem, _⟩ := h
    exact absurd hmem (List.not_mem_nil _)
  | cons t r ih =>
    cases hat : strconv.Atoi t with
    | error e =>
      simp only [IntSlice.atoiLoop, hat]
      exact ⟨_, rfl⟩
    | ok v =>
      simp only [IntSlice.atoiLoop, hat]
      apply ih
      obtain ⟨tok, hmem, e, he⟩ := h
      rcases List.mem_cons.1 hmem with rfl | hmem
      · rw [hat] at he
        exact absurd he (by simp)
      · exact ⟨tok, hmem, e, he⟩

theorem IntSlice_scanText_value (dest : IntSlice) (n : Int) (ns : List Int)
    (h : ∀ m ∈ n :: ns, -9223372036854775808 ≤ m ∧ m ≤ 9223372036854775807) :
    IntSlice.scanText dest
        ("\x7b" ++ strings.Join ((n :: ns).map fmt.fmtInteger) "," ++ "\x7d")
      = (some (n :: ns), none) := by
  have hchars : ∀ c ∈ (strings.Join ((n :: ns).map fmt.fmtInteger) ",").data,
      strconv.isDigit c = true ∨ c = '-' ∨ c = ',' := by
    intro c hc
    rw [List.map_cons, Join_data] at hc
    rcases List.mem_append.1 hc with hc | hc
    · rcases fmtInteger_chars n c hc with hd | hd
      · exact Or.inl hd
      · exact Or.inr (Or.inl hd)
    · obtain ⟨l, hl, hcl⟩ := List.mem_flatten.1 hc
      obtain ⟨e, he, rfl⟩ := List.mem_map.1 hl
      obtain ⟨m, _, rfl⟩ := List.mem_map.1 he
      rcases List.mem_append.1 hcl with hc1 | hc1
      · have : c = ',' := by simpa using hc1
        exact Or.inr (Or.inr this)
      · rcases fmtInteger_chars m c hc1 with hd | hd
        · exact Or.inl hd
        · exact Or.inr (Or.inl hd)
  have hjne : (strings.Join ((n :: ns).map fmt.fmtInteger) ",").data ≠ [] := by
    rw [List.map_cons, Join_data]
    intro hnil
    exact fmtInteger_ne_empty n (List.append_eq_nil.1 hnil).1
  have htext : ("\x7b" ++ strings.Join ((n :: ns).map fmt.fmtInteger) "," ++ "\x7d" : String)
      = ⟨'\x7b' :: (strings.Join ((n :: ns).map fmt.fmtInteger) ",").data ++ ['\x7d']⟩ := by
    apply String.ext
    simp [String.data_append]
  have hclean : ∀ c ∈ (strings.Join ((n :: ns).map fmt.fmtInteger) ",").data,
      c ≠ '\x7b' ∧ c ≠ '\x7d' := by
    intro c hc
    rcases hchars c hc with hd | hd | hd
    · constructor <;>
      · rintro rfl
        revert hd
        decide
    · subst hd
      exact ⟨by decide, by decide⟩
    · subst hd
      exact ⟨by decide, by decide⟩
  have hnocomma : ∀ e ∈ (n :: ns).map fmt.fmtInteger, ',' ∉ e.data := by
    intro e he hmem
    obtain ⟨m, _, rfl⟩ := List.mem_map.1 he
    rcases fmtInteger_chars m ',' hmem with hd | hd
    · revert hd
      decide
    · revert hd
      decide
  have hne : (⟨(strings.Join ((n :: ns).map fmt.fmtInteger) ",").data⟩ : String) ≠ "" := by
    intro hh
    exact hjne (congrArg String.data hh)
  unfold IntSlice.scanText
  simp only [htext, trim_braces_clean _ hjne hclean, hne, if_false]
  have hsplit := split_join_comma (fmt.fmtInteger n) (ns.map fmt.fmtInteger)
    (by simpa using hnocomma)
  rw [← List.map_cons] at hsplit
  rw [hsplit, atoiLoop_fmt _ _ h]
  rfl

/-- C11: integer-list round trip. For every non-empty list of 64-bit
integers, negative ones included, `Value` returns no error and a text, and
`Scan` of that text, handed over as a string or as bytes, returns no error
and sets the destination, whatever it held, to exactly the original list. -/
theorem int_slice_round_trip (ns : List Int) (dest : IntSlice) (hne : ns ≠ [])
    (h : ∀ m ∈ ns, -9223372036854775808 ≤ m ∧ m ≤ 9223372036854775807) :
    ∃ v, IntSlice.Value (some ns) = (.string v, none)
      ∧ IntSlice.Scan dest (.string v) = (some ns, none)
      ∧ IntSlice.Scan dest (.bytes v) = (some ns, none) := by
  obtain ⟨n, rest, rfl⟩ := List.exists_cons_of_ne_nil hne
  exact ⟨_, IntSlice_value_nonempty n rest, IntSlice_scanText_value dest n rest h,
    IntSlice_scanText_value dest n rest h⟩

/-- Witness of C11: `[1,2,3]` is encoded as `{1,2,3}` and decoded back to
`[1,2,3]`; so is a list with negative numbers. -/
theorem int_slice_round_trip_witness :
    ([1, 2, 3] : List Int) ≠ []
    ∧ (∀ m ∈ ([1, 2, 3] : List Int), -9223372036854775808 ≤ m ∧ m ≤ 9223372036854775807)
    ∧ IntSlice.Value (some [1, 2, 3]) = (.string "\x7b1,2,3\x7d", none)
    ∧ IntSlice.Scan none (.string "\x7b1,2,3\x7d") = (some [1, 2, 3], none)
    ∧ IntSlice.Scan (some [5]) (.string "\x7b-7,0,-9223372036854775808\x7d")
        = (some [-7, 0, -9223372036854775808], none) := by
  obtain ⟨v, hv, hs, _⟩ := int_slice_round_trip [1, 2, 3] none (by decide) (by decide)
  have hval : IntSlice.Value (some [1, 2, 3]) = (.string "\x7b1,2,3\x7d", none) := by decide!
  have hveq : v = "\x7b1,2,3\x7d" := by
    rw [hval] at hv
    simpa using hv.symm
  exact ⟨by decide, by decide, hval, hveq ▸ hs, by decide!⟩

/-- C15: `IntSlice.Scan` on a string or byte source whose content, stripped
of braces, is not empty returns an error whenever one of its comma-separated
tokens is not a decimal integer (an optional sign followed by digits), and
the destination is then exactly what it was before the call; so it is for
`{1,a,3}`, `{1, 2}` and `{1,}`. -/
theorem int_slice_scan_bad_token (dest : IntSlice) (v : String)
    (hne : strings.Trim v "\x7b\x7d" ≠ "")
    (hbad : ∃ tok ∈ strings.Split (strings.Trim v "\x7b\x7d") ",",
      isDecimalInteger tok = false) :
    (∃ e, IntSlice.Scan dest (.string v) = (dest, some e))
    ∧ (∃ e, IntSlice.Scan dest (.bytes v) = (dest, some e)) := by
  have hloop : ∃ e, IntSlice.atoiLoop (strings.Split (strings.Trim v "\x7b\x7d") ",") []
      = .error e := by
    apply atoiLoop_bad
    obtain ⟨tok, hmem, htok⟩ := hbad
    exact ⟨tok, hmem, Atoi_not_decimal tok htok⟩
  obtain ⟨e, he⟩ := hloop
  have hscan : IntSlice.scanText dest v = (dest, some (.numError e)) := by
    unfold IntSlice.scanText
    simp only [hne, if_false, he]
  exact ⟨⟨_, hscan⟩, ⟨_, hscan⟩⟩

/-- Witness of C15: `{1,a,3}` scanned into a destination holding `[7]`; the
same destination is kept for `{1, 2}` and `{1,}`. -/
theorem int_slice_scan_bad_token_witness :
    strings.Trim "\x7b1,a,3\x7d" "\x7b\x7d" ≠ ""
    ∧ (∃ tok ∈ strings.Split (strings.Trim "\x7b1,a,3\x7d" "\x7b\x7d") ",",
        isDecimalInteger tok = false)
    ∧ (∃ e, IntSlice.Scan (some [7]) (.string "\x7b1,a,3\x7d") = (some [7], some e))
    ∧ IntSlice.Scan (some [7]) (.string "\x7b1, 2\x7d")
        = (some [7], some (.numError { Func := "Atoi", Num := " 2", Err := .ErrSyntax }))
    ∧ IntSlice.Scan (some [7]) (.string "\x7b1,\x7d")
        = (some [7], some (.numError { Func := "Atoi", Num := "", Err := .ErrSyntax })) := by
  have h1 : strings.Trim "\x7b1,a,3\x7d" "\x7b\x7d" ≠ "" := by decide!
  have h2 : ∃ tok ∈ strings.Split (strings.Trim "\x7b1,a,3\x7d" "\x7b\x7d") ",",
      isDecimalInteger tok = false := ⟨"a", by decide!, by decide!⟩
  exact ⟨h1, h2, (int_slice_scan_bad_token (some [7]) "\x7b1,a,3\x7d" h1 h2).1, by decide!,
    by decide!⟩

theorem scanText_unquoted (dest : StringSlice) (x : String) (xs : List String)
    (hx : x ≠ "")
    (h : ∀ e ∈ x :: xs,
      ',' ∉ e.data ∧ '"' ∉ e.data ∧ '\x7b' ∉ e.data ∧ '\x7d' ∉ e.data) :
    StringSlice.scanText dest ("\x7b" ++ strings.Join (x :: xs) "," ++ "\x7d")
      = (some (x :: xs), none) := by
  have hjne : (strings.Join (x :: xs) ",").data ≠ [] := by
    rw [Join_data]
    intro hnil
    exact hx (String.ext (List.append_eq_nil.1 hnil).1)
  have hclean : ∀ c ∈ (strings.Join (x :: xs) ",").data, c ≠ '\x7b' ∧ c ≠ '\x7d' := by
    intro c hc
    rw [Join_data] at hc
    rcases List.mem_append.1 hc with hc | hc
    · constructor
      · rintro rfl
        exact (h x (List.mem_cons_self _ _)).2.2.1 hc
      · rintro rfl
        exact (h x (List.mem_cons_self _ _)).2.2.2 hc
    · obtain ⟨l, hl, hcl⟩ := List.mem_flatten.1 hc
      obtain ⟨e, he, rfl⟩ := List.mem_map.1 hl
      rcases List.mem_append.1 hcl with hc1 | hc1
      · have : c = ',' := by simpa using hc1
        subst this
        exact ⟨by decide, by decide⟩
      · constructor
        · rintro rfl
          exact (h e (List.mem_cons_of_mem _ he)).2.2.1 hc1
        · rintro rfl
          exact (h e (List.mem_cons_of_mem _ he)).2.2.2 hc1
  have htext : ("\x7b" ++ strings.Join (x :: xs) "," ++ "\x7d" : String)
      = ⟨'\x7b' :: (strings.Join (x :: xs) ",").data ++ ['\x7d']⟩ := by
    apply String.ext
    simp [String.data_append]
  have hne : (⟨(strings.Join (x :: xs) ",").data⟩ : String) ≠ "" := by
    intro hh
    exact hjne (congrArg String.data hh)
  unfold StringSlice.scanText
  simp only [htext, trim_braces_clean _ hjne hclean, hne, if_false]
  rw [split_join_comma x xs (fun e he => (h e he).1), trimQuotesLoop_eq]
  simp only [Prod.mk.injEq, and_true, Option.some.injEq]
  conv_rhs => rw [← List.map_id (x :: xs)]
  apply List.map_congr_left
  intro e he
  have hq : ∀ c ∈ e.data, ("\"" : String).data.contains c = false := by
    intro c hc
    have : c ≠ '"' := by
      rintro rfl
      exact (h e he).2.1 hc
    have hd : ("\"" : String).data = ['"'] := rfl
    simp [hd, this]
  exact trim_none e.data "\"" hq

/-- C17: `StringSlice.Scan` tolerates unquoted elements. For every non-empty
list of non-empty strings that contain no comma, double quote or brace,
scanning the unquoted text `{e1,e2,...,en}` returns no error and sets the
destination to `[e1,...,en]`, the value that scanning the quoted text
`{"e1","e2",...,"en"}` of `Value` yields. -/
theorem string_slice_scan_unquoted (es : List String) (dest : StringSlice) (hne : es ≠ [])
    (h : ∀ e ∈ es, e ≠ ""
      ∧ ',' ∉ e.data ∧ '"' ∉ e.data ∧ '\x7b' ∉ e.data ∧ '\x7d' ∉ e.data) :
    StringSlice.Scan dest (.string ("\x7b" ++ strings.Join es "," ++ "\x7d")) = (some es, none)
    ∧ StringSlice.Scan dest (.bytes ("\x7b" ++ strings.Join es "," ++ "\x7d")) = (some es, none)
    ∧ StringSlice.Scan dest (StringSlice.Value (some es)).1 = (some es, none)
    ∧ StringSlice.Scan dest (.string ("\x7b" ++ strings.Join es "," ++ "\x7d"))
        = StringSlice.Scan dest (StringSlice.Value (some es)).1 := by
  obtain ⟨x, xs, rfl⟩ := List.exists_cons_of_ne_nil hne
  have hu := scanText_unquoted dest x xs (h x (List.mem_cons_self _ _)).1
    (fun e he => (h e he).2)
  have hq : StringSlice.Scan dest (StringSlice.Value (some (x :: xs))).1
      = (some (x :: xs), none) := by
    rw [Value_nonempty]
    exact scanText_quoted dest x xs (fun e he => ⟨(h e he).2.1, (h e he).2.2.1⟩)
  exact ⟨hu, hu, hq, hu.trans hq.symm⟩

/-- Witness of C17: `{a,b,c}` and `{"a","b","c"}` both decode to
`["a","b","c"]`. -/
theorem string_slice_scan_unquoted_witness :
    (["a", "b", "c"] : List String) ≠ []
    ∧ StringSlice.Scan none (.string "\x7ba,b,c\x7d") = (some ["a", "b", "c"], none)
    ∧ StringSlice.Scan none (.string "\x7b\"a\",\"b\",\"c\"\x7d")
        = (some ["a", "b", "c"], none) := by
  have h := string_slice_scan_unquoted ["a", "b", "c"] none (by decide) (by decide)
  have e1 : ("\x7b" ++ strings.Join ["a", "b", "c"] "," ++ "\x7d" : String) = "\x7ba,b,c\x7d" := by
    decide!
  have e2 : (StringSlice.Value (some ["a", "b", "c"])).1
      = .string "\x7b\"a\",\"b\",\"c\"\x7d" := by decide!
  rw [e1, e2] at h
  exact ⟨by decide, h.1, h.2.2.1⟩

theorem space_beq (c : Char) : (' ' == c) = decide (c = ' ') := by
  by_cases h : c = ' '
  · subst h
    rfl
  · have h' : ¬ (' ' = c) := fun hh => h hh.symm
    simp only [h, decide_False, beq_eq_false_iff_ne, ne_eq, h', not_false_eq_true]

theorem dbl_prefix (c : Char) (X : List Char) :
    [' ', ' '].isPrefixOf (c :: X) = (decide (c = ' ') && decide (X.head? = some ' ')) := by
  cases X with
  | nil =>
    simp only [List.isPrefixOf, List.head?_nil, space_beq]
    simp
  | cons d X =>
    simp only [List.isPrefixOf, List.head?_cons, space_beq, Option.some.injEq, Bool.and_true]

theorem containsDbl_cons (c : Char) (X : List Char) :
    strings.containsChars [' ', ' '] (c :: X)
      = ((decide (c = ' ') && decide (X.head? = some ' '))
          || strings.containsChars [' ', ' '] X) := by
  simp only [strings.containsChars, dbl_prefix]

theorem containsChars_tail (sub : List Char) (c : Char) (l : List Char)
    (h : strings.containsChars sub (c :: l) = false) : strings.containsChars sub l = false := by
  simp only [strings.containsChars, Bool.or_eq_false_iff] at h
  exact h.2

theorem collapse_head (fuel : Nat) (l : List Char) :
    (strings.replaceChars [' ', ' '] [' '] fuel l).head? = some ' ' ↔ l.head? = some ' ' := by
  cases fuel with
  | zero => simp [strings.replaceChars]
  | succ fuel =>
    cases l with
    | nil => simp [strings.replaceChars]
    | cons c l =>
      simp only [strings.replaceChars, dbl_prefix]
      by_cases hm : (decide (c = ' ') && decide (l.head? = some ' ')) = true
      · simp only [hm, if_true]
        simp only [Bool.and_eq_true, decide_eq_true_eq] at hm
        simp [hm.1]
      · have hm' := Bool.eq_false_iff.2 hm
        simp only [hm', Bool.false_eq_true, if_false, List.head?_cons]

/-- One pass of `ReplaceAll(s, "  ", " ")` over a text without three spaces
in a row leaves no two spaces in a row. -/
theorem collapse_no_double (fuel : Nat) (l : List Char) (hlen : l.length ≤ fuel)
    (h : strings.containsChars [' ', ' ', ' '] l = false) :
    strings.containsChars [' ', ' '] (strings.replaceChars [' ', ' '] [' '] fuel l) = false := by
  induction fuel generalizing l with
  | zero =>
    have : l = [] := List.length_eq_zero.1 (Nat.le_zero.1 hlen)
    subst this
    rfl
  | succ fuel ih =>
    cases l with
    | nil => rfl
    | cons c l =>
      simp only [strings.replaceChars, dbl_prefix]
      by_cases hm : (decide (c = ' ') && decide (l.head? = some ' ')) = true
      · simp only [hm, if_true]
        simp only [Bool.and_eq_true, decide_eq_true_eq] at hm
        obtain ⟨hc, hl⟩ := hm
        subst hc
        cases l with
        | nil => simp at hl
        | cons d r =>
          simp only [List.head?_cons, Option.some.injEq] at hl
          subst hl
          have hr : strings.containsChars [' ', ' ', ' '] r = false :=
            containsChars_tail _ _ _ (containsChars_tail _ _ _ h)
          have hhead : ¬ r.head? = some ' ' := by
            intro hh
            cases r with
            | nil => simp at hh
            | cons e r =>
              simp only [List.head?_cons, Option.some.injEq] at hh
              subst hh
              simp [strings.containsChars, List.isPrefixOf] at h
          have hih := ih r (by simp only [List.length_cons] at hlen; omega) hr
          show strings.containsChars [' ', ' ']
            ([' '] ++ strings.replaceChars [' ', ' '] [' '] fuel r) = false
          rw [List.singleton_append, containsDbl_cons, hih]
          have : ¬ (strings.replaceChars [' ', ' '] [' '] fuel r).head? = some ' ' :=
            fun hh => hhead ((collapse_head fuel r).1 hh)
          simp [this]
      · have hm' := Bool.eq_false_iff.2 hm
        simp only [hm', Bool.false_eq_true, if_false]
        have hih := ih l (by simp only [List.length_cons] at hlen; omega)
          (containsChars_tail _ _ _ h)
        rw [containsDbl_cons, hih]
        simp only [Bool.and_eq_true, decide_eq_true_eq, not_and] at hm
        by_cases hc : c = ' '
        · have : ¬ (strings.replaceChars [' ', ' '] [' '] fuel l).head? = some ' ' :=
            fun hh => hm hc ((collapse_head fuel l).1 hh)
          simp [this]
        · simp [hc]

theorem containsChars_suffix (sub a b : List Char)
    (h : strings.containsChars sub (a ++ b) = false) : strings.containsChars sub b = false := by
  induction a with
  | nil => exact h
  | cons c a ih => exact ih (containsChars_tail _ _ _ h)

theorem uuid_head (fuel : Nat) (l : List Char) :
    (strings.replaceChars ['U', 'U', 'I', 'D'] ['T', 'E', 'X', 'T'] fuel l).head? = some ' '
      ↔ l.head? = some ' ' := by
  cases fuel with
  | zero => simp [strings.replaceChars]
  | succ fuel =>
    cases l with
    | nil => simp [strings.replaceChars]
    | cons c l =>
      simp only [strings.replaceChars]
      by_cases hm : ['U', 'U', 'I', 'D'].isPrefixOf (c :: l) = true
      · simp only [hm, if_true]
        have hc : c = 'U' := by
          simp only [List.isPrefixOf, Bool.and_eq_true, beq_iff_eq] at hm
          exact hm.1.symm
        subst hc
        simp
      · have hm' := Bool.eq_false_iff.2 hm
        simp only [hm', Bool.false_eq_true, if_false, List.head?_cons]

/-- Replacing `UUID` by `TEXT` brings no two spaces in a row into a text that
has none. -/
theorem uuid_no_double (fuel : Nat) (l : List Char) (hlen : l.length ≤ fuel)
    (h : strings.containsChars [' ', ' '] l = false) :
    strings.containsChars [' ', ' ']
      (strings.replaceChars ['U', 'U', 'I', 'D'] ['T', 'E', 'X', 'T'] fuel l) = false := by
  induction fuel generalizing l with
  | zero =>
    have : l = [] := List.length_eq_zero.1 (Nat.le_zero.1 hlen)
    subst this
    rfl
  | succ fuel ih =>
    cases l with
    | nil => rfl
    | cons c l =>
      simp only [strings.replaceChars]
      by_cases hm : ['U', 'U', 'I', 'D'].isPrefixOf (c :: l) = true
      · simp only [hm, if_true]
        have hpre : ['U', 'U', 'I', 'D'] <+: c :: l := List.isPrefixOf_iff_prefix.1 hm
        have heq := List.prefix_iff_eq_append.1 hpre
        have hdrop : strings.containsChars [' ', ' ']
            (List.drop ['U', 'U', 'I', 'D'].length (c :: l)) = false := by
          apply containsChars_suffix _ ['U', 'U', 'I', 'D']
          rw [heq]
          exact h
        have hdl : (List.drop ['U', 'U', 'I', 'D'].length (c :: l)).length ≤ fuel := by
          simp only [List.length_drop, List.length_cons, List.length_nil] at hlen ⊢
          omega
        have hih := ih _ hdl hdrop
        simp only [List.cons_append, List.nil_append, containsDbl_cons, hih]
        simp
      · have hm' := Bool.eq_false_iff.2 hm
        simp only [hm', Bool.false_eq_true, if_false]
        have hih := ih l (by simp only [List.length_cons] at hlen; omega)
          (containsChars_tail _ _ _ h)
        rw [containsDbl_cons] at h ⊢
        rw [hih]
        simp only [Bool.or_eq_false_iff, Bool.and_eq_false_imp, decide_eq_true_eq,
          decide_eq_false_iff_not, Bool.or_false] at h ⊢
        intro hc hh
        exact h.1 hc ((uuid_head fuel l).1 hh)

/-- Under SQLite, on a text that contains `SERIAL`: when the text reached
after replacing `SERIAL`, stripping `NOT NULL` and appending ` AUTOINCREMENT`
has no three spaces in a row, the rewritten type has no two spaces in a
row. -/
theorem sqlite_collapse_of_no_triple (t : String)
    (hs : strings.Contains t "SERIAL" = true)
    (h3 : strings.Contains
        (strings.ReplaceAll
            (strings.ReplaceAll (strings.ReplaceAll t "BIGSERIAL" "INTEGER") "SERIAL" "INTEGER")
            "NOT NULL" ""
          ++ " AUTOINCREMENT")
        "   " = false) :
    strings.Contains (rewriteType DriverSqlite t) "  " = false := by
  have hdbl : ("  " : String).data ≠ [] := by decide
  have huuid : ("UUID" : String).data ≠ [] := by decide
  have hcol : strings.Contains
      (strings.ReplaceAll
        (strings.ReplaceAll
            (strings.ReplaceAll (strings.ReplaceAll t "BIGSERIAL" "INTEGER") "SERIAL" "INTEGER")
            "NOT NULL" ""
          ++ " AUTOINCREMENT")
        "  " " ") "  " = false := by
    simp only [strings.Contains, strings.ReplaceAll, hdbl, if_false]
    exact collapse_no_double _ _ (Nat.le_refl _) h3
  simp only [rewriteType, if_true, hs]
  split_ifs with hu
  · simp only [strings.Contains, strings.ReplaceAll, huuid, if_false]
    exact uuid_no_double _ _ (Nat.le_refl _) hcol
  · exact hcol

/-- The fixture type `BIGSERIAL NOT NULL PRIMARY KEY` meets the condition:
no three spaces in a row arise, and its rewriting has no two in a row. -/
theorem sqlite_collapse_of_no_triple_fixture :
    strings.Contains "BIGSERIAL NOT NULL PRIMARY KEY" "SERIAL" = true
    ∧ strings.Contains (rewriteType DriverSqlite "BIGSERIAL NOT NULL PRIMARY KEY") "  " = false :=
  ⟨by decide!, sqlite_collapse_of_no_triple "BIGSERIAL NOT NULL PRIMARY KEY" (by decide!)
    (by decide!)⟩

/-- C21 at the failing input: the type texts `SERIAL NOT NULL NOT NULL`,
`BIGSERIAL NOT NULL ` and `BIGSERIAL NOT NULL NOT NULL PRIMARY KEY` contain
`SERIAL` and no two spaces in a row, yet the SQLite rewriting returns
`INTEGER  AUTOINCREMENT`, resp. `INTEGER  PRIMARY KEY AUTOINCREMENT`, with
two spaces in a row: stripping `NOT NULL` leaves three spaces and the single
pass of `ReplaceAll("  ", " ")` removes only one of them. -/
theorem collapse_leaves_double_space :
    strings.Contains "SERIAL NOT NULL NOT NULL" "SERIAL" = true
    ∧ strings.Contains "SERIAL NOT NULL NOT NULL" "  " = false
    ∧ rewriteType DriverSqlite "SERIAL NOT NULL NOT NULL" = "INTEGER  AUTOINCREMENT"
    ∧ strings.Contains (rewriteType DriverSqlite "SERIAL NOT NULL NOT NULL") "  " = true
    ∧ strings.Contains "BIGSERIAL NOT NULL " "  " = false
    ∧ rewriteType DriverSqlite "BIGSERIAL NOT NULL " = "INTEGER  AUTOINCREMENT"
    ∧ strings.Contains "BIGSERIAL NOT NULL NOT NULL PRIMARY KEY" "  " = false
    ∧ GenerateQueries id
        { TableName := "t"
          Model := [⟨[("db", "id"), ("dbtype", "BIGSERIAL NOT NULL NOT NULL PRIMARY KEY")]⟩]
          AutoGeneratingCols := ["id"]
          PrimaryKeys := ["id"]
          Driver := DriverSqlite }
      = .ok
        { CreateTable := "CREATE TABLE IF NOT EXISTS t (id INTEGER  PRIMARY KEY AUTOINCREMENT)"
          DropTable := "DROP TABLE IF EXISTS t"
          Select := "SELECT * FROM t"
          Insert := "INSERT INTO t () VALUES () RETURNING *"
          Update := "UPDATE t SET  WHERE id = :id RETURNING *"
          Upsert := "INSERT INTO t () VALUES () ON CONFLICT (id) DO UPDATE SET  RETURNING *"
          Delete := "DELETE FROM t WHERE id = :id" } := by
  decide!

/-- C22: for both list codecs, `Scan` of a string or byte source that is
empty once its leading and trailing braces are stripped returns no error and
leaves the destination exactly as it was, be it nil, empty or non-empty; the
sources made of braces only, such as the empty text, `{}` and `{{}}`, are
of that kind. -/
theorem scan_empty_keeps_destination (ss : StringSlice) (is : IntSlice) (v : String)
    (h : strings.Trim v "\x7b\x7d" = "") :
    StringSlice.Scan ss (.string v) = (ss, none)
    ∧ StringSlice.Scan ss (.bytes v) = (ss, none)
    ∧ IntSlice.Scan is (.string v) = (is, none)
    ∧ IntSlice.Scan is (.bytes v) = (is, none) := by
  have h1 : StringSlice.scanText ss v = (ss, none) := by
    unfold StringSlice.scanText
    simp only [h, if_true]
  have h2 : IntSlice.scanText is v = (is, none) := by
    unfold IntSlice.scanText
    simp only [h, if_true]
  exact ⟨h1, h1, h2, h2⟩

/-- Witness of C22: scanning `{}` into destinations that hold `["a"]` and
`[1]` keeps them; `{{}}` and the empty text are empty after trimming too. -/
theorem scan_empty_keeps_destination_witness :
    strings.Trim "\x7b\x7d" "\x7b\x7d" = ""
    ∧ strings.Trim "" "\x7b\x7d" = ""
    ∧ strings.Trim "\x7b\x7b\x7d\x7d" "\x7b\x7d" = ""
    ∧ StringSlice.Scan (some ["a"]) (.string "\x7b\x7d") = (some ["a"], none)
    ∧ StringSlice.Scan (some ["a"]) (.bytes "\x7b\x7d") = (some ["a"], none)
    ∧ IntSlice.Scan (some [1]) (.string "\x7b\x7d") = (some [1], none)
    ∧ IntSlice.Scan (some [1]) (.bytes "\x7b\x7d") = (some [1], none) :=
  ⟨by decide!, by decide!, by decide!,
    scan_empty_keeps_destination (some ["a"]) (some [1]) "\x7b\x7d" (by decide!)⟩

theorem hexVal_hexDigit (d : Nat) (hd : d < 16) : json.hexVal (json.hexDigit d) = some d := by
  interval_cases d <;> decide

theorem char_of_toNat (c : Char) (n : Nat) (h : c.toNat = n) : Char.ofNat n = c := by
  rw [← h, Char.ofNat_toNat]

theorem getu4_low (a b : Nat) (ha : a < 16) (hb : b < 16) (tail : List Char) :
    json.getu4 ('\\' :: 'u' :: '0' :: '0' :: json.hexDigit a :: json.hexDigit b :: tail)
      = some (a * 16 + b) := by
  have h0 : json.hexVal '0' = some 0 := by decide
  simp only [json.getu4, and_self, if_true, h0, hexVal_hexDigit a ha, hexVal_hexDigit b hb]
  simp

theorem getu4_separator (b : Nat) (hb : b < 16) (tail : List Char) :
    json.getu4 ('\\' :: 'u' :: '2' :: '0' :: '2' :: json.hexDigit b :: tail)
      = some (8224 + b) := by
  have h0 : json.hexVal '0' = some 0 := by decide
  have h2 : json.hexVal '2' = some 2 := by decide
  simp only [json.getu4, and_self, if_true, h0, h2, hexVal_hexDigit b hb]

theorem unquote_escapeRune (fuel : Nat) (c : Char) (tail acc : List Char) :
    json.unquote (fuel + 1) (json.escapeRune c ++ tail) acc
      = json.unquote fuel tail (acc ++ [c]) := by
  unfold json.escapeRune
  by_cases h1 : c = '"'
  · subst h1
    simp [json.unquote]
  by_cases h2 : c = '\\'
  · subst h2
    simp [json.unquote]
  by_cases h3 : c.toNat = 8
  · simp only [h1, h2, h3, if_true, if_false]
    simp [json.unquote]
    rw [char_of_toNat c 8 h3]
  by_cases h4 : c.toNat = 12
  · simp only [h1, h2, h3, h4, if_true, if_false]
    simp [json.unquote]
    rw [char_of_toNat c 12 h4]
  by_cases h5 : c.toNat = 10
  · simp only [h1, h2, h3, h4, h5, if_true, if_false]
    simp [json.unquote]
    rw [char_of_toNat c 10 h5]
  by_cases h6 : c.toNat = 13
  · simp only [h1, h2, h3, h4, h5, h6, if_true, if_false]
    simp [json.unquote]
    rw [char_of_toNat c 13 h6]
  by_cases h7 : c.toNat = 9
  · simp only [h1, h2, h3, h4, h5, h6, h7, if_true, if_false]
    simp [json.unquote]
    rw [char_of_toNat c 9 h7]
  by_cases h8 : c.toNat < 32 ∨ c = '<' ∨ c = '>' ∨ c = '&'
  · simp only [h1, h2, h3, h4, h5, h6, h7, h8, if_true, if_false]
    have hlt : c.toNat < 256 := by
      rcases h8 with h | h | h | h
      · omega
      · subst h
        decide
      · subst h
        decide
      · subst h
        decide
    have hg := getu4_low (c.toNat / 16) (c.toNat % 16) (by omega) (by omega) tail
    have hval : c.toNat / 16 * 16 + c.toNat % 16 = c.toNat := by omega
    rw [hval] at hg
    have hns : ¬ (55296 ≤ c.toNat ∧ c.toNat < 57344) := by omega
    simp only [List.cons_append, List.nil_append, json.unquote]
    simp only [show ¬ ('\\' = '"') by decide, if_false, if_true,
      show ¬ ('u' = '"' ∨ 'u' = '\\' ∨ 'u' = '/') by decide,
      show ¬ ('u' = 'b') by decide, show ¬ ('u' = 'f') by decide, show ¬ ('u' = 'n') by decide,
      show ¬ ('u' = 'r') by decide, show ¬ ('u' = 't') by decide, hg, hns, List.drop_succ_cons,
      List.drop_zero, Char.ofNat_toNat]
  by_cases h9 : c.toNat = 8232 ∨ c.toNat = 8233
  · simp only [h1, h2, h3, h4, h5, h6, h7, h8, h9, if_true, if_false]
    have hg := getu4_separator (c.toNat % 16) (by omega) tail
    have hval : 8224 + c.toNat % 16 = c.toNat := by omega
    rw [hval] at hg
    have hns : ¬ (55296 ≤ c.toNat ∧ c.toNat < 57344) := by omega
    simp only [List.cons_append, List.nil_append, json.unquote]
    simp only [show ¬ ('\\' = '"') by decide, if_false, if_true,
      show ¬ ('u' = '"' ∨ 'u' = '\\' ∨ 'u' = '/') by decide,
      show ¬ ('u' = 'b') by decide, show ¬ ('u' = 'f') by decide, show ¬ ('u' = 'n') by decide,
      show ¬ ('u' = 'r') by decide, show ¬ ('u' = 't') by decide, hg, hns, List.drop_succ_cons,
      List.drop_zero, Char.ofNat_toNat]
  · simp only [h1, h2, h3, h4, h5, h6, h7, h8, h9, if_false]
    have hge : ¬ c.toNat < 32 := fun h => h8 (Or.inl h)
    simp only [List.cons_append, List.nil_append, json.unquote, h1, h2, hge, if_false]

theorem escapeRune_length (c : Char) : 1 ≤ (json.escapeRune c).length := by
  unfold json.escapeRune
  split_ifs <;> simp

theorem escaped_length (s : List Char) : s.length ≤ (s.map json.escapeRune).flatten.length := by
  induction s with
  | nil => simp
  | cons c s ih =>
    have := escapeRune_length c
    simp only [List.map_cons, List.flatten_cons, List.length_append, List.length_cons]
    omega

theorem unquote_escaped (s : List Char) (fuel : Nat) (rest acc : List Char)
    (hf : s.length + 1 ≤ fuel) :
    json.unquote fuel ((s.map json.escapeRune).flatten ++ '"' :: rest) acc
      = .ok (⟨acc ++ s⟩, rest) := by
  induction s generalizing fuel acc with
  | nil =>
    obtain ⟨f, rfl⟩ : ∃ f, fuel = f + 1 := ⟨fuel - 1, by simp at hf; omega⟩
    simp [json.unquote]
  | cons c s ih =>
    obtain ⟨f, rfl⟩ : ∃ f, fuel = f + 1 := ⟨fuel - 1, by simp at hf; omega⟩
    simp only [List.map_cons, List.flatten_cons, List.append_assoc]
    rw [unquote_escapeRune, ih f (acc ++ [c]) (by simp at hf ⊢; omega)]
    simp

/-- Reading back the quoted text of a string gives the string and the text
after the closing quote. -/
theorem unquote_appendString (s : String) (rest : List Char) (fuel : Nat)
    (hf : ((s.data.map json.escapeRune).flatten ++ '"' :: rest).length + 1 ≤ fuel) :
    json.unquote fuel ((s.data.map json.escapeRune).flatten ++ '"' :: rest) []
      = .ok (s, rest) := by
  have hlen := escaped_length s.data
  rw [unquote_escaped s.data fuel rest [] (by
    simp only [List.length_append, List.length_cons] at hf
    omega)]
  simp

theorem fmtDigits_head_zero (fuel u : Nat) (hu : u ≤ fuel)
    (h : (fmt.fmtDigits fuel u []).head? = some '0') : u = 0 := by
  induction fuel generalizing u with
  | zero => exact Nat.le_zero.1 hu
  | succ fuel ih =>
    simp only [fmt.fmtDigits] at h
    by_cases h10 : u ≥ 10
    · rw [if_pos h10, fmtDigits_buf] at h
      have hne := fmtDigits_ne_nil fuel (u / 10)
      have hh : (fmt.fmtDigits fuel (u / 10) []).head? = some '0' := by
        cases hd : fmt.fmtDigits fuel (u / 10) [] with
        | nil => exact absurd hd hne
        | cons a l =>
          rw [hd] at h
          simpa using h
      have := ih (u / 10) (by omega) hh
      omega
    · rw [if_neg h10] at h
      have hlt : u < 10 := by omega
      simp only [List.head?_cons, Option.some.injEq] at h
      interval_cases u <;> first | rfl | exact absurd h (by decide)

theorem takeWhile_digits (ds rest : List Char) (hds : ∀ c ∈ ds, strconv.isDigit c = true)
    (hrest : ∀ c, rest.head? = some c → strconv.isDigit c = false) :
    (ds ++ rest).takeWhile strconv.isDigit = ds
      ∧ (ds ++ rest).dropWhile strconv.isDigit = rest := by
  induction ds with
  | nil =>
    cases rest with
    | nil => simp
    | cons c rest =>
      have := hrest c rfl
      simp [List.takeWhile, List.dropWhile, this]
  | cons d ds ih =>
    have hd := hds d (List.mem_cons_self _ _)
    have := ih (fun c hc => hds c (List.mem_cons_of_mem _ hc))
    simp [List.takeWhile, List.dropWhile, hd, this.1, this.2]

theorem atDelimiter_head (rest : List Char) (h : json.atDelimiter rest = true) (c : Char)
    (hc : rest.head? = some c) : c = ',' ∨ c = ']' ∨ c = '\x7d' := by
  cases rest with
  | nil => simp at hc
  | cons d rest =>
    simp only [List.head?_cons, Option.some.injEq] at hc
    subst hc
    simpa [json.atDelimiter] using h

theorem roundFloat64_exact (a : Nat) (ha : a ≤ 9007199254740992) : json.roundFloat64 a = a := by
  unfold json.roundFloat64
  rw [if_pos ha]

theorem exact_lt_range (a : Nat) (ha : a ≤ 9007199254740992) : ¬ (a ≥ 2 ^ 1024) := by
  have : (9007199254740992 : Nat) < 2 ^ 1024 := by norm_num
  omega

/-- Reading back the decimal text of an integer of magnitude at most `2^53`
gives the `float64` of that integer and the text after it. -/
theorem parseNumber_fmtInteger (n : Int) (rest : List Char)
    (hn : n.natAbs ≤ 9007199254740992) (hrest : json.atDelimiter rest = true) :
    json.parseNumber ((fmt.fmtInteger n).data ++ rest) = .ok (.float64 n, rest) := by
  have hds := fmtDigits_digits n.natAbs n.natAbs (Nat.le_refl _)
  have hval := digitsValue_fmtDigits n.natAbs n.natAbs (Nat.le_refl _)
  have hne := fmtDigits_ne_nil n.natAbs n.natAbs
  have hrd : ∀ c, rest.head? = some c → strconv.isDigit c = false := by
    intro c hc
    rcases atDelimiter_head rest hrest c hc with h | h | h <;> subst h <;> decide
  have htd := takeWhile_digits _ rest hds hrd
  have hzero : ¬ ((fmt.fmtDigits n.natAbs n.natAbs []).head? = some '0'
      ∧ 1 < (fmt.fmtDigits n.natAbs n.natAbs []).length) := by
    rintro ⟨h0, hl⟩
    have hz := fmtDigits_head_zero _ _ (Nat.le_refl _) h0
    rw [hz] at hl
    exact absurd hl (by decide)
  have hfrac : ¬ (rest.head? = some '.' ∨ rest.head? = some 'e' ∨ rest.head? = some 'E') := by
    rintro (h | h | h) <;> rcases atDelimiter_head rest hrest _ h with h | h | h <;>
      exact absurd h (by decide)
  have hround := roundFloat64_exact n.natAbs hn
  have hrange := exact_lt_range n.natAbs hn
  unfold json.parseNumber fmt.fmtInteger
  by_cases hneg : n < 0
  · have hpos : n.natAbs ≠ 0 := by omega
    simp only [if_pos hneg, List.cons_append, List.head?_cons, decide_True, if_true,
      List.tail_cons, htd.1, htd.2, hne, if_false, hzero, hfrac, hval, hround, hrange,
      hpos, and_false, true_and]
    have : -(n.natAbs : Int) = n := by
      rw [Int.ofNat_natAbs_of_nonpos (le_of_lt hneg)]
      simp
    rw [this]
  · have hhead : ¬ ((fmt.fmtDigits n.natAbs n.natAbs [] ++ rest).head? = some '-') := by
      intro h
      cases hd : fmt.fmtDigits n.natAbs n.natAbs [] with
      | nil => exact hne hd
      | cons a l =>
        rw [hd] at h
        simp only [List.cons_append, List.head?_cons, Option.some.injEq] at h
        have := hds a (by rw [hd]; exact List.mem_cons_self _ _)
        rw [h] at this
        exact absurd this (by decide)
    simp only [if_neg hneg, hhead, decide_False, Bool.false_eq_true, if_false, htd.1, htd.2, hne,
      hzero, hfrac, hval, hround, hrange, false_and]
    have : (n.natAbs : Int) = n := Int.natAbs_of_nonneg (by omega)
    rw [this]

theorem parseValue_null (fuel depth : Nat) (rest : List Char) :
    json.parseValue (fuel + 1) depth ('n' :: 'u' :: 'l' :: 'l' :: rest) = .ok (.null, rest) := by
  have hsp : json.isSpace 'n' = false := by decide
  simp [json.parseValue, List.dropWhile, hsp]

theorem parseValue_true (fuel depth : Nat) (rest : List Char) :
    json.parseValue (fuel + 1) depth ('t' :: 'r' :: 'u' :: 'e' :: rest)
      = .ok (.bool true, rest) := by
  have hsp : json.isSpace 't' = false := by decide
  simp [json.parseValue, List.dropWhile, hsp]

theorem parseValue_false (fuel depth : Nat) (rest : List Char) :
    json.parseValue (fuel + 1) depth ('f' :: 'a' :: 'l' :: 's' :: 'e' :: rest)
      = .ok (.bool false, rest) := by
  have hsp : json.isSpace 'f' = false := by decide
  simp [json.parseValue, List.dropWhile, hsp]

theorem parseValue_string (fuel depth : Nat) (tl rest2 : List Char) (str : String)
    (h : json.unquote (tl.length + 1) tl [] = .ok (str, rest2)) :
    json.parseValue (fuel + 1) depth ('"' :: tl) = .ok (.string str, rest2) := by
  have hsp : json.isSpace '"' = false := by decide
  simp [json.parseValue, List.dropWhile, hsp, h]

theorem parseValue_array_empty (fuel depth : Nat) (rest : List Char) (hd : depth + 1 ≤ 10000) :
    json.parseValue (fuel + 1) depth ('[' :: ']' :: rest) = .ok (.array [], rest) := by
  have hsp : json.isSpace '[' = false := by decide
  have hsp2 : json.isSpace ']' = false := by decide
  have hd2 : ¬ (10000 < depth + 1) := by omega
  simp [json.parseValue, List.dropWhile, hsp, hsp2, hd2]

theorem parseValue_object_empty (fuel depth : Nat) (rest : List Char) (hd : depth + 1 ≤ 10000) :
    json.parseValue (fuel + 1) depth ('\x7b' :: '\x7d' :: rest) = .ok (.object [], rest) := by
  have hsp : json.isSpace '\x7b' = false := by decide
  have hsp2 : json.isSpace '\x7d' = false := by decide
  have hd2 : ¬ (10000 < depth + 1) := by omega
  simp [json.parseValue, List.dropWhile, hsp, hsp2, hd2]

theorem parseValue_array (fuel depth : Nat) (c : Char) (tl : List Char)
    (hd : depth + 1 ≤ 10000) (hc : json.isSpace c = false) (hne : c ≠ ']') :
    json.parseValue (fuel + 1) depth ('[' :: c :: tl) = json.parseElems fuel (depth + 1) (c :: tl) [] := by
  have hsp : json.isSpace '[' = false := by decide
  have hd2 : ¬ (10000 < depth + 1) := by omega
  simp [json.parseValue, List.dropWhile, hsp, hc, hd2, hne]

theorem parseValue_object (fuel depth : Nat) (tl : List Char) (hd : depth + 1 ≤ 10000) :
    json.parseValue (fuel + 1) depth ('\x7b' :: '"' :: tl)
      = json.parseMembers fuel (depth + 1) ('"' :: tl) [] := by
  have hsp : json.isSpace '\x7b' = false := by decide
  have hsp2 : json.isSpace '"' = false := by decide
  have hd2 : ¬ (10000 < depth + 1) := by omega
  simp [json.parseValue, List.dropWhile, hsp, hsp2, hd2]

theorem digit_ne (c d : Char) (hc : c = '-' ∨ strconv.isDigit c = true)
    (hd : ¬ (d = '-' ∨ strconv.isDigit d = true)) : c ≠ d := by
  rintro rfl
  exact hd hc

theorem parseValue_number (fuel depth : Nat) (c : Char) (tl : List Char)
    (hc : c = '-' ∨ strconv.isDigit c = true) :
    json.parseValue (fuel + 1) depth (c :: tl) = json.parseNumber (c :: tl) := by
  have hsp : json.isSpace c = false := by
    have h1 := digit_ne c ' ' hc (by decide)
    have h2 := digit_ne c (Char.ofNat 9) hc (by decide)
    have h3 := digit_ne c (Char.ofNat 13) hc (by decide)
    have h4 := digit_ne c (Char.ofNat 10) hc (by decide)
    have e2 : c.toNat ≠ 9 := fun h => h2 (char_of_toNat c 9 h).symm
    have e3 : c.toNat ≠ 13 := fun h => h3 (char_of_toNat c 13 h).symm
    have e4 : c.toNat ≠ 10 := fun h => h4 (char_of_toNat c 10 h).symm
    simp [json.isSpace, h1, e2, e3, e4]
  have h1 := digit_ne c '\x7b' hc (by decide)
  have h2 := digit_ne c '[' hc (by decide)
  have h3 := digit_ne c '"' hc (by decide)
  have h4 := digit_ne c 't' hc (by decide)
  have h5 := digit_ne c 'f' hc (by decide)
  have h6 := digit_ne c 'n' hc (by decide)
  have h4b : ¬ ('t' = c) := fun h => h4 h.symm
  have h5b : ¬ ('f' = c) := fun h => h5 h.symm
  have h6b : ¬ ('n' = c) := fun h => h6 h.symm
  simp [json.parseValue, List.dropWhile, hsp, h1, h2, h3, h4b, h5b, h6b, hc]

theorem parseElems_comma (fuel depth : Nat) (s rest2 : List Char) (acc : List json.Any)
    (v : json.Any) (h : json.parseValue fuel depth s = .ok (v, ',' :: rest2)) :
    json.parseElems (fuel + 1) depth s acc = json.parseElems fuel depth rest2 (acc ++ [v]) := by
  have hsp : json.isSpace ',' = false := by decide
  simp [json.parseElems, h, List.dropWhile, hsp]

theorem parseElems_close (fuel depth : Nat) (s rest2 : List Char) (acc : List json.Any)
    (v : json.Any) (h : json.parseValue fuel depth s = .ok (v, ']' :: rest2)) :
    json.parseElems (fuel + 1) depth s acc = .ok (.array (acc ++ [v]), rest2) := by
  have hsp : json.isSpace ']' = false := by decide
  simp [json.parseElems, h, List.dropWhile, hsp]

theorem parseMembers_comma (fuel depth : Nat) (tl rest2 rest4 : List Char)
    (acc : List (String × json.Any)) (key : String) (v : json.Any)
    (hk : json.unquote (tl.length + 1) tl [] = .ok (key, ':' :: rest2))
    (h : json.parseValue fuel depth rest2 = .ok (v, ',' :: rest4)) :
    json.parseMembers (fuel + 1) depth ('"' :: tl) acc
      = json.parseMembers fuel depth rest4 (json.mapStore key v acc) := by
  have hsp : json.isSpace ',' = false := by decide
  have hsp2 : json.isSpace '"' = false := by decide
  have hsp3 : json.isSpace ':' = false := by decide
  simp [json.parseMembers, hk, h, List.dropWhile, hsp, hsp2, hsp3]

theorem parseMembers_close (fuel depth : Nat) (tl rest2 rest4 : List Char)
    (acc : List (String × json.Any)) (key : String) (v : json.Any)
    (hk : json.unquote (tl.length + 1) tl [] = .ok (key, ':' :: rest2))
    (h : json.parseValue fuel depth rest2 = .ok (v, '\x7d' :: rest4)) :
    json.parseMembers (fuel + 1) depth ('"' :: tl) acc
      = .ok (.object (json.mapStore key v acc), rest4) := by
  have hsp : json.isSpace '\x7d' = false := by decide
  have hsp2 : json.isSpace '"' = false := by decide
  have hsp3 : json.isSpace ':' = false := by decide
  simp [json.parseMembers, hk, h, List.dropWhile, hsp, hsp2, hsp3]

theorem mapStore_append (k : String) (v : json.Any) (acc : List (String × json.Any))
    (h : ∀ a ∈ acc.map Prod.fst, a < k) : json.mapStore k v acc = acc ++ [(k, v)] := by
  induction acc with
  | nil => rfl
  | cons p acc ih =>
    obtain ⟨a, w⟩ := p
    have ha : a < k := h a (by simp)
    have h1 : ¬ k < a := lt_asymm ha
    have h2 : ¬ k = a := fun e => lt_irrefl a (e ▸ ha)
    simp only [json.mapStore, h1, h2, if_false, List.cons_append]
    rw [ih (fun b hb => h b (by simp at hb ⊢; exact Or.inr hb))]

theorem keysIncreasing_tail (k : String) (ks : List String)
    (h : json.keysIncreasing (k :: ks) = true) : json.keysIncreasing ks = true := by
  cases ks with
  | nil => rfl
  | cons b rest =>
    simp only [json.keysIncreasing, Bool.and_eq_true] at h
    exact h.2

theorem keysIncreasing_lt (k : String) (ks : List String)
    (h : json.keysIncreasing (k :: ks) = true) : ∀ b ∈ ks, k < b := by
  induction ks generalizing k with
  | nil => simp
  | cons c rest ih =>
    simp only [json.keysIncreasing, Bool.and_eq_true, decide_eq_true_eq] at h
    intro b hb
    rcases List.mem_cons.1 hb with rfl | hb
    · exact h.1
    · exact lt_trans h.1 (ih c h.2 b hb)

theorem intercalate_cons_cons (a b : List Char) (l : List (List Char)) :
    List.intercalate [','] (a :: b :: l) = a ++ ',' :: List.intercalate [','] (b :: l) := by
  simp [List.intercalate, List.intersperse]

theorem fmtInteger_head (n : Int) :
    ∃ c tl, (fmt.fmtInteger n).data = c :: tl ∧ (c = '-' ∨ strconv.isDigit c = true) := by
  have hch := fmtInteger_chars n
  cases hd : (fmt.fmtInteger n).data with
  | nil =>
    exfalso
    unfold fmt.fmtInteger at hd
    by_cases hn : n < 0
    · rw [if_pos hn] at hd
      simp at hd
    · rw [if_neg hn] at hd
      exact fmtDigits_ne_nil _ _ hd
  | cons c tl =>
    refine ⟨c, tl, rfl, ?_⟩
    rcases hch c (by rw [hd]; exact List.mem_cons_self _ _) with h | h
    · exact Or.inr h
    · exact Or.inl h

/-- The text of a value starts with a character that is no white space and no
closing bracket. -/
theorem encode_head (v : json.Any) (t : List Char) (h : json.encode v = some t) :
    ∃ c tl, t = c :: tl ∧ json.isSpace c = false ∧ c ≠ ']' := by
  cases v with
  | null =>
    simp only [json.encode, Option.some.injEq] at h
    subst h
    exact ⟨_, _, rfl, by decide, by decide⟩
  | bool b =>
    cases b <;>
    · simp only [json.encode, Option.some.injEq] at h
      subst h
      exact ⟨_, _, rfl, by decide, by decide⟩
  | int n =>
    simp only [json.encode, Option.some.injEq] at h
    subst h
    obtain ⟨c, tl, hd, hc⟩ := fmtInteger_head n
    refine ⟨c, tl, hd, ?_, digit_ne c ']' hc (by decide)⟩
    have h1 := digit_ne c ' ' hc (by decide)
    have h2 := digit_ne c (Char.ofNat 9) hc (by decide)
    have h3 := digit_ne c (Char.ofNat 13) hc (by decide)
    have h4 := digit_ne c (Char.ofNat 10) hc (by decide)
    have e2 : c.toNat ≠ 9 := fun h => h2 (char_of_toNat c 9 h).symm
    have e3 : c.toNat ≠ 13 := fun h => h3 (char_of_toNat c 13 h).symm
    have e4 : c.toNat ≠ 10 := fun h => h4 (char_of_toNat c 10 h).symm
    simp [json.isSpace, h1, e2, e3, e4]
  | float64 n =>
    simp only [json.encode] at h
    split_ifs at h
    simp only [Option.some.injEq] at h
    subst h
    obtain ⟨c, tl, hd, hc⟩ := fmtInteger_head n
    refine ⟨c, tl, hd, ?_, digit_ne c ']' hc (by decide)⟩
    have h1 := digit_ne c ' ' hc (by decide)
    have h2 := digit_ne c (Char.ofNat 9) hc (by decide)
    have h3 := digit_ne c (Char.ofNat 13) hc (by decide)
    have h4 := digit_ne c (Char.ofNat 10) hc (by decide)
    have e2 : c.toNat ≠ 9 := fun h => h2 (char_of_toNat c 9 h).symm
    have e3 : c.toNat ≠ 13 := fun h => h3 (char_of_toNat c 13 h).symm
    have e4 : c.toNat ≠ 10 := fun h => h4 (char_of_toNat c 10 h).symm
    simp [json.isSpace, h1, e2, e3, e4]
  | string s =>
    simp only [json.encode, Option.some.injEq] at h
    subst h
    exact ⟨'"', _, rfl, by decide, by decide⟩
  | array elems =>
    simp only [json.encode] at h
    cases he : json.encodeElems elems with
    | none => simp [he] at h
    | some texts =>
      simp only [he, Option.some.injEq] at h
      subst h
      exact ⟨'[', _, rfl, by decide, by decide⟩
  | object fields =>
    simp only [json.encode] at h
    split_ifs at h
    cases he : json.encodeMembers fields with
    | none => simp [he] at h
    | some texts =>
      simp only [he, Option.some.injEq] at h
      subst h
      exact ⟨'\x7b', _, rfl, by decide, by decide⟩

theorem intercalate_singleton (a : List Char) : List.intercalate [','] [a] = a := by
  simp [List.intercalate, List.intersperse]

theorem encodeElems_cons (v : json.Any) (more : List json.Any) (texts : List (List Char))
    (h : json.encodeElems (v :: more) = some texts) :
    ∃ t ts, json.encode v = some t ∧ json.encodeElems more = some ts ∧ texts = t :: ts := by
  simp only [json.encodeElems] at h
  cases hv : json.encode v with
  | none => simp [hv] at h
  | some t =>
    cases hm : json.encodeElems more with
    | none => simp [hv, hm] at h
    | some ts =>
      simp only [hv, hm, Option.some.injEq] at h
      exact ⟨t, ts, rfl, rfl, h.symm⟩

theorem encodeMembers_cons (k : String) (v : json.Any) (more : List (String × json.Any))
    (texts : List (List Char)) (h : json.encodeMembers ((k, v) :: more) = some texts) :
    ∃ t ts, json.encode v = some t ∧ json.encodeMembers more = some ts
      ∧ texts = (json.appendString k ++ ':' :: t) :: ts := by
  simp only [json.encodeMembers] at h
  cases hv : json.encode v with
  | none => simp [hv] at h
  | some t =>
    cases hm : json.encodeMembers more with
    | none => simp [hv, hm] at h
    | some ts =>
      simp only [hv, hm, Option.some.injEq] at h
      exact ⟨t, ts, rfl, rfl, h.symm⟩

mutual

/-- Reading back the text of a value gives the decoded value and the text
after it, when every number is exact and the nesting stays within the limit. -/
theorem parse_encode : (v : json.Any) → (text : List Char) → json.encode v = some text →
    json.exactNumbers v = true → (fuel depth : Nat) → (rest : List Char) →
    2 * text.length ≤ fuel → depth + json.nesting v ≤ 10000 → json.atDelimiter rest = true →
    json.parseValue fuel depth (text ++ rest) = .ok (json.decoded v, rest)
  | .null, text, h, _, fuel, depth, rest, hf, _, _ => by
    simp only [json.encode, Option.some.injEq] at h
    subst h
    obtain ⟨f, rfl⟩ : ∃ f, fuel = f + 1 := ⟨fuel - 1, by simp at hf; omega⟩
    exact parseValue_null f depth rest
  | .bool true, text, h, _, fuel, depth, rest, hf, _, _ => by
    simp only [json.encode, Option.some.injEq] at h
    subst h
    obtain ⟨f, rfl⟩ : ∃ f, fuel = f + 1 := ⟨fuel - 1, by simp at hf; omega⟩
    exact parseValue_true f depth rest
  | .bool false, text, h, _, fuel, depth, rest, hf, _, _ => by
    simp only [json.encode, Option.some.injEq] at h
    subst h
    obtain ⟨f, rfl⟩ : ∃ f, fuel = f + 1 := ⟨fuel - 1, by simp at hf; omega⟩
    exact parseValue_false f depth rest
  | .int n, text, h, hex, fuel, depth, rest, hf, _, hr => by
    simp only [json.encode, Option.some.injEq] at h
    subst h
    simp only [json.exactNumbers, decide_eq_true_eq] at hex
    obtain ⟨c, tl, hd, hc⟩ := fmtInteger_head n
    obtain ⟨f, rfl⟩ : ∃ f, fuel = f + 1 := ⟨fuel - 1, by rw [hd] at hf; simp at hf; omega⟩
    have hp := parseNumber_fmtInteger n rest hex hr
    rw [hd] at hp ⊢
    rw [List.cons_append] at hp ⊢
    rw [parseValue_number f depth c _ hc, hp]
    rfl
  | .float64 n, text, h, hex, fuel, depth, rest, hf, _, hr => by
    simp only [json.exactNumbers, decide_eq_true_eq] at hex
    simp only [json.encode, if_pos hex, Option.some.injEq] at h
    subst h
    obtain ⟨c, tl, hd, hc⟩ := fmtInteger_head n
    obtain ⟨f, rfl⟩ : ∃ f, fuel = f + 1 := ⟨fuel - 1, by rw [hd] at hf; simp at hf; omega⟩
    have hp := parseNumber_fmtInteger n rest hex hr
    rw [hd] at hp ⊢
    rw [List.cons_append] at hp ⊢
    rw [parseValue_number f depth c _ hc, hp]
    rfl
  | .string s, text, h, _, fuel, depth, rest, hf, _, _ => by
    simp only [json.encode, Option.some.injEq] at h
    subst h
    obtain ⟨f, rfl⟩ : ∃ f, fuel = f + 1 := ⟨fuel - 1, by simp [json.appendString] at hf; omega⟩
    have hq : json.appendString s ++ rest
        = '"' :: ((s.data.map json.escapeRune).flatten ++ '"' :: rest) := by
      simp [json.appendString]
    rw [hq]
    exact parseValue_string f depth _ rest s (unquote_appendString s rest _ (Nat.le_refl _))
  | .array elems, text, h, hex, fuel, depth, rest, hf, hd, hr => by
    have ih := parse_encodeElems elems
    simp only [json.encode] at h
    cases he : json.encodeElems elems with
    | none => simp [he] at h
    | some texts =>
      simp only [he, Option.some.injEq] at h
      subst h
      obtain ⟨f, rfl⟩ : ∃ f, fuel = f + 1 := ⟨fuel - 1, by simp at hf; omega⟩
      simp only [json.nesting] at hd
      simp only [json.exactNumbers] at hex
      cases elems with
      | nil =>
        simp only [json.encodeElems, Option.some.injEq] at he
        subst he
        exact parseValue_array_empty f depth rest (by omega)
      | cons v more =>
        obtain ⟨t, ts, hv, hm, rfl⟩ := encodeElems_cons v more texts he
        obtain ⟨c, tl, hc, hsp, hne⟩ := encode_head v t hv
        have hstart : ∃ tl2, List.intercalate [','] (t :: ts) = c :: tl2 := by
          rw [intercalate_comma, hc]
          exact ⟨_, rfl⟩
        obtain ⟨tl2, htl2⟩ := hstart
        have hall := ih (t :: ts) he hex (by simp) f (depth + 1) rest []
          (by simp at hf; omega) (by omega) hr
        rw [htl2] at hall
        simp only [List.cons_append, List.append_assoc, List.singleton_append, htl2]
        rw [parseValue_array f depth c _ (by omega) hsp hne]
        simpa [json.decoded] using hall
  | .object fields, text, h, hex, fuel, depth, rest, hf, hd, hr => by
    have ih := parse_encodeMembers fields
    simp only [json.encode] at h
    by_cases hk : json.keysIncreasing (fields.map Prod.fst) = true
    · rw [if_pos hk] at h
      cases he : json.encodeMembers fields with
      | none => simp [he] at h
      | some texts =>
        simp only [he, Option.some.injEq] at h
        subst h
        obtain ⟨f, rfl⟩ : ∃ f, fuel = f + 1 := ⟨fuel - 1, by simp at hf; omega⟩
        simp only [json.nesting] at hd
        simp only [json.exactNumbers] at hex
        cases fields with
        | nil =>
          simp only [json.encodeMembers, Option.some.injEq] at he
          subst he
          exact parseValue_object_empty f depth rest (by omega)
        | cons p more =>
          obtain ⟨k, v⟩ := p
          obtain ⟨t, ts, hv, hm, rfl⟩ := encodeMembers_cons k v more texts he
          have hstart : ∃ tl2, List.intercalate [','] ((json.appendString k ++ ':' :: t) :: ts)
              = '"' :: tl2 := by
            rw [intercalate_comma]
            exact ⟨_, rfl⟩
          obtain ⟨tl2, htl2⟩ := hstart
          have hall := ih _ he hex (by simp) hk f (depth + 1) rest []
            (by simp) (by simp at hf; omega) (by omega) hr
          rw [htl2] at hall
          simp only [List.cons_append, List.append_assoc, List.singleton_append, htl2]
          rw [parseValue_object f depth _ (by omega)]
          simpa [json.decoded] using hall
    · rw [if_neg hk] at h
      cases h

/-- The same for the elements of an array after its opening bracket. -/
theorem parse_encodeElems : (elems : List json.Any) → (texts : List (List Char)) →
    json.encodeElems elems = some texts → json.exactNumbers.exactElems elems = true →
    elems ≠ [] → (fuel depth : Nat) → (rest : List Char) → (acc : List json.Any) →
    2 * (List.intercalate [','] texts).length + 1 ≤ fuel →
    depth + json.nesting.nestingElems elems ≤ 10000 → json.atDelimiter rest = true →
    json.parseElems fuel depth (List.intercalate [','] texts ++ ']' :: rest) acc
      = .ok (.array (acc ++ json.decoded.decodedElems elems), rest)
  | [], _, _, _, hne, _, _, _, _, _, _, _ => absurd rfl hne
  | v :: more, texts, h, hex, _, fuel, depth, rest, acc, hf, hd, hr => by
    have ihv := parse_encode v
    have ih := parse_encodeElems more
    obtain ⟨t, ts, hv, hm, rfl⟩ := encodeElems_cons v more texts h
    obtain ⟨f, rfl⟩ : ∃ f, fuel = f + 1 := ⟨fuel - 1, by omega⟩
    simp only [json.exactNumbers.exactElems, Bool.and_eq_true] at hex
    simp only [json.nesting.nestingElems] at hd
    cases more with
    | nil =>
      simp only [json.encodeElems, Option.some.injEq] at hm
      subst hm
      rw [intercalate_singleton] at hf ⊢
      have hp := ihv t hv hex.1 f depth (']' :: rest) (by omega) (by omega) (by simp [json.atDelimiter])
      rw [parseElems_close f depth _ rest acc _ hp]
      rfl
    | cons w more2 =>
      obtain ⟨t2, ts2, hw, hm2, rfl⟩ := encodeElems_cons w more2 ts hm
      rw [intercalate_cons_cons] at hf ⊢
      simp only [List.length_append, List.length_cons] at hf
      have hp := ihv t hv hex.1 f depth (',' :: (List.intercalate [','] (t2 :: ts2) ++ ']' :: rest))
        (by omega) (by omega) (by simp [json.atDelimiter])
      have hq := ih (t2 :: ts2) hm hex.2 (by simp) f depth rest (acc ++ [json.decoded v])
        (by omega) (by omega) hr
      simp only [List.append_assoc, List.cons_append]
      rw [parseElems_comma f depth _ _ acc _ hp, hq]
      simp [json.decoded.decodedElems]

/-- The same for the entries of an object after its opening brace. -/
theorem parse_encodeMembers : (fields : List (String × json.Any)) → (texts : List (List Char)) →
    json.encodeMembers fields = some texts → json.exactNumbers.exactFields fields = true →
    fields ≠ [] → json.keysIncreasing (fields.map Prod.fst) = true →
    (fuel depth : Nat) → (rest : List Char) → (acc : List (String × json.Any)) →
    (∀ a ∈ acc.map Prod.fst, ∀ b ∈ fields.map Prod.fst, a < b) →
    2 * (List.intercalate [','] texts).length + 1 ≤ fuel →
    depth + json.nesting.nestingFields fields ≤ 10000 → json.atDelimiter rest = true →
    json.parseMembers fuel depth (List.intercalate [','] texts ++ '\x7d' :: rest) acc
      = .ok (.object (acc ++ json.decoded.decodedFields fields), rest)
  | [], _, _, _, hne, _, _, _, _, _, _, _, _, _ => absurd rfl hne
  | (k, v) :: more, texts, h, hex, _, hk, fuel, depth, rest, acc, hacc, hf, hd, hr => by
    have ihv := parse_encode v
    have ih := parse_encodeMembers more
    obtain ⟨t, ts, hv, hm, rfl⟩ := encodeMembers_cons k v more texts h
    obtain ⟨f, rfl⟩ : ∃ f, fuel = f + 1 := ⟨fuel - 1, by omega⟩
    simp only [json.exactNumbers.exactFields, Bool.and_eq_true] at hex
    simp only [json.nesting.nestingFields] at hd
    have hstore : json.mapStore k (json.decoded v) acc = acc ++ [(k, json.decoded v)] :=
      mapStore_append k _ acc (fun a ha => hacc a ha k (by simp))
    have hklt := keysIncreasing_lt k (more.map Prod.fst) (by simpa using hk)
    have hktail := keysIncreasing_tail k (more.map Prod.fst) (by simpa using hk)
    cases more with
    | nil =>
      simp only [json.encodeMembers, Option.some.injEq] at hm
      subst hm
      rw [intercalate_singleton] at hf ⊢
      simp only [json.appendString, List.length_append, List.length_cons, List.length_nil,
        List.cons_append, List.append_assoc, List.nil_append] at hf ⊢
      have hu := unquote_appendString k (':' :: (t ++ '\x7d' :: rest)) _ (Nat.le_refl _)
      have hp := ihv t hv hex.1 f depth ('\x7d' :: rest) (by omega) (by omega) (by simp [json.atDelimiter])
      rw [parseMembers_close f depth _ _ rest acc k _ hu hp, hstore]
      rfl
    | cons p more2 =>
      obtain ⟨k2, w⟩ := p
      obtain ⟨t2, ts2, hw, hm2, rfl⟩ := encodeMembers_cons k2 w more2 ts hm
      rw [intercalate_cons_cons] at hf ⊢
      simp only [json.appendString, List.length_append, List.length_cons, List.length_nil,
        List.cons_append, List.append_assoc, List.nil_append] at hf ⊢
      have hu := unquote_appendString k (':' :: (t ++ ',' ::
        (List.intercalate [','] (('"' :: ((k2.data.map json.escapeRune).flatten ++ '"' :: ':' :: t2)) :: ts2)
          ++ '\x7d' :: rest))) _ (Nat.le_refl _)
      have hp := ihv t hv hex.1 f depth (',' ::
        (List.intercalate [','] (('"' :: ((k2.data.map json.escapeRune).flatten ++ '"' :: ':' :: t2)) :: ts2)
          ++ '\x7d' :: rest)) (by omega) (by omega) (by simp [json.atDelimiter])
      have hq := ih _ hm hex.2 (by simp) hktail f depth rest (acc ++ [(k, json.decoded v)])
        (by
          intro a ha b hb
          simp only [List.map_append, List.map_cons, List.map_nil, List.mem_append,
            List.mem_singleton] at ha
          rcases ha with ha | rfl
          · exact hacc a ha b (by simp at hb ⊢; exact Or.inr hb)
          · exact hklt b hb)
        (by
          simp only [json.appendString, List.length_append, List.length_cons, List.length_nil,
            List.cons_append, List.append_assoc, List.nil_append]
          omega)
        (by omega) hr
      simp only [json.appendString, List.cons_append, List.append_assoc, List.nil_append] at hq
      rw [parseMembers_comma f depth _ _ _ acc k _ hu hp, hstore, hq]
      simp [json.decoded.decodedFields]

end

theorem decodedFields_keys (fields : List (String × json.Any)) :
    (json.decoded.decodedFields fields).map Prod.fst = fields.map Prod.fst := by
  induction fields with
  | nil => rfl
  | cons p more ih =>
    obtain ⟨k, v⟩ := p
    simp [json.decoded.decodedFields, ih]

mutual

/-- A decoded value is written as the value it was decoded from, when every
number is exact. -/
theorem encode_decoded : (v : json.Any) → json.exactNumbers v = true →
    json.encode (json.decoded v) = json.encode v
  | .null, _ => rfl
  | .bool _, _ => rfl
  | .int n, hex => by
    simp only [json.exactNumbers, decide_eq_true_eq] at hex
    simp only [json.decoded, json.encode, if_pos hex]
  | .float64 _, _ => rfl
  | .string _, _ => rfl
  | .array elems, hex => by
    simp only [json.exactNumbers] at hex
    simp only [json.decoded, json.encode, encode_decodedElems elems hex]
  | .object fields, hex => by
    simp only [json.exactNumbers] at hex
    simp only [json.decoded, json.encode, encode_decodedFields fields hex, decodedFields_keys]

/-- The same for the elements of an array. -/
theorem encode_decodedElems : (elems : List json.Any) →
    json.exactNumbers.exactElems elems = true →
    json.encodeElems (json.decoded.decodedElems elems) = json.encodeElems elems
  | [], _ => rfl
  | v :: more, hex => by
    simp only [json.exactNumbers.exactElems, Bool.and_eq_true] at hex
    simp only [json.decoded.decodedElems, json.encodeElems, encode_decoded v hex.1,
      encode_decodedElems more hex.2]

/-- The same for the entries of a map. -/
theorem encode_decodedFields : (fields : List (String × json.Any)) →
    json.exactNumbers.exactFields fields = true →
    json.encodeMembers (json.decoded.decodedFields fields) = json.encodeMembers fields
  | [], _ => rfl
  | (k, v) :: more, hex => by
    simp only [json.exactNumbers.exactFields, Bool.and_eq_true] at hex
    simp only [json.decoded.decodedFields, json.encodeMembers, encode_decoded v hex.1,
      encode_decodedFields more hex.2]

end

mutual

/-- A value with ordered keys and exact numbers is within what `encode`
writes. -/
theorem encode_isSome : (v : json.Any) → json.keysOrdered v = true →
    json.exactNumbers v = true → ∃ text, json.encode v = some text
  | .null, _, _ => ⟨_, rfl⟩
  | .bool true, _, _ => ⟨_, rfl⟩
  | .bool false, _, _ => ⟨_, rfl⟩
  | .int _, _, _ => ⟨_, rfl⟩
  | .float64 n, _, hex => by
    simp only [json.exactNumbers, decide_eq_true_eq] at hex
    exact ⟨(fmt.fmtInteger n).data, by simp only [json.encode, if_pos hex]⟩
  | .string _, _, _ => ⟨_, rfl⟩
  | .array elems, hord, hex => by
    simp only [json.exactNumbers] at hex
    simp only [json.keysOrdered] at hord
    obtain ⟨texts, ht⟩ := encodeElems_isSome elems hord hex
    exact ⟨'[' :: List.intercalate [','] texts ++ [']'], by simp only [json.encode, ht]⟩
  | .object fields, hord, hex => by
    simp only [json.exactNumbers] at hex
    simp only [json.keysOrdered, Bool.and_eq_true] at hord
    obtain ⟨texts, ht⟩ := encodeMembers_isSome fields hord.2 hex
    exact ⟨'\x7b' :: List.intercalate [','] texts ++ ['\x7d'], by simp only [json.encode, hord.1, if_true, ht]⟩

/-- The same for the elements of an array. -/
theorem encodeElems_isSome : (elems : List json.Any) →
    json.keysOrdered.orderedElems elems = true → json.exactNumbers.exactElems elems = true →
    ∃ texts, json.encodeElems elems = some texts
  | [], _, _ => ⟨_, rfl⟩
  | v :: more, hord, hex => by
    simp only [json.exactNumbers.exactElems, Bool.and_eq_true] at hex
    simp only [json.keysOrdered.orderedElems, Bool.and_eq_true] at hord
    obtain ⟨t, ht⟩ := encode_isSome v hord.1 hex.1
    obtain ⟨ts, hts⟩ := encodeElems_isSome more hord.2 hex.2
    exact ⟨t :: ts, by simp only [json.encodeElems, ht, hts]⟩

/-- The same for the entries of a map. -/
theorem encodeMembers_isSome : (fields : List (String × json.Any)) →
    json.keysOrdered.orderedFields fields = true → json.exactNumbers.exactFields fields = true →
    ∃ texts, json.encodeMembers fields = some texts
  | [], _, _ => ⟨_, rfl⟩
  | (k, v) :: more, hord, hex => by
    simp only [json.exactNumbers.exactFields, Bool.and_eq_true] at hex
    simp only [json.keysOrdered.orderedFields, Bool.and_eq_true] at hord
    obtain ⟨t, ht⟩ := encode_isSome v hord.1 hex.1
    obtain ⟨ts, hts⟩ := encodeMembers_isSome more hord.2 hex.2
    exact ⟨(json.appendString k ++ ':' :: t) :: ts, by simp only [json.encodeMembers, ht, hts]⟩

end

theorem nesting_nested (k : Nat) : json.nesting (json.nested k) = k + 1 := by
  induction k with
  | zero => rfl
  | succ k ih =>
    simp [json.nested, json.nesting, json.nesting.nestingElems, ih]

